import Mathlib

/-!
Hashtable_.hpp: chained and linear-probing hash tables

A shallow embedding of `Hashtable::Hashtable_Chaining` and
`Hashtable::Hashtable_Probing` and the properties proved about them.

Conventions of the embedding.

* The template parameter `N` (number of buckets / slots) is an explicit argument.
* `Hashing::Hash_Function` is overloaded per key type; every overload returns
  `(some unsigned number computed from the key) % N`.  The number computed before
  the reduction is the parameter `h : K → Nat`.
* A C++ array `arr` of `N` elements is a `List`; `arr[i]` reads with `List.getD`
  and writes with `List.set`.
* `size_type` counters are natural numbers.  A counter counts live nodes / occupied
  slots, each of which owns heap storage, so it cannot reach `SIZE_MAX`; decrements
  are stated in the theorems in the form `new + removed = old`, which rules out a
  truncated subtraction.
* The sentinel `npos` (`SIZE_MAX`, never a valid index because `N ≤ SIZE_MAX`) of
  `Hashtable_Probing::insert` is `none`.
* A call whose behaviour is undefined in C++ has no result: `Hashtable_Chaining::clear`, which
  applies a scalar `delete` to storage allocated with `new[]`, returns an `Option`.
-/

set_option autoImplicit false

namespace Hashtable

/-! ## Hash function -/

/-- `Hashing::Hash_Function`: the overload's pre-reduction number `h value`, reduced `% N`. -/
def Hash_Function {K : Type} (h : K → Nat) (N : Nat) (value : K) : Nat :=
  h value % N

/-! ## Chained table -/

/-! A bucket (`DoublyLinkedList`: `head`, `tail`, `length` and the nodes linked between them) is
represented by the sequence of the keys of its nodes from `head` to `tail`; `length` is the
length of that sequence, `head` its first and `tail` its last element.  The operations below
follow the control flow of the member functions on this representation. -/

namespace DoublyLinkedList

/-- `DoublyLinkedList::search`: walk from `head` along `next`; the result is the position of
the first node whose key equals `value`, `none` for `nullptr`. -/
def search {K : Type} [DecidableEq K] : List K → K → Option Nat
  | [], _ => none
  | key :: rest, value =>
    if key = value then some 0 else (search rest value).map (· + 1)

/-- `DoublyLinkedList::push_back`: the first node when `length` is zero, otherwise a new node
linked after `tail`. -/
def push_back {K : Type} (l : List K) (value : K) : List K :=
  if l.length = 0 then [value] else l ++ [value]

/-- `DoublyLinkedList::pop_front`. -/
def pop_front {K : Type} (l : List K) : List K :=
  if l.length = 0 then l else if l.length = 1 then [] else l.tail

/-- `DoublyLinkedList::pop_back`. -/
def pop_back {K : Type} (l : List K) : List K :=
  if l.length = 0 then l else if l.length = 1 then [] else l.dropLast

/-- The `while(current)` loop of `DoublyLinkedList::erase`.  The list is split at the cursor:
`before` are the nodes in front of `current`, the second list is `current` and the nodes after
it (empty when `current` is `nullptr`).  A node whose key equals `value` is unlinked
(`pop_front` when it is `head`, `pop_back` when it is `tail`, otherwise its two neighbours are
linked to each other) and `current` moves to its successor. -/
def eraseLoop {K : Type} [DecidableEq K] (value : K) : List K → List K → Nat → List K × Nat
  | before, [], count => (before, count)
  | before, key :: after, count =>
    if key = value then
      if before = [] then
        eraseLoop value [] (pop_front (key :: after)) (count + 1)
      else if after = [] then
        eraseLoop value (pop_back (before ++ [key])) [] (count + 1)
      else
        eraseLoop value before after (count + 1)
    else
      eraseLoop value (before ++ [key]) after count
termination_by _ l _ => l.length
decreasing_by
  all_goals simp_wf
  simp only [pop_front]
  split
  · simp_all
  · split <;> simp

/-- `DoublyLinkedList::erase`: the remaining key sequence and the number of nodes removed. -/
def erase {K : Type} [DecidableEq K] (l : List K) (value : K) : List K × Nat :=
  eraseLoop value [] l 0

end DoublyLinkedList

/-- `Hashtable_Chaining<_Tp, N>`: `arr` holds the `N` buckets, `counter` the number of keys. -/
structure Hashtable_Chaining (K : Type) where
  arr : List (List K)
  counter : Nat
deriving DecidableEq, Repr

namespace Hashtable_Chaining

/-- `arr[index]` for the chained table. -/
def bucket {K : Type} (t : Hashtable_Chaining K) (index : Nat) : List K :=
  t.arr.getD index []

/-- The default constructor: `N` empty buckets, `counter` zero. -/
def init (K : Type) (N : Nat) : Hashtable_Chaining K :=
  ⟨List.replicate N [], 0⟩

/-- `Hashtable_Chaining::size`. -/
def size {K : Type} (t : Hashtable_Chaining K) : Nat := t.counter

/-- `Hashtable_Chaining::empty`. -/
def empty {K : Type} (t : Hashtable_Chaining K) : Bool :=
  if t.counter = 0 then true else false

/-- `Hashtable_Chaining::insert`. -/
def insert {K : Type} [DecidableEq K] (h : K → Nat) (N : Nat)
    (t : Hashtable_Chaining K) (value : K) : Bool × Hashtable_Chaining K :=
  let index := Hash_Function h N value
  if (DoublyLinkedList.search (t.bucket index) value).isNone then
    (true, ⟨t.arr.set index (DoublyLinkedList.push_back (t.bucket index) value), t.counter + 1⟩)
  else
    (false, t)

/-- `Hashtable_Chaining::search`. -/
def search {K : Type} [DecidableEq K] (h : K → Nat) (N : Nat)
    (t : Hashtable_Chaining K) (value : K) : Bool :=
  let index := Hash_Function h N value
  if (DoublyLinkedList.search (t.bucket index) value).isSome then true else false

/-- `Hashtable_Chaining::erase`: the number of removed nodes and the new table. -/
def erase {K : Type} [DecidableEq K] (h : K → Nat) (N : Nat)
    (t : Hashtable_Chaining K) (value : K) : Nat × Hashtable_Chaining K :=
  let index := Hash_Function h N value
  let r := DoublyLinkedList.erase (t.bucket index) value
  (r.2, ⟨t.arr.set index r.1, t.counter - r.2⟩)

/-- `Hashtable_Chaining::clear`.  When `counter` is zero the call does nothing.  Otherwise
`counter` is reset and `delete arr` is applied to the array that the constructor allocated with
`new DoublyLinkedList[N]`: a scalar `delete` of array storage is undefined behaviour (the
destructor uses `delete []`), the run aborts there and the call has no result, which is
`none`; the statement `arr = new DoublyLinkedList[N]` after it is not reached. -/
def clear {K : Type} (t : Hashtable_Chaining K) : Option (Hashtable_Chaining K) :=
  if t.counter ≠ 0 then none else some t

/-- The constructor from an initializer list: `insert` each value in order. -/
def ofList {K : Type} [DecidableEq K] (h : K → Nat) (N : Nat) (initList : List K) :
    Hashtable_Chaining K :=
  initList.foldl (fun t value => (insert h N t value).2) (init K N)

/-- States obtained from the empty table by `insert`, `erase` and `clear` (the calls of
`clear` that return). -/
inductive Reachable {K : Type} [DecidableEq K] (h : K → Nat) (N : Nat) :
    Hashtable_Chaining K → Prop
  | init : Reachable h N (init K N)
  | insert (t : Hashtable_Chaining K) (value : K) :
      Reachable h N t → Reachable h N (insert h N t value).2
  | erase (t : Hashtable_Chaining K) (value : K) :
      Reachable h N t → Reachable h N (erase h N t value).2
  | clear (t t' : Hashtable_Chaining K) :
      Reachable h N t → clear t = some t' → Reachable h N t'

end Hashtable_Chaining

/-! ## Probing table -/

/-- `Hashtable_Probing::data_wrapper`: `data` is the owning pointer (`none` for `nullptr`). -/
structure data_wrapper (K : Type) where
  data : Option K
  flag : Bool
deriving DecidableEq, Repr

namespace data_wrapper

/-- The default constructor `data_wrapper()`. -/
def blank {K : Type} : data_wrapper K := ⟨none, false⟩

/-- `data_wrapper::delete_data`: the value is released, `flag` is kept. -/
def delete_data {K : Type} (w : data_wrapper K) : data_wrapper K :=
  match w.data with
  | some _ => ⟨none, w.flag⟩
  | none => w

/-- `data_wrapper::set_data`. -/
def set_data {K : Type} (w : data_wrapper K) (value : K) : data_wrapper K :=
  match w.data with
  | none => ⟨some value, true⟩
  | some _ => ⟨some value, w.flag⟩

/-- `data_wrapper::to_blank`. -/
def to_blank {K : Type} (_w : data_wrapper K) : data_wrapper K := ⟨none, false⟩

/-- `data_wrapper::is_tombstone`. -/
def is_tombstone {K : Type} (w : data_wrapper K) : Bool :=
  w.data.isNone && w.flag == true

/-- `data_wrapper::is_blank`. -/
def is_blank {K : Type} (w : data_wrapper K) : Bool :=
  w.data.isNone && w.flag == false

/-- `data_wrapper::is_full`. -/
def is_full {K : Type} (w : data_wrapper K) : Bool :=
  w.data.isSome

/-- The test `arr[index].is_full() && arr[index].get_data() == value` of the three probe loops. -/
def holds {K : Type} [DecidableEq K] (w : data_wrapper K) (value : K) : Bool :=
  w.is_full && w.data == some value

end data_wrapper

/-- `Hashtable_Probing<_Tp, N>`: `arr` holds the `N` slots, `counter` the occupancy. -/
structure Hashtable_Probing (K : Type) where
  arr : List (data_wrapper K)
  counter : Nat
deriving DecidableEq, Repr

namespace Hashtable_Probing

/-- `arr[index]` for the probing table. -/
def slot {K : Type} (arr : List (data_wrapper K)) (index : Nat) : data_wrapper K :=
  arr.getD index data_wrapper.blank

/-- The default constructor: `N` blank slots, `counter` zero. -/
def init (K : Type) (N : Nat) : Hashtable_Probing K :=
  ⟨List.replicate N data_wrapper.blank, 0⟩

/-- `Hashtable_Probing::clear`: `arr[i].to_blank()` for `i = 0 .. N-1`, then `counter = 0`. -/
def clear {K : Type} (N : Nat) (t : Hashtable_Probing K) : Hashtable_Probing K :=
  ⟨(List.range N).foldl (fun arr i => arr.set i (slot arr i).to_blank) t.arr, 0⟩

/-- `Hashtable_Probing::count`. -/
def count {K : Type} (t : Hashtable_Probing K) : Nat := t.counter

/-- `Hashtable_Probing::size`. -/
def size {K : Type} (N : Nat) (_t : Hashtable_Probing K) : Nat := N

/-- `Hashtable_Probing::empty`. -/
def empty {K : Type} (t : Hashtable_Probing K) : Bool :=
  if t.counter = 0 then true else false

/-- `Hashtable_Probing::full`. -/
def full {K : Type} (N : Nat) (t : Hashtable_Probing K) : Bool :=
  if t.counter = N then true else false

/-- The probe loop of `search` and `erase`:
`while(!arr[index].is_blank() && search_counter != N)`.  The first argument is
`N - search_counter`, the number of slots still to examine, so the test
`search_counter != N` is the test that it is not zero.  The result is the final
`(index, search_counter)`. -/
def probeLoop {K : Type} [DecidableEq K] (N : Nat) (arr : List (data_wrapper K)) (value : K) :
    Nat → Nat → Nat → Nat × Nat
  | 0, index, search_counter => (index, search_counter)
  | rem + 1, index, search_counter =>
    if (slot arr index).is_blank then (index, search_counter)
    else if (slot arr index).holds value then (index, search_counter)
    else probeLoop N arr value rem ((index + 1) % N) (search_counter + 1)

/-- The probe loop of `insert`, which also records in `tomb_note` the first tombstone it
passes (`none` is `npos`).  The result is the final `(index, search_counter, tomb_note)`. -/
def insertLoop {K : Type} [DecidableEq K] (N : Nat) (arr : List (data_wrapper K)) (value : K) :
    Nat → Nat → Nat → Option Nat → Nat × Nat × Option Nat
  | 0, index, search_counter, tomb_note => (index, search_counter, tomb_note)
  | rem + 1, index, search_counter, tomb_note =>
    if (slot arr index).is_blank then (index, search_counter, tomb_note)
    else if (slot arr index).holds value then (index, search_counter, tomb_note)
    else insertLoop N arr value rem ((index + 1) % N) (search_counter + 1)
      (if (slot arr index).is_tombstone && tomb_note == none then some index else tomb_note)

/-- `arr[i].set_data(value)` where `i` is `tomb_note`; with `npos` the write is outside the
array (undefined behaviour in C++) and the model leaves the array as it is. -/
def writeAt {K : Type} (arr : List (data_wrapper K)) (i : Option Nat) (value : K) :
    List (data_wrapper K) :=
  match i with
  | some j => arr.set j ((slot arr j).set_data value)
  | none => arr

/-- `Hashtable_Probing::insert`. -/
def insert {K : Type} [DecidableEq K] (h : K → Nat) (N : Nat)
    (t : Hashtable_Probing K) (value : K) : Bool × Hashtable_Probing K :=
  if t.full N then (false, t)
  else
    let r := insertLoop N t.arr value N (Hash_Function h N value) 0 none
    let index := r.1
    let search_counter := r.2.1
    let tomb_note := r.2.2
    if !(slot t.arr index).is_blank && search_counter ≠ N then
      (false, t)
    else if (slot t.arr index).is_blank && tomb_note ≠ none && search_counter ≠ N then
      (true, ⟨writeAt t.arr tomb_note value, t.counter + 1⟩)
    else if (slot t.arr index).is_blank && tomb_note = none && search_counter ≠ N then
      (true, ⟨writeAt t.arr (some index) value, t.counter + 1⟩)
    else
      (true, ⟨writeAt t.arr tomb_note value, t.counter + 1⟩)

/-- `Hashtable_Probing::search`. -/
def search {K : Type} [DecidableEq K] (h : K → Nat) (N : Nat)
    (t : Hashtable_Probing K) (value : K) : Bool :=
  let r := probeLoop N t.arr value N (Hash_Function h N value) 0
  if r.2 = N then false
  else if r.2 ≠ N && (slot t.arr r.1).is_blank then false
  else true

/-- `Hashtable_Probing::erase`: the returned `0` or `1` and the new table. -/
def erase {K : Type} [DecidableEq K] (h : K → Nat) (N : Nat)
    (t : Hashtable_Probing K) (value : K) : Nat × Hashtable_Probing K :=
  let r := probeLoop N t.arr value N (Hash_Function h N value) 0
  if r.2 = N then (0, t)
  else if r.2 ≠ N && (slot t.arr r.1).is_blank then (0, t)
  else (1, ⟨t.arr.set r.1 (slot t.arr r.1).delete_data, t.counter - 1⟩)

/-- The constructor from an initializer list: `insert` each value in order. -/
def ofList {K : Type} [DecidableEq K] (h : K → Nat) (N : Nat) (value_list : List K) :
    Hashtable_Probing K :=
  value_list.foldl (fun t value => (insert h N t value).2) (init K N)

/-- States obtained from the empty table by `insert`, `erase` and `clear`. -/
inductive Reachable {K : Type} [DecidableEq K] (h : K → Nat) (N : Nat) :
    Hashtable_Probing K → Prop
  | init : Reachable h N (init K N)
  | insert (t : Hashtable_Probing K) (value : K) :
      Reachable h N t → Reachable h N (insert h N t value).2
  | erase (t : Hashtable_Probing K) (value : K) :
      Reachable h N t → Reachable h N (erase h N t value).2
  | clear (t : Hashtable_Probing K) :
      Reachable h N t → Reachable h N (clear N t)

/-- Slot `i` is `Occupied` with the key `k`. -/
def occupiedWith {K : Type} (t : Hashtable_Probing K) (i : Nat) (k : K) : Prop :=
  i < t.arr.length ∧ (slot t.arr i).is_full = true ∧ (slot t.arr i).data = some k

/-- The key `k` is stored: some slot is `Occupied` with a value equal to `k`. -/
def stored {K : Type} (t : Hashtable_Probing K) (k : K) : Prop :=
  ∃ i, occupiedWith t i k

/-- The structural invariant of the probing table: the array has `N` slots, a slot that owns a
value has its flag set, `counter` is the number of occupied slots, no key is held twice, and
the cyclic path from a key's hash index to the slot holding it has no blank slot. -/
structure Inv {K : Type} (h : K → Nat) (N : Nat) (t : Hashtable_Probing K) : Prop where
  len : t.arr.length = N
  flagged : ∀ i k, (slot t.arr i).data = some k → (slot t.arr i).flag = true
  cnt : t.counter = t.arr.countP (fun w => w.is_full)
  uniq : ∀ i j k, (slot t.arr i).data = some k → (slot t.arr j).data = some k → i = j
  chain : ∀ j k, (slot t.arr j).data = some k →
    ∀ d, d ≤ (j + N - Hash_Function h N k) % N →
      (slot t.arr ((Hash_Function h N k + d) % N)).is_blank = false

end Hashtable_Probing

/-! ## Specification-side notions -/

/-- The distinct keys of a list in the order of their first occurrence: each key is kept where
it first occurs and removed from the rest of the list. -/
def firstOccurrences {K : Type} [DecidableEq K] : List K → List K
  | [] => []
  | k :: rest => k :: (firstOccurrences rest).filter (fun x => decide (x ≠ k))

/-- The initializer list of both tables in `Hashtable_test.cpp`. -/
def testKeys : List String := ["Hello", "World!", "Data", "structure", "Algorithm"]

/-! ## Example tables -/

/-- The generic overload `static_cast<size_type>(value) % N` on `Nat` keys: the number reduced
is the key itself. -/
def natHash : Nat → Nat := fun value => value

/-- A probing table of three slots after `insert(0)` and `insert(3)`; both keys hash to
index 0, so `3` is placed in slot 1. -/
def collided : Hashtable_Probing Nat :=
  (Hashtable_Probing.insert natHash 3
    (Hashtable_Probing.insert natHash 3 (Hashtable_Probing.init Nat 3) 0).2 3).2

/-- The table `collided` after `erase(0)`: a tombstone lies in front of the key `3`. -/
def collidedErased : Hashtable_Probing Nat :=
  (Hashtable_Probing.erase natHash 3 collided 0).2

/-- A chained table of three buckets whose bucket 0 holds the key `3` twice. -/
def repeated : Hashtable_Chaining Nat := ⟨[[3, 0, 3, 6], [1], []], 5⟩

/-! ## The overloads of `Hashing::Hash_Function`

`size_type` is taken 64 bits wide and `unsigned int` 32 bits wide.  A key of an integral or
character type is the integer it denotes; a `std::string` is the list of its `char` values. -/

namespace Hashing

/-- Conversion of an integer to `unsigned int`: its residue modulo `2^32`. -/
def toUInt32 (value : Int) : Nat := (value % 2 ^ 32).toNat

/-- Conversion of an integer to a 64-bit unsigned type: its residue modulo `2^64`. -/
def toUInt64 (value : Int) : Nat := (value % 2 ^ 64).toNat

/-- The generic overload before the reduction: `static_cast<size_type>(value)`. -/
def genericValue (value : Int) : Nat := toUInt64 value

/-- The overloads for `char`, `unsigned char` and `signed char` before the reduction, with
`hash = 0xAAAAAAAA`: `(hash << 7) ^ (value) * (hash >> 3)` when `(value & 1) == 0`, otherwise
`~((hash << 11) + (value ^ (hash >> 5)))`, all in `unsigned int`. -/
def charValue (value : Int) : Nat :=
  let hash : Nat := 0xAAAAAAAA
  if toUInt32 value &&& 1 = 0 then
    ((hash <<< 7) % 2 ^ 32) ^^^ ((toUInt32 value * (hash >>> 3)) % 2 ^ 32)
  else
    2 ^ 32 - 1 - ((hash <<< 11) % 2 ^ 32 + (toUInt32 value ^^^ (hash >>> 5))) % 2 ^ 32

/-- The constant `prime_chosen` of the `std::string` overload. -/
def prime_chosen : Nat := 263

/-- The constant `carol_prime = pow(pow(2, 15) - 1, 2) - 2` of the `std::string` overload. -/
def carol_prime : Nat := (2 ^ 15 - 1) ^ 2 - 2

/-- One pass of the loop of the `std::string` overload,
`hash += ((prime_chosen * carol_prime) ^ (prime_chosen * hash + it)) % carol_prime`,
on the 64-bit pattern of `hash`. -/
def stringStep (hash : Nat) (it : Int) : Nat :=
  (hash + ((prime_chosen * carol_prime) ^^^ toUInt64 (prime_chosen * (hash : Int) + it))
    % carol_prime) % 2 ^ 64

/-- The `std::string` overload before the reduction: `hash` starts at `0` and takes one pass
per character; the final `hash % N` reads `hash` as an unsigned 64-bit number. -/
def stringValue (value : List Int) : Nat := value.foldl stringStep 0

end Hashing

/-! ## Sequences of calls -/

/-- A call of `insert` or of `erase`. -/
inductive Update (K : Type) where
  | insert (value : K)
  | erase (value : K)
deriving DecidableEq, Repr

/-- A table together with the record of the calls made on it: `inserted` counts the `insert`
calls that returned `true`, `erased` adds up the values returned by the `erase` calls. -/
structure Tally (T : Type) where
  table : T
  inserted : Nat
  erased : Nat

namespace Hashtable_Chaining

/-- One call on the chained table, recorded in the tally. -/
def step {K : Type} [DecidableEq K] (h : K → Nat) (N : Nat)
    (s : Tally (Hashtable_Chaining K)) : Update K → Tally (Hashtable_Chaining K)
  | Update.insert value =>
    ⟨(insert h N s.table value).2,
      s.inserted + (if (insert h N s.table value).1 = true then 1 else 0), s.erased⟩
  | Update.erase value =>
    ⟨(erase h N s.table value).2, s.inserted, s.erased + (erase h N s.table value).1⟩

/-- A sequence of calls applied in order to the empty chained table. -/
def run {K : Type} [DecidableEq K] (h : K → Nat) (N : Nat) (calls : List (Update K)) :
    Tally (Hashtable_Chaining K) :=
  calls.foldl (step h N) ⟨init K N, 0, 0⟩

/-- The structural invariant of the chained table: `N` buckets, `counter` is the total number
of keys in the buckets, and no bucket holds a key twice. -/
structure Inv {K : Type} (N : Nat) (t : Hashtable_Chaining K) : Prop where
  len : t.arr.length = N
  cnt : t.counter = (t.arr.map List.length).sum
  nodup : ∀ i, (t.bucket i).Nodup

end Hashtable_Chaining

namespace Hashtable_Probing

/-- One call on the probing table, recorded in the tally. -/
def step {K : Type} [DecidableEq K] (h : K → Nat) (N : Nat)
    (s : Tally (Hashtable_Probing K)) : Update K → Tally (Hashtable_Probing K)
  | Update.insert value =>
    ⟨(insert h N s.table value).2,
      s.inserted + (if (insert h N s.table value).1 = true then 1 else 0), s.erased⟩
  | Update.erase value =>
    ⟨(erase h N s.table value).2, s.inserted, s.erased + (erase h N s.table value).1⟩

/-- A sequence of calls applied in order to the empty probing table. -/
def run {K : Type} [DecidableEq K] (h : K → Nat) (N : Nat) (calls : List (Update K)) :
    Tally (Hashtable_Probing K) :=
  calls.foldl (step h N) ⟨init K N, 0, 0⟩

/-- The probe loop of `search` and `erase` as it is written,
`while(!arr[index].is_blank() && search_counter != N)`, run with a budget of evaluations of
the loop test; `none` when the budget is used up before the loop has ended. -/
def probeLoopFuel {K : Type} [DecidableEq K] (N : Nat) (arr : List (data_wrapper K))
    (value : K) : Nat → Nat → Nat → Option (Nat × Nat)
  | 0, _, _ => none
  | fuel + 1, index, search_counter =>
    if !(slot arr index).is_blank && search_counter ≠ N then
      if (slot arr index).holds value then some (index, search_counter)
      else probeLoopFuel N arr value fuel ((index + 1) % N) (search_counter + 1)
    else some (index, search_counter)

/-- The probe loop of `insert` as it is written, run with a budget of evaluations of the loop
test; `none` when the budget is used up before the loop has ended. -/
def insertLoopFuel {K : Type} [DecidableEq K] (N : Nat) (arr : List (data_wrapper K))
    (value : K) : Nat → Nat → Nat → Option Nat → Option (Nat × Nat × Option Nat)
  | 0, _, _, _ => none
  | fuel + 1, index, search_counter, tomb_note =>
    if !(slot arr index).is_blank && search_counter ≠ N then
      if (slot arr index).holds value then some (index, search_counter, tomb_note)
      else insertLoopFuel N arr value fuel ((index + 1) % N) (search_counter + 1)
        (if (slot arr index).is_tombstone && tomb_note == none then some index else tomb_note)
    else some (index, search_counter, tomb_note)

/-- The layout in which all `N` slots are tombstones. -/
def allTombstones (K : Type) (N : Nat) : List (data_wrapper K) :=
  List.replicate N ⟨none, true⟩

/-- The probe sequence `start, start + 1, ...` taken `mod N`, cut at the first `Empty` slot or
after `N` slots: the offsets of the slots in front of the cut (none of them is `Empty`). -/
def probeCut {K : Type} (N : Nat) (arr : List (data_wrapper K)) (start : Nat) : List Nat :=
  (List.range N).takeWhile (fun e => !(slot arr ((start + e) % N)).is_blank)

/-- The slot in which the specification places a new key: the first `Tombstone` slot of the
cut probe sequence if it contains one, otherwise the slot at which the sequence was cut. -/
def insertTarget {K : Type} (N : Nat) (arr : List (data_wrapper K)) (start : Nat) : Nat :=
  match (probeCut N arr start).find? (fun e => (slot arr ((start + e) % N)).is_tombstone) with
  | some e => (start + e) % N
  | none => (start + (probeCut N arr start).length) % N

end Hashtable_Probing



/-! ## Copies of the probing table -/

namespace data_wrapper

/-- The copy constructor `data_wrapper(const data_wrapper& other)`: a copy of the value with
`flag = true` when `other` owns a value, otherwise `data = nullptr` and `flag = false`. -/
def copy {K : Type} (other : data_wrapper K) : data_wrapper K :=
  match other.data with
  | some value => ⟨some value, true⟩
  | none => ⟨none, false⟩

/-- The copy assignment `operator=(const data_wrapper& other)` on a different object:
`delete_data()`, then a copy of the value with `flag = true` when `other` owns a value,
otherwise `data = nullptr` and `flag = false`. -/
def assign {K : Type} (_w other : data_wrapper K) : data_wrapper K :=
  match other.data with
  | some value => ⟨some value, true⟩
  | none => ⟨none, false⟩

end data_wrapper

namespace Hashtable_Probing

/-- The loop `for(i = 0; i < N; i++) arr[i] = other.arr[i];` of the copy constructor and of the
copy assignment. -/
def copySlots {K : Type} (N : Nat) (arr other : List (data_wrapper K)) :
    List (data_wrapper K) :=
  (List.range N).foldl (fun a i => a.set i ((slot a i).assign (slot other i))) arr

/-- The copy constructor `Hashtable_Probing(const Hashtable_Probing& other)`: the default
constructor, then the slots and the counter of `other`. -/
def copyConstruct {K : Type} (N : Nat) (other : Hashtable_Probing K) : Hashtable_Probing K :=
  ⟨copySlots N (init K N).arr other.arr, other.counter⟩

/-- The copy assignment `operator=(const Hashtable_Probing& other)` to a different table
`t`. -/
def copyAssign {K : Type} (N : Nat) (t other : Hashtable_Probing K) : Hashtable_Probing K :=
  ⟨copySlots N t.arr other.arr, other.counter⟩

end Hashtable_Probing

/-! ## Lockstep runs of the two tables -/

/-- A call of the interface shared by the two tables. -/
inductive Call (K : Type) where
  | insert (value : K)
  | search (value : K)
  | erase (value : K)
  | clear
deriving DecidableEq, Repr

/-- What a call returns: the `bool` of `insert` and `search`, the count of `erase`, nothing for
`clear`. -/
inductive Outcome where
  | bool (b : Bool)
  | count (n : Nat)
  | done
deriving DecidableEq, Repr

namespace Hashtable_Chaining

/-- One call on the chained table: what it returns and the table after it; `none` when the
call has no result. -/
def call {K : Type} [DecidableEq K] (h : K → Nat) (N : Nat) (t : Hashtable_Chaining K) :
    Call K → Option (Outcome × Hashtable_Chaining K)
  | Call.insert value => some (Outcome.bool (insert h N t value).1, (insert h N t value).2)
  | Call.search value => some (Outcome.bool (search h N t value), t)
  | Call.erase value => some (Outcome.count (erase h N t value).1, (erase h N t value).2)
  | Call.clear =>
    match clear t with
    | some t' => some (Outcome.done, t')
    | none => none

/-- What each call of a sequence returns, with `size()` after the call; `none` when one of the
calls has no result. -/
def trace {K : Type} [DecidableEq K] (h : K → Nat) (N : Nat) :
    Hashtable_Chaining K → List (Call K) → Option (List (Outcome × Nat))
  | _, [] => some []
  | t, c :: calls =>
    match call h N t c with
    | none => none
    | some r =>
      match trace h N r.2 calls with
      | none => none
      | some rest => some ((r.1, r.2.size) :: rest)

/-- Every `clear` of the sequence is called on a table whose `counter` is zero. -/
def clearsOnlyEmpty {K : Type} [DecidableEq K] (h : K → Nat) (N : Nat) :
    Hashtable_Chaining K → List (Call K) → Prop
  | _, [] => True
  | t, Call.insert value :: calls => clearsOnlyEmpty h N (insert h N t value).2 calls
  | t, Call.search _ :: calls => clearsOnlyEmpty h N t calls
  | t, Call.erase value :: calls => clearsOnlyEmpty h N (erase h N t value).2 calls
  | t, Call.clear :: calls => t.counter = 0 ∧ clearsOnlyEmpty h N t calls

end Hashtable_Chaining

namespace Hashtable_Probing

/-- One call on the probing table: what it returns and the table after it. -/
def call {K : Type} [DecidableEq K] (h : K → Nat) (N : Nat) (t : Hashtable_Probing K) :
    Call K → Outcome × Hashtable_Probing K
  | Call.insert value => (Outcome.bool (insert h N t value).1, (insert h N t value).2)
  | Call.search value => (Outcome.bool (search h N t value), t)
  | Call.erase value => (Outcome.count (erase h N t value).1, (erase h N t value).2)
  | Call.clear => (Outcome.done, clear N t)

/-- What each call of a sequence returns, with `count()` after the call. -/
def trace {K : Type} [DecidableEq K] (h : K → Nat) (N : Nat) :
    Hashtable_Probing K → List (Call K) → List (Outcome × Nat)
  | _, [] => []
  | t, c :: calls => ((call h N t c).1, (call h N t c).2.count) :: trace h N (call h N t c).2 calls

/-- The probing table is never full at a moment when `insert` is called with a key it does not
hold: whenever a call of the sequence is `insert(k)` on a full table, `k` is stored. -/
def neverFullOnNewKey {K : Type} [DecidableEq K] (h : K → Nat) (N : Nat) :
    Hashtable_Probing K → List (Call K) → Prop
  | _, [] => True
  | t, Call.insert value :: calls =>
    (t.full N = true → stored t value) ∧ neverFullOnNewKey h N (insert h N t value).2 calls
  | t, c :: calls => neverFullOnNewKey h N (call h N t c).2 calls

end Hashtable_Probing

namespace Hashtable_Probing

/-- Part (a) of the structural invariant: no two occupied slots hold equal keys. -/
def noDuplicateKeys {K : Type} (t : Hashtable_Probing K) : Prop :=
  ∀ i j k, occupiedWith t i k → occupiedWith t j k → i = j

/-- Part (b) of the structural invariant: for every occupied slot `j` holding a key `k`, with
`d = (j + N - hash(k)) mod N` the cyclic distance from `hash(k)` to `j`, none of the slots
`hash(k), hash(k) + 1, ..., hash(k) + d` taken `mod N` is blank. -/
def probePathsUnbroken {K : Type} (h : K → Nat) (N : Nat) (t : Hashtable_Probing K) : Prop :=
  ∀ j k, occupiedWith t j k →
    ∀ d, d ≤ (j + N - Hash_Function h N k) % N →
      (slot t.arr ((Hash_Function h N k + d) % N)).is_blank = false

end Hashtable_Probing


/-! ## The bucket list at the level of nodes

`DoublyLinkedList::Node` objects live in a store of cells addressed by natural numbers; a
pointer is an address, `nullptr` is `none`.  `new Node` takes the next unused address and
`delete` empties the cell.  A member function called on an address whose cell is empty (a
dangling or null pointer, undefined behaviour in C++) reads `nullptr` and writes nothing. -/

namespace DoublyLinkedList

/-- The fields of `DoublyLinkedList::Node`. -/
structure Node (K : Type) where
  next : Option Nat
  prev : Option Nat
  key : Option K
deriving DecidableEq, Repr

/-- The cells holding the nodes, and the address the next `new Node` returns. -/
structure Store (K : Type) where
  cell : Nat → Option (Node K)
  fresh : Nat

namespace Store

/-- The store with the cell at `p` replaced. -/
def write {K : Type} (s : Store K) (p : Nat) (n : Option (Node K)) : Store K :=
  ⟨fun x => if x = p then n else s.cell x, s.fresh⟩

/-- `p->getNext()`, that is the field `next` of the node at `p`. -/
def getNext {K : Type} (s : Store K) (p : Nat) : Option Nat :=
  match s.cell p with
  | some n => n.next
  | none => none

/-- `p->getPrevious()`, that is the field `prev` of the node at `p`. -/
def getPrevious {K : Type} (s : Store K) (p : Nat) : Option Nat :=
  match s.cell p with
  | some n => n.prev
  | none => none

/-- The key the node at `p` owns (`p->getKey()` dereferences it). -/
def getKey {K : Type} (s : Store K) (p : Nat) : Option K :=
  match s.cell p with
  | some n => n.key
  | none => none

/-- The assignment `p->next = v`. -/
def setNextField {K : Type} (s : Store K) (p : Nat) (v : Option Nat) : Store K :=
  match s.cell p with
  | some n => s.write p (some ⟨v, n.prev, n.key⟩)
  | none => s

/-- The assignment `p->prev = v`. -/
def setPrevField {K : Type} (s : Store K) (p : Nat) (v : Option Nat) : Store K :=
  match s.cell p with
  | some n => s.write p (some ⟨n.next, v, n.key⟩)
  | none => s

/-- The assignment `p->key = v`. -/
def setKeyField {K : Type} (s : Store K) (p : Nat) (v : Option K) : Store K :=
  match s.cell p with
  | some n => s.write p (some ⟨n.next, n.prev, v⟩)
  | none => s

/-- `new Node(key)`: the node `next = prev = nullptr` owning `key` at the next unused address;
the result is the new store and that address. -/
def alloc {K : Type} (s : Store K) (key : K) : Store K × Nat :=
  (⟨fun x => if x = s.fresh then some ⟨none, none, some key⟩ else s.cell x, s.fresh + 1⟩,
    s.fresh)

end Store

namespace Node

/-- `Node::createNext` called on the node at `this`. -/
def createNext {K : Type} (s : Store K) (this : Nat) (key : K) : Store K :=
  if (s.getNext this).isSome then s
  else
    ((s.alloc key).1.setNextField this (some (s.alloc key).2)).setPrevField (s.alloc key).2
      (some this)

/-- `Node::setNext` called on the node at `this`. -/
def setNext {K : Type} (s : Store K) (this : Nat) (newNext : Option Nat) : Store K :=
  let s1 :=
    match s.getNext this with
    | some nx => if s.getPrevious nx = some this then s.setPrevField nx none else s
    | none => s
  let s2 := s1.setNextField this newNext
  match newNext with
  | none => s2
  | some nn =>
    let s3 :=
      match s2.getPrevious nn with
      | some pp => s2.setNextField pp none
      | none => s2
    s3.setPrevField nn (some this)

/-- `Node::setPrevious` called on the node at `this`. -/
def setPrevious {K : Type} (s : Store K) (this : Nat) (NewPrevious : Option Nat) : Store K :=
  let s1 :=
    match s.getPrevious this with
    | some pv => if s.getNext pv = some this then s.setNextField pv none else s
    | none => s
  let s2 := s1.setPrevField this NewPrevious
  match NewPrevious with
  | none => s2
  | some np =>
    let s3 :=
      match s2.getNext np with
      | some nn => s2.setPrevField nn none
      | none => s2
    s3.setNextField np (some this)

/-- `Node::clear` called on the node at `this`: the key is released, the neighbours that
point to the node are unlinked from it, and its own links are reset. -/
def clear {K : Type} (s : Store K) (this : Nat) : Store K :=
  let s1 := s.setKeyField this none
  let s2 :=
    match s1.getNext this with
    | some nx => if s1.getPrevious nx = some this then s1.setPrevField nx none else s1
    | none => s1
  let s3 :=
    match s2.getPrevious this with
    | some pv => if s2.getNext pv = some this then s2.setNextField pv none else s2
    | none => s2
  (s3.setNextField this none).setPrevField this none

/-- `delete p` for a node: the destructor `~Node` (which calls `clear`), then the cell is
released. -/
def destroy {K : Type} (s : Store K) (this : Nat) : Store K :=
  (clear s this).write this none

end Node

/-- The fields `head`, `tail` and `length` of a `DoublyLinkedList`. -/
structure Header where
  head : Option Nat
  tail : Option Nat
  length : Nat
deriving DecidableEq, Repr

namespace Header

/-- The default constructor `DoublyLinkedList()`. -/
def empty : Header := ⟨none, none, 0⟩

/-- `DoublyLinkedList::push_back` at the level of nodes. -/
def push_back {K : Type} (s : Store K) (l : Header) (value : K) : Store K × Header :=
  if l.length = 0 then
    ((s.alloc value).1, ⟨some (s.alloc value).2, some (s.alloc value).2, l.length + 1⟩)
  else
    match l.tail with
    | some t => (Node.createNext s t value, ⟨l.head, (Node.createNext s t value).getNext t,
        l.length + 1⟩)
    | none => (s, l)

/-- `DoublyLinkedList::pop_front` at the level of nodes. -/
def pop_front {K : Type} (s : Store K) (l : Header) : Store K × Header :=
  if l.length = 0 then (s, l)
  else if l.length = 1 then
    match l.head with
    | some hd => (Node.destroy s hd, ⟨none, none, l.length - 1⟩)
    | none => (s, ⟨none, none, l.length - 1⟩)
  else
    match l.head with
    | some tmp => (Node.destroy s tmp, ⟨s.getNext tmp, l.tail, l.length - 1⟩)
    | none => (s, l)

/-- `DoublyLinkedList::pop_back` at the level of nodes. -/
def pop_back {K : Type} (s : Store K) (l : Header) : Store K × Header :=
  if l.length = 0 then (s, l)
  else if l.length = 1 then
    match l.head with
    | some hd => (Node.destroy s hd, ⟨none, none, l.length - 1⟩)
    | none => (s, ⟨none, none, l.length - 1⟩)
  else
    match l.tail with
    | some tmp => (Node.destroy s tmp, ⟨l.head, s.getPrevious tmp, l.length - 1⟩)
    | none => (s, l)

/-- The loop `while(current)` of `DoublyLinkedList::erase` at the level of nodes, with a budget
of evaluations of the loop test.  The result is the store, the list fields and `count` when
the loop has ended; `none` when the budget is used up first or when the interior case meets a
null neighbour. -/
def eraseLoop {K : Type} [DecidableEq K] (value : K) :
    Nat → Store K → Header → Option Nat → Nat → Option (Store K × Header × Nat)
  | 0, _, _, _, _ => none
  | _ + 1, s, l, none, count => some (s, l, count)
  | fuel + 1, s, l, some current, count =>
    if s.getKey current = some value then
      if some current = l.head then
        eraseLoop value fuel (pop_front s l).1 (pop_front s l).2 (s.getNext current) (count + 1)
      else if some current = l.tail then
        eraseLoop value fuel (pop_back s l).1 (pop_back s l).2 (s.getNext current) (count + 1)
      else
        match s.getPrevious current, s.getNext current with
        | some tmp_prev, some next =>
          eraseLoop value fuel
            (Node.destroy (Node.setNext (Node.setPrevious s next (some tmp_prev)) tmp_prev
              (some next)) current)
            ⟨l.head, l.tail, l.length - 1⟩ (some next) (count + 1)
        | _, _ => none
    else
      eraseLoop value fuel s l (s.getNext current) count

/-- `DoublyLinkedList::erase` at the level of nodes: the loop started at `head` with `count`
zero and a budget of `length + 1` loop tests. -/
def erase {K : Type} [DecidableEq K] (s : Store K) (l : Header) (value : K) :
    Option (Store K × Header × Nat) :=
  eraseLoop value (l.length + 1) s l l.head 0

end Header

/-- The nodes met by following `next` from `p`, at most `budget` of them. -/
def follow {K : Type} (s : Store K) : Nat → Option Nat → List Nat
  | 0, _ => []
  | _ + 1, none => []
  | budget + 1, some p => p :: follow s budget (s.getNext p)

/-- The store in which no node has been created. -/
def Store.initial (K : Type) : Store K := ⟨fun _ => none, 0⟩

end DoublyLinkedList

/-! ## Well-linked buckets -/

namespace DoublyLinkedList

/-- The address of the first node of a sequence of nodes (address and key), or `nx` when the
sequence is empty. -/
def firstOr {K : Type} (ns : List (Nat × K)) (nx : Option Nat) : Option Nat :=
  match ns with
  | [] => nx
  | n :: _ => some n.1

/-- The address of the last node of a sequence of nodes, or `pv` when the sequence is empty. -/
def lastOr {K : Type} : List (Nat × K) → Option Nat → Option Nat
  | [], pv => pv
  | n :: ns, _ => lastOr ns (some n.1)

/-- The nodes `ns` form a chain in the store: each cell holds its key, `next` is the address
of the node after it (`nx` for the last node) and `prev` the address of the node in front of it
(`pv` for the first node). -/
def Seg {K : Type} (s : Store K) : Option Nat → List (Nat × K) → Option Nat → Prop
  | _, [], _ => True
  | pv, n :: ns, nx =>
    s.cell n.1 = some ⟨firstOr ns nx, pv, some n.2⟩ ∧ Seg s (some n.1) ns nx

/-- The list with fields `l` consists of the nodes `ns` in this order: they are chained from
`nullptr` to `nullptr`, their addresses are distinct and allocated, `head` is the first,
`tail` the last, and `length` their number. -/
structure WellLinked {K : Type} (s : Store K) (l : Header) (ns : List (Nat × K)) : Prop where
  seg : Seg s none ns none
  nodup : (ns.map Prod.fst).Nodup
  bound : ∀ n, n ∈ ns → n.1 < s.fresh
  head_eq : l.head = firstOr ns none
  tail_eq : l.tail = lastOr ns none
  length_eq : l.length = ns.length

/-- Link integrity of a bucket as the specification words it.  The nodes of the bucket are the
ones met by following `next` from `head`; for all nodes `A` and `B` of the bucket
`A.next == B` if and only if `B.prev == A`; `head.prev` and `tail.next` are null; and following
`next` from `head` visits exactly `length` nodes, the last of which is `tail`. -/
def LinkIntegrity {K : Type} (s : Store K) (l : Header) : Prop :=
  (∀ a, a ∈ follow s (l.length + 1) l.head → ∀ b, b ∈ follow s (l.length + 1) l.head →
    (s.getNext a = some b ↔ s.getPrevious b = some a)) ∧
  (∀ hd, l.head = some hd → s.getPrevious hd = none) ∧
  (∀ tl, l.tail = some tl → s.getNext tl = none) ∧
  (follow s (l.length + 1) l.head).length = l.length ∧
  (follow s (l.length + 1) l.head).getLast? = l.tail

namespace Header

/-- The states of one bucket of the table: it starts empty, `push_back` and `erase` are applied
to it, and in between the operations on the other buckets change the store, creating nodes
and leaving the nodes of this bucket as they are. -/
inductive Reachable {K : Type} [DecidableEq K] : Store K → Header → Prop
  | init (s : Store K) : Reachable s Header.empty
  | push_back (s : Store K) (l : Header) (value : K) :
      Reachable s l → Reachable (push_back s l value).1 (push_back s l value).2
  | erase (s : Store K) (l : Header) (value : K) (r : Store K × Header × Nat) :
      Reachable s l → erase s l value = some r → Reachable r.1 r.2.1
  | other (s s' : Store K) (l : Header) :
      Reachable s l → s.fresh ≤ s'.fresh →
      (∀ p, p ∈ follow s (l.length + 1) l.head → s'.cell p = s.cell p) → Reachable s' l

end Header

end DoublyLinkedList

namespace DoublyLinkedList

/-- The state of the loop of `erase` with the cursor `current` at the first node of `rest`
(`nullptr` when `rest` is empty): the nodes `ms` in front of the cursor and the nodes `rest`
form one well-linked list. -/
structure Cursor {K : Type} (s : Store K) (l : Header) (ms rest : List (Nat × K)) : Prop where
  segL : Seg s none ms (firstOr rest none)
  segR : Seg s (lastOr ms none) rest none
  nodup : ((ms ++ rest).map Prod.fst).Nodup
  bound : ∀ n, n ∈ ms ++ rest → n.1 < s.fresh
  head_eq : l.head = firstOr (ms ++ rest) none
  tail_eq : l.tail = lastOr (ms ++ rest) none
  length_eq : l.length = (ms ++ rest).length

end DoublyLinkedList

namespace DoublyLinkedList

/-- The keys met by following `next` from `head` (what `display` prints). -/
def Header.keys {K : Type} (s : Store K) (l : Header) : List (Option K) :=
  (follow s (l.length + 1) l.head).map s.getKey

/-- The bucket obtained from an empty one by `push_back` of the given keys, in a store in which
no node has been created before. -/
def Header.ofList {K : Type} (keys : List K) : Store K × Header :=
  keys.foldl (fun sl value => Header.push_back sl.1 sl.2 value) (Store.initial K, Header.empty)

end DoublyLinkedList

namespace Hashtable_Probing

/-! ## Index arithmetic on the cyclic probe path -/

theorem add_mod_cases (N s e : Nat) (hs : s < N) (he : e < N) :
    (s + e) % N = if s + e < N then s + e else s + e - N := by
  split
  · rename_i hlt
    exact Nat.mod_eq_of_lt hlt
  · rename_i hge
    have h1 : (s + e) % N = (s + e - N) % N := Nat.mod_eq_sub_mod (by omega)
    rw [h1]
    exact Nat.mod_eq_of_lt (by omega)

theorem cyc_dist_lt (N s j : Nat) (hs : s < N) : (j + N - s) % N < N :=
  Nat.mod_lt _ (by omega)

theorem cyc_dist_spec (N s j : Nat) (hs : s < N) (hj : j < N) :
    (s + (j + N - s) % N) % N = j := by
  have hd : (j + N - s) % N = if j + N - s < N then j + N - s else j + N - s - N := by
    split
    · rename_i hlt
      exact Nat.mod_eq_of_lt hlt
    · rename_i hge
      have h1 : (j + N - s) % N = (j + N - s - N) % N := Nat.mod_eq_sub_mod (by omega)
      rw [h1]
      exact Nat.mod_eq_of_lt (by omega)
  rw [hd]
  split
  · rw [add_mod_cases N s _ hs (by omega)]
    split <;> omega
  · rw [add_mod_cases N s _ hs (by omega)]
    split <;> omega

theorem cyc_inj (N s e e' : Nat) (hs : s < N) (he : e < N) (he' : e' < N)
    (h : (s + e) % N = (s + e') % N) : e = e' := by
  rw [add_mod_cases N s e hs he, add_mod_cases N s e' hs he'] at h
  split at h <;> split at h <;> omega

theorem cyc_dist_of (N s e : Nat) (hs : s < N) (he : e < N) :
    ((s + e) % N + N - s) % N = e := by
  have h1 : ((s + e) % N + N - s) % N < N := Nat.mod_lt _ (by omega)
  have h2 := cyc_dist_spec N s ((s + e) % N) hs (Nat.mod_lt _ (by omega))
  exact cyc_inj N s _ e hs h1 he h2

theorem cyc_step_one (N s e : Nat) : ((s + 1) % N + e) % N = (s + (e + 1)) % N := by
  rw [Nat.mod_add_mod]; congr 1; omega

/-! ## Reading and writing slots -/

theorem slot_set {K : Type} (arr : List (data_wrapper K)) (i j : Nat) (w : data_wrapper K) :
    slot (arr.set i w) j = if i = j ∧ i < arr.length then w else slot arr j := by
  unfold slot
  rw [List.getD_eq_getElem?_getD, List.getD_eq_getElem?_getD, List.getElem?_set]
  by_cases hij : i = j
  · subst hij
    by_cases hi : i < arr.length
    · simp [hi]
    · simp [hi, List.getElem?_eq_none (Nat.le_of_not_lt hi)]
  · simp [hij]

theorem slot_of_ge {K : Type} (arr : List (data_wrapper K)) (i : Nat) (hi : arr.length ≤ i) :
    slot arr i = data_wrapper.blank := by
  unfold slot
  rw [List.getD_eq_getElem?_getD, List.getElem?_eq_none hi]; rfl

theorem slot_mem {K : Type} (arr : List (data_wrapper K)) (i : Nat) (hi : i < arr.length) :
    slot arr i ∈ arr := by
  unfold slot
  rw [List.getD_eq_getElem?_getD, List.getElem?_eq_getElem hi]
  exact List.getElem_mem hi

theorem countP_set {K : Type} (p : data_wrapper K → Bool) (arr : List (data_wrapper K)) :
    ∀ (i : Nat) (w : data_wrapper K), i < arr.length →
      (arr.set i w).countP p + (if p (slot arr i) then 1 else 0)
        = arr.countP p + (if p w then 1 else 0) := by
  induction arr with
  | nil => intro i w hi; simp at hi
  | cons a l ih =>
    intro i w hi
    cases i with
    | zero =>
      simp only [List.set_cons_zero, List.countP_cons, slot, List.getD_cons_zero]
      omega
    | succ n =>
      have hn : n < l.length := by simpa using hi
      have := ih n w hn
      simp only [List.set_cons_succ, List.countP_cons, slot, List.getD_cons_succ] at this ⊢
      omega


/-! ## The probe loops -/

theorem holds_iff {K : Type} [DecidableEq K] (w : data_wrapper K) (value : K) :
    w.holds value = true ↔ w.data = some value := by
  unfold data_wrapper.holds data_wrapper.is_full
  constructor
  · intro hh
    simp only [Bool.and_eq_true, beq_iff_eq] at hh
    exact hh.2
  · intro hh
    simp [hh]

/-- What the probe loop has established when it stops after `d` more steps. -/
theorem probeLoop_spec {K : Type} [DecidableEq K] (N : Nat) (arr : List (data_wrapper K))
    (value : K) :
    ∀ (rem index sc : Nat), index < N →
      ∃ d, d ≤ rem ∧ probeLoop N arr value rem index sc = ((index + d) % N, sc + d) ∧
        (∀ e, e < d → (slot arr ((index + e) % N)).is_blank = false ∧
          (slot arr ((index + e) % N)).holds value = false) ∧
        (d < rem → (slot arr ((index + d) % N)).is_blank = true ∨
          (slot arr ((index + d) % N)).holds value = true) := by
  intro rem
  induction rem with
  | zero =>
    intro index sc hi
    exact ⟨0, Nat.le_refl 0, by simp [probeLoop, Nat.mod_eq_of_lt hi],
      fun e he => absurd he (Nat.not_lt_zero e), fun hd => absurd hd (Nat.lt_irrefl 0)⟩
  | succ rem ih =>
    intro index sc hi
    have hN : 0 < N := by omega
    by_cases hb : (slot arr index).is_blank = true
    · refine ⟨0, Nat.zero_le _, ?_, fun e he => absurd he (Nat.not_lt_zero e), fun _ => ?_⟩
      · simp [probeLoop, hb, Nat.mod_eq_of_lt hi]
      · left; simpa [Nat.mod_eq_of_lt hi] using hb
    · by_cases hh : (slot arr index).holds value = true
      · refine ⟨0, Nat.zero_le _, ?_, fun e he => absurd he (Nat.not_lt_zero e), fun _ => ?_⟩
        · simp [probeLoop, hb, hh, Nat.mod_eq_of_lt hi]
        · right; simpa [Nat.mod_eq_of_lt hi] using hh
      · obtain ⟨d, hd, heq, hpre, hstop⟩ := ih ((index + 1) % N) (sc + 1) (Nat.mod_lt _ hN)
        refine ⟨d + 1, by omega, ?_, ?_, ?_⟩
        · simp only [probeLoop, hb, hh, heq]
          simp only [Bool.false_eq_true, if_false]
          rw [cyc_step_one]
          congr 1
          omega
        · intro e he
          cases e with
          | zero =>
            simp only [Nat.add_zero, Nat.mod_eq_of_lt hi]
            exact ⟨by simpa using hb, by simpa using hh⟩
          | succ e =>
            have := hpre e (by omega)
            rw [cyc_step_one] at this
            exact this
        · intro hlt
          have := hstop (by omega)
          rw [cyc_step_one] at this
          exact this


/-- What the probe loop of `insert` has established when it stops after `d` more steps. -/
theorem insertLoop_spec {K : Type} [DecidableEq K] (N : Nat) (arr : List (data_wrapper K))
    (value : K) :
    ∀ (rem index sc : Nat) (tomb : Option Nat), index < N →
      ∃ d tomb', d ≤ rem ∧
        insertLoop N arr value rem index sc tomb = ((index + d) % N, sc + d, tomb') ∧
        (∀ e, e < d → (slot arr ((index + e) % N)).is_blank = false ∧
          (slot arr ((index + e) % N)).holds value = false) ∧
        (d < rem → (slot arr ((index + d) % N)).is_blank = true ∨
          (slot arr ((index + d) % N)).holds value = true) ∧
        (∀ x, tomb = some x → tomb' = some x) ∧
        (tomb = none →
          (tomb' = none ∧ ∀ e, e < d → (slot arr ((index + e) % N)).is_tombstone = false) ∨
          ∃ e, e < d ∧ tomb' = some ((index + e) % N) ∧
            (slot arr ((index + e) % N)).is_tombstone = true ∧
            ∀ e', e' < e → (slot arr ((index + e') % N)).is_tombstone = false) := by
  intro rem
  induction rem with
  | zero =>
    intro index sc tomb hi
    refine ⟨0, tomb, Nat.le_refl 0, by simp [insertLoop, Nat.mod_eq_of_lt hi],
      fun e he => absurd he (Nat.not_lt_zero e), fun hd => absurd hd (Nat.lt_irrefl 0),
      fun x hx => hx, fun hn => Or.inl ⟨hn, fun e he => absurd he (Nat.not_lt_zero e)⟩⟩
  | succ rem ih =>
    intro index sc tomb hi
    have hN : 0 < N := by omega
    by_cases hb : (slot arr index).is_blank = true
    · refine ⟨0, tomb, Nat.zero_le _, ?_, fun e he => absurd he (Nat.not_lt_zero e), fun _ => ?_,
        fun x hx => hx, fun hn => Or.inl ⟨hn, fun e he => absurd he (Nat.not_lt_zero e)⟩⟩
      · simp [insertLoop, hb, Nat.mod_eq_of_lt hi]
      · left; simpa [Nat.mod_eq_of_lt hi] using hb
    · by_cases hh : (slot arr index).holds value = true
      · refine ⟨0, tomb, Nat.zero_le _, ?_, fun e he => absurd he (Nat.not_lt_zero e),
          fun _ => ?_, fun x hx => hx,
          fun hn => Or.inl ⟨hn, fun e he => absurd he (Nat.not_lt_zero e)⟩⟩
        · simp [insertLoop, hb, hh, Nat.mod_eq_of_lt hi]
        · right; simpa [Nat.mod_eq_of_lt hi] using hh
      · obtain ⟨d, tomb', hd, heq, hpre, hstop, hkeep, hnew⟩ :=
          ih ((index + 1) % N) (sc + 1)
            (if (slot arr index).is_tombstone && tomb == none then some index else tomb)
            (Nat.mod_lt _ hN)
        refine ⟨d + 1, tomb', by omega, ?_, ?_, ?_, ?_, ?_⟩
        · simp only [insertLoop, hb, hh, heq]
          simp only [Bool.false_eq_true, if_false]
          rw [cyc_step_one]
          congr 2
          omega
        · intro e he
          cases e with
          | zero =>
            simp only [Nat.add_zero, Nat.mod_eq_of_lt hi]
            exact ⟨by simpa using hb, by simpa using hh⟩
          | succ e =>
            have := hpre e (by omega)
            rw [cyc_step_one] at this
            exact this
        · intro hlt
          have := hstop (by omega)
          rw [cyc_step_one] at this
          exact this
        · intro x hx
          apply hkeep
          simp [hx]
        · intro hn
          subst hn
          by_cases ht : (slot arr index).is_tombstone = true
          · right
            refine ⟨0, by omega, ?_, ?_, fun e' he' => absurd he' (Nat.not_lt_zero e')⟩
            · rw [hkeep index (by simp [ht])]
              simp [Nat.mod_eq_of_lt hi]
            · simpa [Nat.mod_eq_of_lt hi] using ht
          · have ht' : (slot arr index).is_tombstone = false := by simpa using ht
            rcases hnew (by simp [ht']) with ⟨hnone, hall⟩ | ⟨e, he, hsome, htomb, hfirst⟩
            · left
              refine ⟨hnone, ?_⟩
              intro e he
              cases e with
              | zero => simpa [Nat.mod_eq_of_lt hi] using ht'
              | succ e =>
                have := hall e (by omega)
                rw [cyc_step_one] at this
                exact this
            · right
              refine ⟨e + 1, by omega, ?_, ?_, ?_⟩
              · rw [hsome, cyc_step_one]
              · rw [cyc_step_one] at htomb
                exact htomb
              · intro e' he'
                cases e' with
                | zero => simpa [Nat.mod_eq_of_lt hi] using ht'
                | succ e' =>
                  have := hfirst e' (by omega)
                  rw [cyc_step_one] at this
                  exact this


/-! ## Scanning under the invariant -/

theorem hash_lt {K : Type} (h : K → Nat) (N : Nat) (hN : 0 < N) (k : K) :
    Hash_Function h N k < N := Nat.mod_lt _ hN

theorem data_lt {K : Type} (arr : List (data_wrapper K)) (i : Nat) (k : K)
    (hd : (slot arr i).data = some k) : i < arr.length := by
  by_contra hge
  rw [slot_of_ge arr i (Nat.le_of_not_lt hge)] at hd
  simp [data_wrapper.blank] at hd

theorem stored_iff {K : Type} (t : Hashtable_Probing K) (k : K) :
    stored t k ↔ ∃ i, (slot t.arr i).data = some k := by
  constructor
  · rintro ⟨i, _, _, hi⟩
    exact ⟨i, hi⟩
  · rintro ⟨i, hi⟩
    exact ⟨i, data_lt _ _ _ hi, by simp [data_wrapper.is_full, hi], hi⟩

theorem blank_data {K : Type} (w : data_wrapper K) (hb : w.is_blank = true) : w.data = none := by
  unfold data_wrapper.is_blank at hb
  simp only [Bool.and_eq_true, Option.isNone_iff_eq_none] at hb
  exact hb.1

/-- A scan for a stored key stops on the slot that holds it. -/
theorem scan_stored {K : Type} [DecidableEq K] (h : K → Nat) (N : Nat) (hN : 0 < N)
    (t : Hashtable_Probing K) (hinv : Inv h N t) (k : K) (j : Nat)
    (hj : (slot t.arr j).data = some k) (d : Nat)
    (hpre : ∀ e, e < d → (slot t.arr ((Hash_Function h N k + e) % N)).is_blank = false ∧
      (slot t.arr ((Hash_Function h N k + e) % N)).holds k = false)
    (hstop : d < N → (slot t.arr ((Hash_Function h N k + d) % N)).is_blank = true ∨
      (slot t.arr ((Hash_Function h N k + d) % N)).holds k = true) :
    d < N ∧ (Hash_Function h N k + d) % N = j ∧
      (slot t.arr ((Hash_Function h N k + d) % N)).is_blank = false := by
  have hs := hash_lt h N hN k
  have hjN : j < N := by
    have := data_lt _ _ _ hj
    rw [hinv.len] at this
    exact this
  have hdj := cyc_dist_lt N (Hash_Function h N k) j hs
  have hat := cyc_dist_spec N (Hash_Function h N k) j hs hjN
  have hle : d ≤ (j + N - Hash_Function h N k) % N := by
    by_contra hgt
    have := (hpre _ (Nat.lt_of_not_le hgt)).2
    rw [hat] at this
    have hh := (holds_iff (slot t.arr j) k).2 hj
    rw [hh] at this
    exact Bool.noConfusion this
  have hdN : d < N := by omega
  have hnb := hinv.chain j k hj d hle
  refine ⟨hdN, ?_, hnb⟩
  rcases hstop hdN with hb | hh
  · rw [hnb] at hb
    exact Bool.noConfusion hb
  · exact hinv.uniq _ _ k ((holds_iff _ k).1 hh) hj

theorem search_iff_stored {K : Type} [DecidableEq K] (h : K → Nat) (N : Nat) (hN : 0 < N)
    (t : Hashtable_Probing K) (hinv : Inv h N t) (k : K) :
    search h N t k = true ↔ stored t k := by
  obtain ⟨d, hd, heq, hpre, hstop⟩ :=
    probeLoop_spec N t.arr k N (Hash_Function h N k) 0 (hash_lt h N hN k)
  unfold search
  simp only [heq, Nat.zero_add]
  constructor
  · intro hs
    by_cases hdN : d = N
    · simp [hdN] at hs
    · have hlt : d < N := by omega
      rcases hstop hlt with hb | hh
      · simp [hdN, hb] at hs
      · exact (stored_iff t k).2 ⟨_, (holds_iff _ k).1 hh⟩
  · intro hst
    obtain ⟨j, hj⟩ := (stored_iff t k).1 hst
    obtain ⟨hdN, _, hnb⟩ := scan_stored h N hN t hinv k j hj d hpre hstop
    have : d ≠ N := by omega
    simp [this, hnb]


/-! ## `erase` and `insert` under the invariant -/

theorem erase_not_stored {K : Type} [DecidableEq K] (h : K → Nat) (N : Nat) (hN : 0 < N)
    (t : Hashtable_Probing K) (k : K) (hns : ¬ stored t k) : erase h N t k = (0, t) := by
  obtain ⟨d, hd, heq, _, hstop⟩ :=
    probeLoop_spec N t.arr k N (Hash_Function h N k) 0 (hash_lt h N hN k)
  unfold erase
  simp only [heq, Nat.zero_add]
  by_cases hdN : d = N
  · simp [hdN]
  · rcases hstop (by omega) with hb | hh
    · simp [hdN, hb]
    · exact absurd ((stored_iff t k).2 ⟨_, (holds_iff _ k).1 hh⟩) hns

theorem erase_stored {K : Type} [DecidableEq K] (h : K → Nat) (N : Nat) (hN : 0 < N)
    (t : Hashtable_Probing K) (hinv : Inv h N t) (k : K) (j : Nat)
    (hj : (slot t.arr j).data = some k) :
    erase h N t k = (1, ⟨t.arr.set j ⟨none, true⟩, t.counter - 1⟩) := by
  obtain ⟨d, hd, heq, hpre, hstop⟩ :=
    probeLoop_spec N t.arr k N (Hash_Function h N k) 0 (hash_lt h N hN k)
  obtain ⟨hdN, hidx, hnb⟩ := scan_stored h N hN t hinv k j hj d hpre hstop
  have hne : d ≠ N := by omega
  have hfl := hinv.flagged j k hj
  unfold erase
  simp only [heq, Nat.zero_add]
  rw [hidx] at hnb ⊢
  have hdel : (slot t.arr j).delete_data = ⟨none, true⟩ := by
    unfold data_wrapper.delete_data
    rw [hj]
    simp [hfl]
  simp [hne, hnb, hdel]

theorem insert_full {K : Type} [DecidableEq K] (h : K → Nat) (N : Nat)
    (t : Hashtable_Probing K) (k : K) (hfull : t.counter = N) :
    insert h N t k = (false, t) := by
  unfold insert full
  simp [hfull]

theorem insert_stored {K : Type} [DecidableEq K] (h : K → Nat) (N : Nat) (hN : 0 < N)
    (t : Hashtable_Probing K) (hinv : Inv h N t) (k : K) (hst : stored t k) :
    insert h N t k = (false, t) := by
  by_cases hfull : t.counter = N
  · exact insert_full h N t k hfull
  · obtain ⟨j, hj⟩ := (stored_iff t k).1 hst
    obtain ⟨d, tomb', hd, heq, hpre, hstop, _, _⟩ :=
      insertLoop_spec N t.arr k N (Hash_Function h N k) 0 none (hash_lt h N hN k)
    obtain ⟨hdN, hidx, hnb⟩ := scan_stored h N hN t hinv k j hj d hpre hstop
    have hne : d ≠ N := by omega
    unfold insert full
    simp only [heq, Nat.zero_add]
    simp [hfull, hne, hnb]

theorem exists_not_full {K : Type} (arr : List (data_wrapper K))
    (hlt : arr.countP (fun w => w.is_full) < arr.length) :
    ∃ i, i < arr.length ∧ (slot arr i).is_full = false := by
  have hne : arr.countP (fun w => w.is_full) ≠ arr.length := Nat.ne_of_lt hlt
  rw [Ne, List.countP_eq_length] at hne
  push_neg at hne
  obtain ⟨a, ha, hna⟩ := hne
  obtain ⟨i, hi, rfl⟩ := List.getElem_of_mem ha
  refine ⟨i, hi, ?_⟩
  unfold slot
  rw [List.getD_eq_getElem?_getD, List.getElem?_eq_getElem hi]
  simpa using hna

theorem set_data_of_none {K : Type} (w : data_wrapper K) (k : K) (hd : w.data = none) :
    w.set_data k = ⟨some k, true⟩ := by
  unfold data_wrapper.set_data
  rw [hd]

theorem tombstone_data {K : Type} (w : data_wrapper K) (ht : w.is_tombstone = true) :
    w.data = none := by
  unfold data_wrapper.is_tombstone at ht
  simp only [Bool.and_eq_true, Option.isNone_iff_eq_none] at ht
  exact ht.1

/-- A successful insert writes the key into a slot without a value that lies on the key's
probe path, every earlier slot of the path being non-blank. -/
theorem insert_new {K : Type} [DecidableEq K] (h : K → Nat) (N : Nat) (hN : 0 < N)
    (t : Hashtable_Probing K) (hinv : Inv h N t) (k : K) (hlt : t.counter < N)
    (hns : ¬ stored t k) :
    ∃ e, e < N ∧ (slot t.arr ((Hash_Function h N k + e) % N)).data = none ∧
      (∀ e', e' < e → (slot t.arr ((Hash_Function h N k + e') % N)).is_blank = false) ∧
      insert h N t k =
        (true, ⟨t.arr.set ((Hash_Function h N k + e) % N) ⟨some k, true⟩, t.counter + 1⟩) := by
  have hfull : t.counter ≠ N := by omega
  obtain ⟨d, tomb', hd, heq, hpre, hstop, _, hnew⟩ :=
    insertLoop_spec N t.arr k N (Hash_Function h N k) 0 none (hash_lt h N hN k)
  have hnh : ∀ i, (slot t.arr i).holds k = true → False := fun i hh =>
    hns ((stored_iff t k).2 ⟨i, (holds_iff _ k).1 hh⟩)
  rcases hnew rfl with ⟨hnone, hall⟩ | ⟨e, he, hsome, htomb, _⟩
  · -- no tombstone was passed: the scan stopped on a blank slot
    have hdN : d < N := by
      by_contra hge
      have hdeq : d = N := by omega
      have hc : t.arr.countP (fun w => w.is_full) < t.arr.length := by
        rw [← hinv.cnt, hinv.len]; exact hlt
      obtain ⟨i, hi, hnf⟩ := exists_not_full t.arr hc
      rw [hinv.len] at hi
      have hs := hash_lt h N hN k
      have hdi := cyc_dist_lt N (Hash_Function h N k) i hs
      have hat := cyc_dist_spec N (Hash_Function h N k) i hs hi
      have h1 := (hpre _ (by omega : (i + N - Hash_Function h N k) % N < d)).1
      have h2 := hall _ (by omega : (i + N - Hash_Function h N k) % N < d)
      rw [hat] at h1 h2
      unfold data_wrapper.is_blank at h1
      unfold data_wrapper.is_tombstone at h2
      unfold data_wrapper.is_full at hnf
      cases hdat : (slot t.arr i).data <;> cases hfl : (slot t.arr i).flag <;>
        simp [hdat, hfl] at h1 h2 hnf
    have hb : (slot t.arr ((Hash_Function h N k + d) % N)).is_blank = true := by
      rcases hstop hdN with hb | hh
      · exact hb
      · exact absurd hh (fun hh => hnh _ hh)
    refine ⟨d, hdN, blank_data _ hb, fun e' he' => (hpre e' he').1, ?_⟩
    have hne : d ≠ N := by omega
    unfold insert full writeAt
    simp only [heq, hnone, Nat.zero_add]
    simp [hfull, hne, hb, set_data_of_none _ k (blank_data _ hb)]
  · -- a tombstone was recorded: it takes the key
    have heN : e < N := by omega
    refine ⟨e, heN, tombstone_data _ htomb, fun e' he' => (hpre e' (by omega)).1, ?_⟩
    unfold insert full writeAt
    simp only [heq, hsome, Nat.zero_add]
    by_cases hdN : d = N
    · simp [hfull, hdN, set_data_of_none _ k (tombstone_data _ htomb)]
    · have hb : (slot t.arr ((Hash_Function h N k + d) % N)).is_blank = true := by
        rcases hstop (by omega) with hb | hh
        · exact hb
        · exact absurd hh (fun hh => hnh _ hh)
      simp [hfull, hdN, hb, set_data_of_none _ k (tombstone_data _ htomb)]


/-! ## The invariant is kept by every operation -/

/-- Writing a new key on its probe path keeps the invariant. -/
theorem Inv_set_occupied {K : Type} (h : K → Nat) (N : Nat) (hN : 0 < N)
    (t : Hashtable_Probing K) (hinv : Inv h N t) (k : K) (e : Nat) (he : e < N)
    (hnone : (slot t.arr ((Hash_Function h N k + e) % N)).data = none)
    (hpath : ∀ e', e' < e → (slot t.arr ((Hash_Function h N k + e') % N)).is_blank = false)
    (hns : ¬ stored t k) :
    Inv h N ⟨t.arr.set ((Hash_Function h N k + e) % N) ⟨some k, true⟩, t.counter + 1⟩ := by
  have hs := hash_lt h N hN k
  have htl : (Hash_Function h N k + e) % N < t.arr.length := by
    rw [hinv.len]; exact Nat.mod_lt _ hN
  constructor
  · simp [hinv.len]
  · intro i k' hi
    simp only [slot_set] at hi ⊢
    split
    · rfl
    · rename_i hne
      rw [if_neg hne] at hi
      exact hinv.flagged i k' hi
  · have := countP_set (fun w => w.is_full) t.arr _ (⟨some k, true⟩ : data_wrapper K) htl
    simp only [data_wrapper.is_full, hnone] at this
    simp only [data_wrapper.is_full]
    simp at this
    rw [this, hinv.cnt]
    simp [data_wrapper.is_full]
  · intro i j k' hi hj
    simp only [slot_set] at hi hj
    split at hi <;> split at hj
    · rename_i h1 h2
      rw [← h1.1, ← h2.1]
    · rename_i h1 h2
      simp only [Option.some.injEq] at hi
      subst hi
      exact absurd ((stored_iff t k).2 ⟨j, hj⟩) hns
    · rename_i h1 h2
      simp only [Option.some.injEq] at hj
      subst hj
      exact absurd ((stored_iff t k).2 ⟨i, hi⟩) hns
    · exact hinv.uniq i j k' hi hj
  · intro j k' hj d hd
    simp only [slot_set] at hj ⊢
    split
    · rfl
    · rename_i hne
      split at hj
      · rename_i heq
        simp only [Option.some.injEq] at hj
        subst hj
        rw [← heq.1, cyc_dist_of N _ e hs he] at hd
        have hde : d ≠ e := by
          intro hde
          subst hde
          exact hne ⟨rfl, htl⟩
        exact hpath d (by omega)
      · exact hinv.chain j k' hj d hd

/-- Turning the slot of a stored key into a tombstone keeps the invariant. -/
theorem Inv_set_tombstone {K : Type} (h : K → Nat) (N : Nat)
    (t : Hashtable_Probing K) (hinv : Inv h N t) (k : K) (j : Nat)
    (hj : (slot t.arr j).data = some k) :
    Inv h N ⟨t.arr.set j ⟨none, true⟩, t.counter - 1⟩ := by
  have hjl : j < t.arr.length := data_lt _ _ _ hj
  constructor
  · simp [hinv.len]
  · intro i k' hi
    simp only [slot_set] at hi ⊢
    split
    · rfl
    · rename_i hne
      rw [if_neg hne] at hi
      exact hinv.flagged i k' hi
  · have := countP_set (fun w => w.is_full) t.arr j (⟨none, true⟩ : data_wrapper K) hjl
    simp only [data_wrapper.is_full, hj] at this
    simp only [data_wrapper.is_full]
    simp at this
    rw [hinv.cnt]
    simp only [data_wrapper.is_full]
    omega
  · intro i i' k' hi hi'
    simp only [slot_set] at hi hi'
    split at hi
    · exact Option.noConfusion hi
    · split at hi'
      · exact Option.noConfusion hi'
      · exact hinv.uniq i i' k' hi hi'
  · intro i k' hi d hd
    simp only [slot_set] at hi ⊢
    split
    · rfl
    · split at hi
      · exact Option.noConfusion hi
      · exact hinv.chain i k' hi d hd

theorem slot_replicate_blank {K : Type} (N i : Nat) :
    slot (List.replicate N (data_wrapper.blank : data_wrapper K)) i = data_wrapper.blank := by
  unfold slot
  rw [List.getD_eq_getElem?_getD]
  by_cases hi : i < N
  · rw [List.getElem?_eq_getElem (by simpa using hi)]
    simp
  · rw [List.getElem?_eq_none (by simpa using hi)]
    rfl

theorem Inv_init {K : Type} (h : K → Nat) (N : Nat) : Inv h N (init K N) := by
  constructor
  · simp [init]
  · intro i k hi
    simp only [init, slot_replicate_blank] at hi
    exact Option.noConfusion hi
  · simp only [init]
    symm
    rw [List.countP_eq_zero]
    intro a ha
    rw [List.eq_of_mem_replicate ha]
    simp [data_wrapper.is_full, data_wrapper.blank]
  · intro i j k hi
    simp only [init, slot_replicate_blank] at hi
    exact Option.noConfusion hi
  · intro j k hj
    simp only [init, slot_replicate_blank] at hj
    exact Option.noConfusion hj

theorem clear_loop {K : Type} (arr : List (data_wrapper K)) :
    ∀ m, m ≤ arr.length →
      (List.range m).foldl (fun a i => a.set i (slot a i).to_blank) arr
        = List.replicate m data_wrapper.blank ++ arr.drop m := by
  intro m
  induction m with
  | zero => intro _; simp
  | succ m ih =>
    intro hm
    rw [List.range_succ, List.foldl_append, ih (by omega)]
    simp only [List.foldl_cons, List.foldl_nil, data_wrapper.to_blank]
    apply List.ext_getElem
    · simp; omega
    · intro i h1 h2
      simp only [List.getElem_set, List.getElem_append, List.length_replicate,
        List.getElem_replicate, List.getElem_drop]
      by_cases him : m = i
      · subst him
        simp [data_wrapper.blank]
      · simp only [him, if_false]
        by_cases hlt : i < m
        · simp [hlt, Nat.lt_succ_of_lt hlt]
        · have : ¬ i < m + 1 := by omega
          simp only [hlt, this, dite_false]
          congr 1
          omega

theorem clear_eq {K : Type} (N : Nat) (t : Hashtable_Probing K) (hlen : t.arr.length = N) :
    clear N t = init K N := by
  unfold clear init
  rw [clear_loop t.arr N (by omega), ← hlen]
  simp


/-! ## Reachable states and the stored keys -/

theorem counter_le {K : Type} (h : K → Nat) (N : Nat) (t : Hashtable_Probing K)
    (hinv : Inv h N t) : t.counter ≤ N := by
  rw [hinv.cnt, ← hinv.len]
  exact List.countP_le_length _

theorem counter_pos_of_stored {K : Type} (h : K → Nat) (N : Nat) (t : Hashtable_Probing K)
    (hinv : Inv h N t) (k : K) (hst : stored t k) : 0 < t.counter := by
  obtain ⟨j, hjl, hfull, _⟩ := hst
  rw [hinv.cnt, List.countP_pos_iff]
  exact ⟨slot t.arr j, slot_mem _ _ hjl, hfull⟩

theorem insert_Inv {K : Type} [DecidableEq K] (h : K → Nat) (N : Nat) (hN : 0 < N)
    (t : Hashtable_Probing K) (hinv : Inv h N t) (k : K) : Inv h N (insert h N t k).2 := by
  by_cases hst : stored t k
  · rw [insert_stored h N hN t hinv k hst]
    exact hinv
  · by_cases hfull : t.counter = N
    · rw [insert_full h N t k hfull]
      exact hinv
    · have hlt : t.counter < N := by
        have := counter_le h N t hinv
        omega
      obtain ⟨e, he, hnone, hpath, heq⟩ := insert_new h N hN t hinv k hlt hst
      rw [heq]
      exact Inv_set_occupied h N hN t hinv k e he hnone hpath hst

theorem erase_Inv {K : Type} [DecidableEq K] (h : K → Nat) (N : Nat) (hN : 0 < N)
    (t : Hashtable_Probing K) (hinv : Inv h N t) (k : K) : Inv h N (erase h N t k).2 := by
  by_cases hst : stored t k
  · obtain ⟨j, hj⟩ := (stored_iff t k).1 hst
    rw [erase_stored h N hN t hinv k j hj]
    exact Inv_set_tombstone h N t hinv k j hj
  · rw [erase_not_stored h N hN t k hst]
    exact hinv

theorem Reachable_Inv {K : Type} [DecidableEq K] (h : K → Nat) (N : Nat) (hN : 0 < N)
    (t : Hashtable_Probing K) (hr : Reachable h N t) : Inv h N t := by
  induction hr with
  | init => exact Inv_init h N
  | insert t k _ ih => exact insert_Inv h N hN t ih k
  | erase t k _ ih => exact erase_Inv h N hN t ih k
  | clear t _ ih =>
    rw [clear_eq N t ih.len]
    exact Inv_init h N

theorem stored_set_occupied {K : Type} (t : Hashtable_Probing K) (i : Nat) (k : K) (c : Nat)
    (hi : i < t.arr.length) (hnone : (slot t.arr i).data = none) (k' : K) :
    stored ⟨t.arr.set i ⟨some k, true⟩, c⟩ k' ↔ stored t k' ∨ k' = k := by
  rw [stored_iff, stored_iff]
  simp only [slot_set]
  constructor
  · rintro ⟨j, hj⟩
    split at hj
    · right
      simp only [Option.some.injEq] at hj
      exact hj.symm
    · left
      exact ⟨j, hj⟩
  · rintro (⟨j, hj⟩ | rfl)
    · refine ⟨j, ?_⟩
      split
      · rename_i heq
        rw [← heq.1, hnone] at hj
        exact Option.noConfusion hj
      · exact hj
    · exact ⟨i, by simp [hi]⟩

theorem stored_set_tombstone {K : Type} (h : K → Nat) (N : Nat) (t : Hashtable_Probing K)
    (hinv : Inv h N t) (j : Nat) (k : K) (c : Nat) (hj : (slot t.arr j).data = some k)
    (k' : K) :
    stored ⟨t.arr.set j ⟨none, true⟩, c⟩ k' ↔ stored t k' ∧ k' ≠ k := by
  rw [stored_iff, stored_iff]
  simp only [slot_set]
  constructor
  · rintro ⟨i, hi⟩
    split at hi
    · exact Option.noConfusion hi
    · rename_i hne
      refine ⟨⟨i, hi⟩, ?_⟩
      rintro rfl
      have := hinv.uniq i j k' hi hj
      exact hne ⟨this.symm, data_lt _ _ _ hj⟩
  · rintro ⟨⟨i, hi⟩, hne⟩
    refine ⟨i, ?_⟩
    split
    · rename_i heq
      rw [← heq.1, hj] at hi
      simp only [Option.some.injEq] at hi
      exact absurd hi.symm hne
    · exact hi

/-- The result of `insert` in a state satisfying the invariant. -/
theorem insert_true_iff {K : Type} [DecidableEq K] (h : K → Nat) (N : Nat) (hN : 0 < N)
    (t : Hashtable_Probing K) (hinv : Inv h N t) (k : K) :
    (insert h N t k).1 = true ↔ t.counter < N ∧ ¬ stored t k := by
  by_cases hst : stored t k
  · rw [insert_stored h N hN t hinv k hst]
    simp [hst]
  · by_cases hfull : t.counter = N
    · rw [insert_full h N t k hfull]
      simp [hfull]
    · have hlt : t.counter < N := by
        have := counter_le h N t hinv
        omega
      obtain ⟨e, _, _, _, heq⟩ := insert_new h N hN t hinv k hlt hst
      rw [heq]
      simp [hlt, hst]

theorem insert_false_eq {K : Type} [DecidableEq K] (h : K → Nat) (N : Nat) (hN : 0 < N)
    (t : Hashtable_Probing K) (hinv : Inv h N t) (k : K)
    (hf : (insert h N t k).1 = false) : (insert h N t k).2 = t := by
  by_cases hst : stored t k
  · rw [insert_stored h N hN t hinv k hst]
  · by_cases hfull : t.counter = N
    · rw [insert_full h N t k hfull]
    · have hlt : t.counter < N := by
        have := counter_le h N t hinv
        omega
      have := (insert_true_iff h N hN t hinv k).2 ⟨hlt, hst⟩
      rw [this] at hf
      exact Bool.noConfusion hf

/-- The effect of a successful `insert` on the counter and on the set of stored keys. -/
theorem insert_true_effect {K : Type} [DecidableEq K] (h : K → Nat) (N : Nat) (hN : 0 < N)
    (t : Hashtable_Probing K) (hinv : Inv h N t) (k : K) (hlt : t.counter < N)
    (hns : ¬ stored t k) :
    (insert h N t k).1 = true ∧ (insert h N t k).2.counter = t.counter + 1 ∧
      ∀ k', stored (insert h N t k).2 k' ↔ stored t k' ∨ k' = k := by
  obtain ⟨e, _, hnone, _, heq⟩ := insert_new h N hN t hinv k hlt hns
  rw [heq]
  refine ⟨rfl, rfl, fun k' => ?_⟩
  exact stored_set_occupied t _ k _ (by rw [hinv.len]; exact Nat.mod_lt _ hN) hnone k'

/-- The effect of `erase` of a stored key on the counter and on the set of stored keys. -/
theorem erase_stored_effect {K : Type} [DecidableEq K] (h : K → Nat) (N : Nat) (hN : 0 < N)
    (t : Hashtable_Probing K) (hinv : Inv h N t) (k : K) (hst : stored t k) :
    (erase h N t k).1 = 1 ∧ (erase h N t k).2.counter + 1 = t.counter ∧
      ∀ k', stored (erase h N t k).2 k' ↔ stored t k' ∧ k' ≠ k := by
  have hpos := counter_pos_of_stored h N t hinv k hst
  obtain ⟨j, hj⟩ := (stored_iff t k).1 hst
  rw [erase_stored h N hN t hinv k j hj]
  refine ⟨rfl, by simp only; omega, fun k' => ?_⟩
  exact stored_set_tombstone h N t hinv j k _ hj k'

theorem erase_not_stored_after {K : Type} [DecidableEq K] (h : K → Nat) (N : Nat) (hN : 0 < N)
    (t : Hashtable_Probing K) (hinv : Inv h N t) (k : K) : ¬ stored (erase h N t k).2 k := by
  by_cases hst : stored t k
  · intro hc
    exact ((erase_stored_effect h N hN t hinv k hst).2.2 k).1 hc |>.2 rfl
  · rw [erase_not_stored h N hN t k hst]
    exact hst

end Hashtable_Probing
namespace DoublyLinkedList

/-! ## The bucket list -/

theorem search_isSome_iff {K : Type} [DecidableEq K] (l : List K) (value : K) :
    (search l value).isSome = true ↔ value ∈ l := by
  induction l with
  | nil => simp [search]
  | cons key rest ih =>
    by_cases hk : key = value
    · simp [search, hk]
    · have hne : ¬ value = key := fun hc => hk hc.symm
      simp [search, hk, hne, ih]

theorem search_isNone_iff {K : Type} [DecidableEq K] (l : List K) (value : K) :
    (search l value).isNone = true ↔ value ∉ l := by
  rw [← search_isSome_iff]
  cases search l value <;> simp

theorem push_back_eq {K : Type} (l : List K) (value : K) : push_back l value = l ++ [value] := by
  unfold push_back
  split
  · rename_i hl
    rw [List.length_eq_zero] at hl
    simp [hl]
  · rfl

theorem pop_front_cons {K : Type} (key : K) (after : List K) :
    pop_front (key :: after) = after := by
  unfold pop_front
  cases after <;> simp

theorem pop_back_append {K : Type} (before : List K) (key : K) (hne : before ≠ []) :
    pop_back (before ++ [key]) = before := by
  unfold pop_back
  cases before with
  | nil => exact absurd rfl hne
  | cons a l =>
    have : a :: l ++ [key] = (a :: l) ++ [key] := rfl
    simp only [List.length_append, List.length_cons, List.length_singleton]
    rw [if_neg (by omega), if_neg (by omega), List.dropLast_concat]

/-- The erase loop removes every node equal to `value` from the part of the list still to be
visited, keeps the other nodes in order, and counts the removed nodes. -/
theorem eraseLoop_eq {K : Type} [DecidableEq K] (value : K) (l : List K) :
    ∀ (before : List K) (count : Nat),
      eraseLoop value before l count
        = (before ++ l.filter (fun x => decide (x ≠ value)), count + l.count value) := by
  induction l with
  | nil => intro before count; simp [eraseLoop]
  | cons key after ih =>
    intro before count
    rw [eraseLoop]
    by_cases hk : key = value
    · subst hk
      simp only [if_true]
      by_cases hb : before = []
      · subst hb
        simp only [if_true]
        rw [pop_front_cons, ih]
        simp
        omega
      · simp only [hb, if_false]
        by_cases ha : after = []
        · subst ha
          simp only [if_true]
          rw [pop_back_append before key hb]
          simp [eraseLoop]
        · simp only [ha, if_false]
          rw [ih]
          simp
          omega
    · simp only [hk, if_false]
      rw [ih]
      simp [hk, List.count_cons]

theorem length_filter_add_count {K : Type} [DecidableEq K] (l : List K) (value : K) :
    (l.filter (fun x => decide (x ≠ value))).length + l.count value = l.length := by
  induction l with
  | nil => rfl
  | cons key rest ih =>
    by_cases hk : key = value
    · subst hk
      simp only [ne_eq, not_true_eq_false, decide_False, Bool.false_eq_true, not_false_eq_true,
        List.filter_cons_of_neg, List.count_cons_self, List.length_cons]
      simp only [ne_eq] at ih
      omega
    · have hf : (key :: rest).filter (fun x => decide (x ≠ value))
          = key :: rest.filter (fun x => decide (x ≠ value)) :=
        List.filter_cons_of_pos (by simpa using hk)
      rw [hf, List.count_cons_of_ne (fun hc => hk hc.symm)]
      simp only [List.length_cons]
      omega

theorem list_erase_eq {K : Type} [DecidableEq K] (l : List K) (value : K) :
    erase l value = (l.filter (fun x => decide (x ≠ value)), l.count value) := by
  unfold erase
  rw [eraseLoop_eq]
  simp

end DoublyLinkedList

namespace Hashtable_Chaining

/-! ## The chained table -/

theorem bucket_set {K : Type} (t : Hashtable_Chaining K) (i j c : Nat) (b : List K) :
    bucket ⟨t.arr.set i b, c⟩ j = if i = j ∧ i < t.arr.length then b else bucket t j := by
  unfold bucket
  simp only
  rw [List.getD_eq_getElem?_getD, List.getD_eq_getElem?_getD, List.getElem?_set]
  by_cases hij : i = j
  · subst hij
    by_cases hi : i < t.arr.length
    · simp [hi]
    · simp [hi, List.getElem?_eq_none (Nat.le_of_not_lt hi)]
  · simp [hij]

theorem sum_length_set {K : Type} (arr : List (List K)) :
    ∀ (i : Nat) (b : List K), i < arr.length →
      ((arr.set i b).map List.length).sum + (arr.getD i []).length
        = (arr.map List.length).sum + b.length := by
  induction arr with
  | nil => intro i b hi; simp at hi
  | cons a l ih =>
    intro i b hi
    cases i with
    | zero =>
      simp only [List.set_cons_zero, List.map_cons, List.sum_cons, List.getD_cons_zero]
      omega
    | succ n =>
      have hn : n < l.length := by simpa using hi
      have := ih n b hn
      simp only [List.set_cons_succ, List.map_cons, List.sum_cons, List.getD_cons_succ] at this ⊢
      omega

theorem bucket_index_lt {K : Type} (h : K → Nat) (N : Nat) (hN : 0 < N) (k : K) :
    Hash_Function h N k < N := Nat.mod_lt _ hN

theorem search_iff_mem {K : Type} [DecidableEq K] (h : K → Nat) (N : Nat)
    (t : Hashtable_Chaining K) (k : K) :
    search h N t k = true ↔ k ∈ t.bucket (Hash_Function h N k) := by
  unfold search
  simp only
  rw [← DoublyLinkedList.search_isSome_iff]
  split <;> simp_all

theorem insert_of_mem {K : Type} [DecidableEq K] (h : K → Nat) (N : Nat)
    (t : Hashtable_Chaining K) (k : K) (hm : k ∈ t.bucket (Hash_Function h N k)) :
    insert h N t k = (false, t) := by
  unfold insert
  simp only
  have : ¬ (DoublyLinkedList.search (t.bucket (Hash_Function h N k)) k).isNone = true := by
    rw [DoublyLinkedList.search_isNone_iff]
    exact fun hc => hc hm
  rw [if_neg this]

theorem insert_of_not_mem {K : Type} [DecidableEq K] (h : K → Nat) (N : Nat)
    (t : Hashtable_Chaining K) (k : K) (hm : k ∉ t.bucket (Hash_Function h N k)) :
    insert h N t k = (true, ⟨t.arr.set (Hash_Function h N k)
      (t.bucket (Hash_Function h N k) ++ [k]), t.counter + 1⟩) := by
  unfold insert
  simp only
  rw [if_pos ((DoublyLinkedList.search_isNone_iff _ _).2 hm), DoublyLinkedList.push_back_eq]

theorem table_erase_eq {K : Type} [DecidableEq K] (h : K → Nat) (N : Nat)
    (t : Hashtable_Chaining K) (k : K) :
    erase h N t k = ((t.bucket (Hash_Function h N k)).count k,
      ⟨t.arr.set (Hash_Function h N k)
        ((t.bucket (Hash_Function h N k)).filter (fun x => decide (x ≠ k))),
        t.counter - (t.bucket (Hash_Function h N k)).count k⟩) := by
  unfold erase
  simp only [DoublyLinkedList.list_erase_eq]

theorem insert_length {K : Type} [DecidableEq K] (h : K → Nat) (N : Nat)
    (t : Hashtable_Chaining K) (k : K) : (insert h N t k).2.arr.length = t.arr.length := by
  by_cases hm : k ∈ t.bucket (Hash_Function h N k)
  · rw [insert_of_mem h N t k hm]
  · rw [insert_of_not_mem h N t k hm]
    simp

theorem erase_length {K : Type} [DecidableEq K] (h : K → Nat) (N : Nat)
    (t : Hashtable_Chaining K) (k : K) : (erase h N t k).2.arr.length = t.arr.length := by
  rw [table_erase_eq]
  simp

/-- `clear` returns only on a table whose counter is zero, and leaves it as it is. -/
theorem chained_clear_some_iff {K : Type} (t t' : Hashtable_Chaining K) :
    clear t = some t' ↔ t.counter = 0 ∧ t' = t := by
  unfold clear
  by_cases hc : t.counter = 0
  · rw [if_neg (fun hne => hne hc)]
    constructor
    · intro heq
      exact ⟨hc, (Option.some.inj heq).symm⟩
    · rintro ⟨_, rfl⟩
      rfl
  · rw [if_pos hc]
    constructor
    · intro heq
      cases heq
    · rintro ⟨h0, _⟩
      exact absurd h0 hc

/-- `clear` has no result exactly on the tables whose counter is not zero. -/
theorem chained_clear_none_iff {K : Type} (t : Hashtable_Chaining K) :
    clear t = none ↔ t.counter ≠ 0 := by
  unfold clear
  by_cases hc : t.counter = 0
  · rw [if_neg (fun hne => hne hc)]
    constructor
    · intro heq
      cases heq
    · intro hne
      exact absurd hc hne
  · rw [if_pos hc]
    exact ⟨fun _ => hc, fun _ => rfl⟩

theorem Reachable_length {K : Type} [DecidableEq K] (h : K → Nat) (N : Nat)
    (t : Hashtable_Chaining K) (hr : Reachable h N t) : t.arr.length = N := by
  induction hr with
  | init => simp [init]
  | insert t k _ ih => rw [insert_length, ih]
  | erase t k _ ih => rw [erase_length, ih]
  | clear t t' _ hcl ih =>
    rw [((chained_clear_some_iff t t').1 hcl).2]
    exact ih

theorem search_erase {K : Type} [DecidableEq K] (h : K → Nat) (N : Nat) (hN : 0 < N)
    (t : Hashtable_Chaining K) (hlen : t.arr.length = N) (k : K) :
    search h N (erase h N t k).2 k = false := by
  rw [Bool.eq_false_iff, Ne, search_iff_mem, table_erase_eq]
  simp only [bucket_set]
  have hl : Hash_Function h N k < t.arr.length := by rw [hlen]; exact bucket_index_lt h N hN k
  simp [hl]

theorem search_insert {K : Type} [DecidableEq K] (h : K → Nat) (N : Nat) (hN : 0 < N)
    (t : Hashtable_Chaining K) (hlen : t.arr.length = N) (k k' : K) :
    search h N (insert h N t k).2 k' = true ↔ search h N t k' = true ∨ k' = k := by
  by_cases hm : k ∈ t.bucket (Hash_Function h N k)
  · rw [insert_of_mem h N t k hm]
    constructor
    · exact fun hs => Or.inl hs
    · rintro (hs | rfl)
      · exact hs
      · exact (search_iff_mem h N t k').2 hm
  · rw [insert_of_not_mem h N t k hm, search_iff_mem, search_iff_mem, bucket_set]
    by_cases hh : Hash_Function h N k = Hash_Function h N k'
    · rw [if_pos ⟨hh, by rw [hlen]; exact bucket_index_lt h N hN k⟩, hh]
      simp
    · rw [if_neg (fun hc => hh hc.1)]
      constructor
      · exact fun hs => Or.inl hs
      · rintro (hs | rfl)
        · exact hs
        · exact absurd rfl hh

theorem insert_counter {K : Type} [DecidableEq K] (h : K → Nat) (N : Nat)
    (t : Hashtable_Chaining K) (k : K) :
    (insert h N t k).2.counter = if search h N t k = true then t.counter else t.counter + 1 := by
  by_cases hm : k ∈ t.bucket (Hash_Function h N k)
  · rw [insert_of_mem h N t k hm, if_pos ((search_iff_mem h N t k).2 hm)]
  · rw [insert_of_not_mem h N t k hm, if_neg (fun hc => hm ((search_iff_mem h N t k).1 hc))]

theorem chained_ofList_append {K : Type} [DecidableEq K] (h : K → Nat) (N : Nat) (L : List K)
    (k : K) :
    ofList h N (L ++ [k]) = (insert h N (ofList h N L) k).2 := by
  unfold ofList
  rw [List.foldl_append]
  rfl

/-- The table built from a list holds exactly the keys of the list, each counted once. -/
theorem chained_ofList_spec {K : Type} [DecidableEq K] (h : K → Nat) (N : Nat) (hN : 0 < N)
    (L : List K) :
    (ofList h N L).arr.length = N ∧ (ofList h N L).counter = L.toFinset.card ∧
      ∀ k, search h N (ofList h N L) k = true ↔ k ∈ L := by
  induction L using List.reverseRecOn with
  | nil =>
    refine ⟨by simp [ofList, init], by simp [ofList, init], fun k => ?_⟩
    rw [search_iff_mem]
    simp only [ofList, init, bucket, List.foldl_nil, List.not_mem_nil, iff_false]
    rw [List.getD_eq_getElem?_getD]
    intro hc
    by_cases hi : Hash_Function h N k < N
    · rw [List.getElem?_eq_getElem (by simpa using hi)] at hc
      simp at hc
    · rw [List.getElem?_eq_none (by simpa using hi)] at hc
      simp at hc
  | append_singleton L k ih =>
    obtain ⟨hlen, hcnt, hs⟩ := ih
    rw [chained_ofList_append]
    refine ⟨by rw [insert_length, hlen], ?_, fun k' => ?_⟩
    · rw [insert_counter, hcnt]
      have hset : (L ++ [k]).toFinset = Insert.insert k L.toFinset := by
        ext x
        simp
        tauto
      rw [hset]
      by_cases hk : k ∈ L
      · rw [if_pos ((hs k).2 hk), Finset.insert_eq_of_mem (by simpa using hk)]
      · rw [if_neg (fun hc => hk ((hs k).1 hc)), Finset.card_insert_of_not_mem (by simpa using hk)]
    · rw [search_insert h N hN _ hlen, hs]
      simp

end Hashtable_Chaining

/-! ## Distinct keys in order of first occurrence -/

theorem mem_firstOccurrences {K : Type} [DecidableEq K] (L : List K) (k : K) :
    k ∈ firstOccurrences L ↔ k ∈ L := by
  induction L with
  | nil => simp [firstOccurrences]
  | cons a l ih =>
    simp only [firstOccurrences, List.mem_cons, List.mem_filter, ih]
    by_cases hk : k = a
    · simp [hk]
    · simp [hk]

theorem firstOccurrences_nodup {K : Type} [DecidableEq K] (L : List K) :
    (firstOccurrences L).Nodup := by
  induction L with
  | nil => simp [firstOccurrences]
  | cons a l ih =>
    simp only [firstOccurrences, List.nodup_cons, List.mem_filter]
    exact ⟨by simp, ih.filter _⟩

theorem firstOccurrences_append_singleton {K : Type} [DecidableEq K] (L : List K) (k : K) :
    firstOccurrences (L ++ [k])
      = if k ∈ L then firstOccurrences L else firstOccurrences L ++ [k] := by
  induction L with
  | nil => simp [firstOccurrences]
  | cons a l ih =>
    have hstep : firstOccurrences (a :: l ++ [k])
        = a :: (firstOccurrences (l ++ [k])).filter (fun x => decide (x ≠ a)) := rfl
    have hcons : firstOccurrences (a :: l)
        = a :: (firstOccurrences l).filter (fun x => decide (x ≠ a)) := rfl
    rw [hstep, ih, hcons]
    by_cases hka : k = a
    · subst hka
      by_cases hkl : k ∈ l
      · simp [hkl]
      · simp [hkl, List.filter_append]
    · by_cases hkl : k ∈ l
      · simp [hkl, hka]
      · simp [hkl, hka, List.filter_append]

theorem firstOccurrences_of_nodup {K : Type} [DecidableEq K] (L : List K) (hnd : L.Nodup) :
    firstOccurrences L = L := by
  induction L with
  | nil => rfl
  | cons a l ih =>
    rw [List.nodup_cons] at hnd
    simp only [firstOccurrences, ih hnd.2]
    congr 1
    rw [List.filter_eq_self]
    intro x hx
    simp only [ne_eq, decide_eq_true_eq]
    rintro rfl
    exact hnd.1 hx

theorem length_firstOccurrences {K : Type} [DecidableEq K] (L : List K) :
    (firstOccurrences L).length = L.dedup.length := by
  rw [← List.card_toFinset L, ← List.toFinset_card_of_nodup (firstOccurrences_nodup L)]
  congr 1
  ext x
  simp [mem_firstOccurrences]

theorem take_min_length {K : Type} (l : List K) (n : Nat) :
    l.take (min n l.length) = l.take n := by
  by_cases hn : n ≤ l.length
  · rw [Nat.min_eq_left hn]
  · rw [Nat.min_eq_right (by omega), List.take_of_length_le (Nat.le_refl _),
      List.take_of_length_le (by omega)]

namespace Hashtable_Probing

/-! ## The probing table built from a list -/

theorem ofList_append {K : Type} [DecidableEq K] (h : K → Nat) (N : Nat) (L : List K) (k : K) :
    ofList h N (L ++ [k]) = (insert h N (ofList h N L) k).2 := by
  unfold ofList
  rw [List.foldl_append]
  rfl

theorem not_stored_init {K : Type} (N : Nat) (k : K) : ¬ stored (init K N) k := by
  rw [stored_iff]
  rintro ⟨i, hi⟩
  simp only [init, slot_replicate_blank] at hi
  exact Option.noConfusion hi

/-- The table built from a list is reachable, and it holds the first `N` distinct keys of the
list (all of them when there are fewer than `N`). -/
theorem ofList_spec {K : Type} [DecidableEq K] (h : K → Nat) (N : Nat) (hN : 0 < N)
    (L : List K) :
    Reachable h N (ofList h N L) ∧
      (ofList h N L).counter = min N (firstOccurrences L).length ∧
      ∀ k, stored (ofList h N L) k ↔ k ∈ (firstOccurrences L).take N := by
  induction L using List.reverseRecOn with
  | nil =>
    refine ⟨Reachable.init, by simp [ofList, init, firstOccurrences], fun k => ?_⟩
    simp only [firstOccurrences, List.take_nil, List.not_mem_nil, iff_false]
    exact not_stored_init N k
  | append_singleton L k ih =>
    obtain ⟨hr, hcnt, hst⟩ := ih
    have hinv := Reachable_Inv h N hN _ hr
    have hle := counter_le h N _ hinv
    rw [ofList_append, firstOccurrences_append_singleton]
    refine ⟨Reachable.insert _ k hr, ?_⟩
    by_cases hk : k ∈ L
    · -- a repeated key: it is stored already, or it came after the table filled up
      rw [if_pos hk]
      have hfalse : (insert h N (ofList h N L) k).1 = false := by
        rw [Bool.eq_false_iff, Ne, insert_true_iff h N hN _ hinv]
        rintro ⟨hlt, hns⟩
        apply hns
        rw [hst, List.take_of_length_le (by omega)]
        exact (mem_firstOccurrences L k).2 hk
      rw [insert_false_eq h N hN _ hinv k hfalse]
      exact ⟨hcnt, hst⟩
    · rw [if_neg hk]
      have hns : ¬ stored (ofList h N L) k := by
        rw [hst]
        intro hc
        exact hk ((mem_firstOccurrences L k).1 (List.mem_of_mem_take hc))
      by_cases hlt : (ofList h N L).counter < N
      · obtain ⟨_, hc', hs'⟩ := insert_true_effect h N hN _ hinv k hlt hns
        have hlen : (firstOccurrences L).length < N := by omega
        refine ⟨?_, fun k' => ?_⟩
        · rw [hc', hcnt]
          simp only [List.length_append, List.length_singleton]
          omega
        · rw [hs', hst, List.take_of_length_le (by omega),
            List.take_of_length_le (by simp; omega)]
          simp
      · have hfull : (ofList h N L).counter = N := by omega
        rw [insert_full h N _ k hfull]
        have hlen : N ≤ (firstOccurrences L).length := by omega
        refine ⟨?_, fun k' => ?_⟩
        · rw [hfull]
          simp only [List.length_append, List.length_singleton]
          omega
        · rw [hst, List.take_append_of_le_length hlen]

end Hashtable_Probing

/-! ## The example tables are reachable -/

theorem collided_reachable : Hashtable_Probing.Reachable natHash 3 collided :=
  Hashtable_Probing.Reachable.insert _ 3
    (Hashtable_Probing.Reachable.insert _ 0 Hashtable_Probing.Reachable.init)

theorem collidedErased_reachable : Hashtable_Probing.Reachable natHash 3 collidedErased :=
  Hashtable_Probing.Reachable.erase _ 0 collided_reachable

/-! ## The probing table: results of `insert`, `search` and `erase` -/

/-- C1 (probing `insert`): in every state reachable from the empty table, `insert(k)` returns
`true` exactly when the table is not full (`count < N`, which is `full() = false`) and `k` is
not stored; when it returns `false` the table (every slot and the counter) is as before. -/
theorem C1_probing_insert_result {K : Type} [DecidableEq K] (h : K → Nat) (N : Nat)
    (hN : 0 < N) (t : Hashtable_Probing K) (hr : Hashtable_Probing.Reachable h N t) (k : K) :
    ((Hashtable_Probing.insert h N t k).1 = true ↔
        (t.count < N ∧ ¬ Hashtable_Probing.stored t k)) ∧
      (t.count < N ↔ t.full N = false) ∧
      ((Hashtable_Probing.insert h N t k).1 = false →
        (Hashtable_Probing.insert h N t k).2 = t) := by
  have hinv := Hashtable_Probing.Reachable_Inv h N hN t hr
  have hle := Hashtable_Probing.counter_le h N t hinv
  refine ⟨Hashtable_Probing.insert_true_iff h N hN t hinv k, ?_,
    Hashtable_Probing.insert_false_eq h N hN t hinv k⟩
  unfold Hashtable_Probing.count Hashtable_Probing.full
  constructor
  · intro hlt
    rw [if_neg (by omega)]
  · intro hf
    by_cases hc : t.counter = N
    · rw [if_pos hc] at hf
      exact Bool.noConfusion hf
    · omega

/-- C1 at the table `collidedErased` and the new key `6`. -/
theorem C1_probing_insert_result_witness :
    (Hashtable_Probing.insert natHash 3 collidedErased 6).1 = true ↔
      (collidedErased.count < 3 ∧ ¬ Hashtable_Probing.stored collidedErased 6) :=
  (C1_probing_insert_result natHash 3 (by decide) collidedErased collidedErased_reachable 6).1

/-- C2 (probing `search`): in every state reachable from the empty table, `search(k)` returns
`true` exactly when some slot is occupied with a value equal to `k`. -/
theorem C2_probing_search_iff_stored {K : Type} [DecidableEq K] (h : K → Nat) (N : Nat)
    (hN : 0 < N) (t : Hashtable_Probing K) (hr : Hashtable_Probing.Reachable h N t) (k : K) :
    Hashtable_Probing.search h N t k = true ↔
      ∃ i, i < t.arr.length ∧ (Hashtable_Probing.slot t.arr i).is_full = true ∧
        (Hashtable_Probing.slot t.arr i).data = some k :=
  Hashtable_Probing.search_iff_stored h N hN t (Hashtable_Probing.Reachable_Inv h N hN t hr) k

/-- C2 at the table `collidedErased`, where the key `3` sits behind a tombstone. -/
theorem C2_probing_search_iff_stored_witness :
    Hashtable_Probing.search natHash 3 collidedErased 3 = true ↔
      ∃ i, i < collidedErased.arr.length ∧
        (Hashtable_Probing.slot collidedErased.arr i).is_full = true ∧
        (Hashtable_Probing.slot collidedErased.arr i).data = some 3 :=
  C2_probing_search_iff_stored natHash 3 (by decide) collidedErased collidedErased_reachable 3

/-- C3 (probing `erase`): in every reachable state, if slot `j` is occupied with `k` then
`erase(k)` returns `1`, slot `j` becomes a tombstone (and is not blank), the counter decreases
by exactly one and every other slot is unchanged; if `k` is not stored, `erase(k)` returns `0`
and the table is unchanged. -/
theorem C3_probing_erase_effect {K : Type} [DecidableEq K] (h : K → Nat) (N : Nat)
    (hN : 0 < N) (t : Hashtable_Probing K) (hr : Hashtable_Probing.Reachable h N t) (k : K) :
    (∀ j, Hashtable_Probing.occupiedWith t j k →
      (Hashtable_Probing.erase h N t k).1 = 1 ∧
      (Hashtable_Probing.slot (Hashtable_Probing.erase h N t k).2.arr j).is_tombstone = true ∧
      (Hashtable_Probing.slot (Hashtable_Probing.erase h N t k).2.arr j).is_blank = false ∧
      (Hashtable_Probing.erase h N t k).2.count + 1 = t.count ∧
      (Hashtable_Probing.erase h N t k).2.arr.length = t.arr.length ∧
      ∀ i, i ≠ j → Hashtable_Probing.slot (Hashtable_Probing.erase h N t k).2.arr i
        = Hashtable_Probing.slot t.arr i) ∧
    (¬ Hashtable_Probing.stored t k →
      (Hashtable_Probing.erase h N t k).1 = 0 ∧ (Hashtable_Probing.erase h N t k).2 = t) := by
  have hinv := Hashtable_Probing.Reachable_Inv h N hN t hr
  constructor
  · rintro j ⟨hjl, hfull, hj⟩
    have hpos := Hashtable_Probing.counter_pos_of_stored h N t hinv k ⟨j, hjl, hfull, hj⟩
    rw [Hashtable_Probing.erase_stored h N hN t hinv k j hj]
    refine ⟨rfl, ?_, ?_, ?_, by simp, ?_⟩
    · rw [Hashtable_Probing.slot_set, if_pos ⟨rfl, hjl⟩]
      rfl
    · rw [Hashtable_Probing.slot_set, if_pos ⟨rfl, hjl⟩]
      rfl
    · simp only [Hashtable_Probing.count]
      omega
    · intro i hi
      simp only [Hashtable_Probing.slot_set]
      rw [if_neg (fun hc => hi hc.1.symm)]
  · intro hns
    rw [Hashtable_Probing.erase_not_stored h N hN t k hns]
    exact ⟨rfl, rfl⟩

/-- C3 at the table `collided`, whose slot 0 holds the key `0`. -/
theorem C3_probing_erase_effect_witness :
    Hashtable_Probing.occupiedWith collided 0 0 ∧
      (Hashtable_Probing.erase natHash 3 collided 0).1 = 1 ∧
      (Hashtable_Probing.slot (Hashtable_Probing.erase natHash 3 collided 0).2.arr 0).is_tombstone
        = true ∧
      (Hashtable_Probing.erase natHash 3 collided 0).2.count + 1 = collided.count :=
  ⟨⟨by decide, by decide, by decide⟩,
    ((C3_probing_erase_effect natHash 3 (by decide) collided collided_reachable 0).1 0
      ⟨by decide, by decide, by decide⟩).1,
    ((C3_probing_erase_effect natHash 3 (by decide) collided collided_reachable 0).1 0
      ⟨by decide, by decide, by decide⟩).2.1,
    ((C3_probing_erase_effect natHash 3 (by decide) collided collided_reachable 0).1 0
      ⟨by decide, by decide, by decide⟩).2.2.2.1⟩

/-- C4 (probing `erase` keeps other keys reachable): in every reachable state and for keys
`k' ≠ k`, `search(k')` after `erase(k)` returns what it returned before; in particular a
stored `k'` is still found. -/
theorem C4_probing_erase_frame {K : Type} [DecidableEq K] (h : K → Nat) (N : Nat)
    (hN : 0 < N) (t : Hashtable_Probing K) (hr : Hashtable_Probing.Reachable h N t)
    (k k' : K) (hne : k' ≠ k) :
    Hashtable_Probing.search h N (Hashtable_Probing.erase h N t k).2 k'
        = Hashtable_Probing.search h N t k' ∧
      (Hashtable_Probing.stored t k' →
        Hashtable_Probing.search h N (Hashtable_Probing.erase h N t k).2 k' = true) := by
  have hinv := Hashtable_Probing.Reachable_Inv h N hN t hr
  have hinv' := Hashtable_Probing.erase_Inv h N hN t hinv k
  have hiff : Hashtable_Probing.stored (Hashtable_Probing.erase h N t k).2 k' ↔
      Hashtable_Probing.stored t k' := by
    by_cases hst : Hashtable_Probing.stored t k
    · rw [(Hashtable_Probing.erase_stored_effect h N hN t hinv k hst).2.2 k']
      exact ⟨fun hc => hc.1, fun hc => ⟨hc, hne⟩⟩
    · rw [Hashtable_Probing.erase_not_stored h N hN t k hst]
  constructor
  · rw [Bool.eq_iff_iff, Hashtable_Probing.search_iff_stored h N hN _ hinv',
      Hashtable_Probing.search_iff_stored h N hN t hinv, hiff]
  · intro hst
    rw [Hashtable_Probing.search_iff_stored h N hN _ hinv', hiff]
    exact hst

/-- C4 at the table `collided`: `3` is found after the colliding key `0` is erased. -/
theorem C4_probing_erase_frame_witness :
    (3 : Nat) ≠ 0 ∧
      Hashtable_Probing.search natHash 3 (Hashtable_Probing.erase natHash 3 collided 0).2 3
        = Hashtable_Probing.search natHash 3 collided 3 :=
  ⟨by decide,
    (C4_probing_erase_frame natHash 3 (by decide) collided collided_reachable 0 3
      (by decide)).1⟩


/-! ## The chained table: `insert` and `erase` -/

/-- C5 (chained `insert`): for every table of `N` buckets and key `k` with bucket index
`i = hash(k)`: if bucket `i` contains `k`, `insert(k)` returns `false` and the table is
unchanged; otherwise it returns `true`, bucket `i` is its old key sequence with `k` appended at
the tail, the count grows by exactly one and every other bucket is unchanged. -/
theorem C5_chained_insert_effect {K : Type} [DecidableEq K] (h : K → Nat) (N : Nat)
    (hN : 0 < N) (t : Hashtable_Chaining K) (hlen : t.arr.length = N) (k : K) :
    (k ∈ t.bucket (Hash_Function h N k) → Hashtable_Chaining.insert h N t k = (false, t)) ∧
    (k ∉ t.bucket (Hash_Function h N k) →
      (Hashtable_Chaining.insert h N t k).1 = true ∧
      (Hashtable_Chaining.insert h N t k).2.bucket (Hash_Function h N k)
        = t.bucket (Hash_Function h N k) ++ [k] ∧
      (Hashtable_Chaining.insert h N t k).2.size = t.size + 1 ∧
      (Hashtable_Chaining.insert h N t k).2.arr.length = N ∧
      ∀ j, j ≠ Hash_Function h N k →
        (Hashtable_Chaining.insert h N t k).2.bucket j = t.bucket j) := by
  have hl : Hash_Function h N k < t.arr.length := by
    rw [hlen]; exact Hashtable_Chaining.bucket_index_lt h N hN k
  constructor
  · exact Hashtable_Chaining.insert_of_mem h N t k
  · intro hm
    rw [Hashtable_Chaining.insert_of_not_mem h N t k hm]
    refine ⟨rfl, ?_, rfl, by simp [hlen], ?_⟩
    · rw [Hashtable_Chaining.bucket_set, if_pos ⟨rfl, hl⟩]
    · intro j hj
      rw [Hashtable_Chaining.bucket_set, if_neg (fun hc => hj hc.1.symm)]

/-- C5 at the table `repeated` and the key `9`, which is new to bucket 0. -/
theorem C5_chained_insert_effect_witness :
    (9 : Nat) ∉ repeated.bucket (Hash_Function natHash 3 9) ∧
      (Hashtable_Chaining.insert natHash 3 repeated 9).1 = true ∧
      (Hashtable_Chaining.insert natHash 3 repeated 9).2.bucket (Hash_Function natHash 3 9)
        = repeated.bucket (Hash_Function natHash 3 9) ++ [9] ∧
      (Hashtable_Chaining.insert natHash 3 repeated 9).2.size = repeated.size + 1 :=
  ⟨by decide,
    ((C5_chained_insert_effect natHash 3 (by decide) repeated (by decide) 9).2 (by decide)).1,
    ((C5_chained_insert_effect natHash 3 (by decide) repeated (by decide) 9).2 (by decide)).2.1,
    ((C5_chained_insert_effect natHash 3 (by decide) repeated (by decide) 9).2
      (by decide)).2.2.1⟩

/-- C6 (chained `erase`): for every table of `N` buckets whose count is the total number of
stored keys (buckets may hold repeated keys) and key `k` with bucket index `i = hash(k)`,
`erase(k)` returns the number of keys of bucket `i` equal to `k`, leaves bucket `i` as its old
key sequence without the occurrences of `k` (the other keys in their original order),
decreases the count by the returned number, and leaves every other bucket unchanged. -/
theorem C6_chained_erase_effect {K : Type} [DecidableEq K] (h : K → Nat) (N : Nat)
    (hN : 0 < N) (t : Hashtable_Chaining K) (hlen : t.arr.length = N)
    (hcnt : t.counter = (t.arr.map List.length).sum) (k : K) :
    (Hashtable_Chaining.erase h N t k).1 = (t.bucket (Hash_Function h N k)).count k ∧
    (Hashtable_Chaining.erase h N t k).2.bucket (Hash_Function h N k)
      = (t.bucket (Hash_Function h N k)).filter (fun x => decide (x ≠ k)) ∧
    (Hashtable_Chaining.erase h N t k).2.size + (Hashtable_Chaining.erase h N t k).1 = t.size ∧
    (Hashtable_Chaining.erase h N t k).2.counter
      = ((Hashtable_Chaining.erase h N t k).2.arr.map List.length).sum ∧
    (Hashtable_Chaining.erase h N t k).2.arr.length = N ∧
    ∀ j, j ≠ Hash_Function h N k →
      (Hashtable_Chaining.erase h N t k).2.bucket j = t.bucket j := by
  have hl : Hash_Function h N k < t.arr.length := by
    rw [hlen]; exact Hashtable_Chaining.bucket_index_lt h N hN k
  have hsum := Hashtable_Chaining.sum_length_set t.arr (Hash_Function h N k)
    ((t.bucket (Hash_Function h N k)).filter (fun x => decide (x ≠ k))) hl
  have hsplit := DoublyLinkedList.length_filter_add_count (t.bucket (Hash_Function h N k)) k
  rw [Hashtable_Chaining.table_erase_eq]
  refine ⟨rfl, ?_, ?_, ?_, by simp [hlen], ?_⟩
  · rw [Hashtable_Chaining.bucket_set, if_pos ⟨rfl, hl⟩]
  · simp only [Hashtable_Chaining.size, Hashtable_Chaining.bucket] at hsum hsplit ⊢
    omega
  · simp only [Hashtable_Chaining.bucket] at hsum hsplit ⊢
    omega
  · intro j hj
    rw [Hashtable_Chaining.bucket_set, if_neg (fun hc => hj hc.1.symm)]

/-- C6 at the table `repeated`, whose bucket 0 holds the key `3` twice. -/
theorem C6_chained_erase_effect_witness :
    repeated.arr.length = 3 ∧ repeated.counter = (repeated.arr.map List.length).sum ∧
      (Hashtable_Chaining.erase natHash 3 repeated 3).1
        = (repeated.bucket (Hash_Function natHash 3 3)).count 3 ∧
      (Hashtable_Chaining.erase natHash 3 repeated 3).2.size
        + (Hashtable_Chaining.erase natHash 3 repeated 3).1 = repeated.size :=
  ⟨by decide, by decide,
    (C6_chained_erase_effect natHash 3 (by decide) repeated (by decide) (by decide) 3).1,
    (C6_chained_erase_effect natHash 3 (by decide) repeated (by decide) (by decide) 3).2.2.1⟩

/-! ## Both tables -/

/-- C7 (erase then search): for the chained table and for the probing table, in every state
reachable from the empty table by `insert`, `erase` and `clear` and for every key `k`,
`search(k)` returns `false` after `erase(k)`. -/
theorem C7_erase_then_search {K : Type} [DecidableEq K] (h : K → Nat) (Nc Np : Nat)
    (hNc : 0 < Nc) (hNp : 0 < Np) (tc : Hashtable_Chaining K) (tp : Hashtable_Probing K)
    (hc : Hashtable_Chaining.Reachable h Nc tc) (hp : Hashtable_Probing.Reachable h Np tp)
    (k : K) :
    Hashtable_Chaining.search h Nc (Hashtable_Chaining.erase h Nc tc k).2 k = false ∧
      Hashtable_Probing.search h Np (Hashtable_Probing.erase h Np tp k).2 k = false := by
  constructor
  · exact Hashtable_Chaining.search_erase h Nc hNc tc
      (Hashtable_Chaining.Reachable_length h Nc tc hc) k
  · have hinv := Hashtable_Probing.Reachable_Inv h Np hNp tp hp
    have hinv' := Hashtable_Probing.erase_Inv h Np hNp tp hinv k
    rw [Bool.eq_false_iff, Ne, Hashtable_Probing.search_iff_stored h Np hNp _ hinv']
    exact Hashtable_Probing.erase_not_stored_after h Np hNp tp hinv k

/-- C7 at a chained table holding `0` and `3` in one bucket and at the probing table
`collided`. -/
theorem C7_erase_then_search_witness :
    Hashtable_Chaining.search natHash 3
        (Hashtable_Chaining.erase natHash 3 (Hashtable_Chaining.ofList natHash 3 [0, 3]) 0).2 0
        = false ∧
      Hashtable_Probing.search natHash 3 (Hashtable_Probing.erase natHash 3 collided 0).2 0
        = false :=
  C7_erase_then_search natHash 3 3 (by decide) (by decide)
    (Hashtable_Chaining.ofList natHash 3 [0, 3]) collided
    (Hashtable_Chaining.Reachable.insert _ 3
      (Hashtable_Chaining.Reachable.insert _ 0 Hashtable_Chaining.Reachable.init))
    collided_reachable 0


/-! ## Tables built from a list of keys -/

/-- C8 (chained table built from a list): for every capacity `N > 0` and list `L`, the table
obtained by inserting the keys of `L` in order into the empty table has `size()` equal to the
number of distinct keys of `L`, and `search(k)` is `true` exactly for the keys of `L`.  With
the keys of the test program followed by `"and"` (whatever the string hash computes), the
size is 6, `search("World")` is `false` and `search("World!")` is `true`. -/
theorem C8_chained_build {K : Type} [DecidableEq K] (h : K → Nat) (N : Nat) (hN : 0 < N)
    (L : List K) (hs : String → Nat) :
    (Hashtable_Chaining.ofList h N L).size = L.dedup.length ∧
    (∀ k, Hashtable_Chaining.search h N (Hashtable_Chaining.ofList h N L) k = true ↔ k ∈ L) ∧
    (Hashtable_Chaining.insert hs N (Hashtable_Chaining.ofList hs N testKeys) "and").2
      = Hashtable_Chaining.ofList hs N (testKeys ++ ["and"]) ∧
    (Hashtable_Chaining.ofList hs N (testKeys ++ ["and"])).size = 6 ∧
    Hashtable_Chaining.search hs N (Hashtable_Chaining.ofList hs N (testKeys ++ ["and"]))
      "World" = false ∧
    Hashtable_Chaining.search hs N (Hashtable_Chaining.ofList hs N (testKeys ++ ["and"]))
      "World!" = true := by
  obtain ⟨_, hcnt, hsearch⟩ := Hashtable_Chaining.chained_ofList_spec h N hN L
  obtain ⟨_, hcnt', hsearch'⟩ :=
    Hashtable_Chaining.chained_ofList_spec hs N hN (testKeys ++ ["and"])
  refine ⟨?_, hsearch, (Hashtable_Chaining.chained_ofList_append hs N testKeys "and").symm,
    ?_, ?_, ?_⟩
  · rw [Hashtable_Chaining.size, hcnt, List.card_toFinset]
  · rw [Hashtable_Chaining.size, hcnt', List.card_toFinset]
    decide
  · rw [Bool.eq_false_iff, Ne, hsearch']
    decide
  · rw [hsearch']
    decide

/-- C8 at capacity 5 with a list that repeats a key. -/
theorem C8_chained_build_witness :
    (Hashtable_Chaining.ofList natHash 5 [7, 2, 7, 12]).size = [7, 2, 7, 12].dedup.length ∧
      (Hashtable_Chaining.ofList String.length 5 (testKeys ++ ["and"])).size = 6 :=
  ⟨(C8_chained_build natHash 5 (by decide) [7, 2, 7, 12] String.length).1,
    (C8_chained_build natHash 5 (by decide) [7, 2, 7, 12] String.length).2.2.2.1⟩

/-- C9 (probing table built from a list): for every capacity `N > 0` and list `L` with `d`
distinct keys, the table obtained by inserting the keys of `L` in order into the empty table
has `count() = min(N, d)`, and `search(k)` is `true` exactly for the first `min(N, d)` distinct
keys of `L` in order of first occurrence.  With `N = 5` the five keys of the test program fill
the table, `insert("and")` returns `false` and the count stays 5; with `N = 100`
`insert("and")` returns `true` and `search("World!")` is `true` (whatever the string hash
computes). -/
theorem C9_probing_build {K : Type} [DecidableEq K] (h : K → Nat) (N : Nat) (hN : 0 < N)
    (L : List K) (hs : String → Nat) :
    (Hashtable_Probing.ofList h N L).count = min N L.dedup.length ∧
    (∀ k, Hashtable_Probing.search h N (Hashtable_Probing.ofList h N L) k = true ↔
      k ∈ (firstOccurrences L).take (min N L.dedup.length)) ∧
    ((Hashtable_Probing.ofList hs 5 testKeys).count = 5 ∧
      (Hashtable_Probing.ofList hs 5 testKeys).full 5 = true ∧
      (Hashtable_Probing.insert hs 5 (Hashtable_Probing.ofList hs 5 testKeys) "and").1 = false ∧
      (Hashtable_Probing.insert hs 5 (Hashtable_Probing.ofList hs 5 testKeys) "and").2.count
        = 5) ∧
    ((Hashtable_Probing.insert hs 100 (Hashtable_Probing.ofList hs 100 testKeys) "and").1
        = true ∧
      Hashtable_Probing.search hs 100
        (Hashtable_Probing.insert hs 100 (Hashtable_Probing.ofList hs 100 testKeys) "and").2
        "World!" = true) := by
  obtain ⟨hr, hcnt, hst⟩ := Hashtable_Probing.ofList_spec h N hN L
  have hinv := Hashtable_Probing.Reachable_Inv h N hN _ hr
  obtain ⟨_, hcnt5, _⟩ := Hashtable_Probing.ofList_spec hs 5 (by decide) testKeys
  have hc5 : (Hashtable_Probing.ofList hs 5 testKeys).counter = 5 := by
    rw [hcnt5]; decide
  obtain ⟨hr100, hcnt100, hst100⟩ := Hashtable_Probing.ofList_spec hs 100 (by decide) testKeys
  have hinv100 := Hashtable_Probing.Reachable_Inv hs 100 (by decide) _ hr100
  have hc100 : (Hashtable_Probing.ofList hs 100 testKeys).counter < 100 := by
    rw [hcnt100]; decide
  have hns100 : ¬ Hashtable_Probing.stored (Hashtable_Probing.ofList hs 100 testKeys) "and" := by
    rw [hst100]; decide
  obtain ⟨htrue, _, hst'⟩ :=
    Hashtable_Probing.insert_true_effect hs 100 (by decide) _ hinv100 "and" hc100 hns100
  refine ⟨?_, fun k => ?_, ⟨hc5, ?_, ?_, ?_⟩, htrue, ?_⟩
  · rw [Hashtable_Probing.count, hcnt, length_firstOccurrences]
  · rw [Hashtable_Probing.search_iff_stored h N hN _ hinv, hst, ← length_firstOccurrences,
      take_min_length]
  · rw [Hashtable_Probing.full, if_pos hc5]
  · rw [Hashtable_Probing.insert_full hs 5 _ "and" hc5]
  · rw [Hashtable_Probing.insert_full hs 5 _ "and" hc5]
    exact hc5
  · rw [Hashtable_Probing.search_iff_stored hs 100 (by decide) _
      (Hashtable_Probing.Reachable_Inv hs 100 (by decide) _
        (Hashtable_Probing.Reachable.insert _ "and" hr100)), hst', hst100]
    decide

/-- C9 at capacity 2 with three distinct keys, one of them repeated. -/
theorem C9_probing_build_witness :
    (Hashtable_Probing.ofList natHash 2 [7, 2, 7, 12]).count = min 2 [7, 2, 7, 12].dedup.length ∧
      (Hashtable_Probing.insert String.length 5
        (Hashtable_Probing.ofList String.length 5 testKeys) "and").1 = false :=
  ⟨(C9_probing_build natHash 2 (by decide) [7, 2, 7, 12] String.length).1,
    (C9_probing_build natHash 2 (by decide) [7, 2, 7, 12] String.length).2.2.1.2.2.1⟩

/-- C10 (tombstone reuse): for every `N > 0` and `N` pairwise distinct keys `L`, the table
built from `L` has `count() = N`; after erasing one key `x` of `L`, inserting a key `y` that is
not in `L` returns `true`, the count is `N` again, `search(y)` is `true`, `search(x)` is
`false`, and `search` of each other key of `L` is still `true`. -/
theorem C10_tombstone_reuse {K : Type} [DecidableEq K] (h : K → Nat) (N : Nat) (hN : 0 < N)
    (L : List K) (hnd : L.Nodup) (hlen : L.length = N) (x y : K) (hx : x ∈ L) (hy : y ∉ L) :
    (Hashtable_Probing.ofList h N L).count = N ∧
    (Hashtable_Probing.insert h N
      (Hashtable_Probing.erase h N (Hashtable_Probing.ofList h N L) x).2 y).1 = true ∧
    (Hashtable_Probing.insert h N
      (Hashtable_Probing.erase h N (Hashtable_Probing.ofList h N L) x).2 y).2.count = N ∧
    Hashtable_Probing.search h N (Hashtable_Probing.insert h N
      (Hashtable_Probing.erase h N (Hashtable_Probing.ofList h N L) x).2 y).2 y = true ∧
    Hashtable_Probing.search h N (Hashtable_Probing.insert h N
      (Hashtable_Probing.erase h N (Hashtable_Probing.ofList h N L) x).2 y).2 x = false ∧
    ∀ z, z ∈ L → z ≠ x →
      Hashtable_Probing.search h N (Hashtable_Probing.insert h N
        (Hashtable_Probing.erase h N (Hashtable_Probing.ofList h N L) x).2 y).2 z = true := by
  obtain ⟨hr, hcnt, hst⟩ := Hashtable_Probing.ofList_spec h N hN L
  rw [firstOccurrences_of_nodup L hnd] at hcnt hst
  rw [hlen, Nat.min_self] at hcnt
  rw [List.take_of_length_le (by omega)] at hst
  have hinv := Hashtable_Probing.Reachable_Inv h N hN _ hr
  obtain ⟨_, hcnt2, hst2⟩ :=
    Hashtable_Probing.erase_stored_effect h N hN _ hinv x ((hst x).2 hx)
  have hr2 := Hashtable_Probing.Reachable.erase _ x hr
  have hinv2 := Hashtable_Probing.Reachable_Inv h N hN _ hr2
  have hns : ¬ Hashtable_Probing.stored
      (Hashtable_Probing.erase h N (Hashtable_Probing.ofList h N L) x).2 y := by
    rw [hst2, hst]
    exact fun hc => hy hc.1
  obtain ⟨htrue, hcnt3, hst3⟩ :=
    Hashtable_Probing.insert_true_effect h N hN _ hinv2 y (by omega) hns
  have hinv3 := Hashtable_Probing.Reachable_Inv h N hN _
    (Hashtable_Probing.Reachable.insert _ y hr2)
  refine ⟨hcnt, htrue, ?_, ?_, ?_, ?_⟩
  · rw [Hashtable_Probing.count, hcnt3]
    omega
  · rw [Hashtable_Probing.search_iff_stored h N hN _ hinv3, hst3]
    exact Or.inr rfl
  · rw [Bool.eq_false_iff, Ne, Hashtable_Probing.search_iff_stored h N hN _ hinv3, hst3, hst2]
    rintro (hc | hc)
    · exact hc.2 rfl
    · exact hy (hc ▸ hx)
  · intro z hz hzx
    rw [Hashtable_Probing.search_iff_stored h N hN _ hinv3, hst3, hst2, hst]
    exact Or.inl ⟨hz, hzx⟩

/-- C10 at capacity 3 with the keys `0, 3, 6`, which all hash to index 0. -/
theorem C10_tombstone_reuse_witness :
    ([0, 3, 6] : List Nat).Nodup ∧ ([0, 3, 6] : List Nat).length = 3 ∧
      (Hashtable_Probing.insert natHash 3
        (Hashtable_Probing.erase natHash 3 (Hashtable_Probing.ofList natHash 3 [0, 3, 6]) 3).2
        9).1 = true ∧
      Hashtable_Probing.search natHash 3 (Hashtable_Probing.insert natHash 3
        (Hashtable_Probing.erase natHash 3 (Hashtable_Probing.ofList natHash 3 [0, 3, 6]) 3).2
        9).2 6 = true :=
  ⟨by decide, by decide,
    (C10_tombstone_reuse natHash 3 (by decide) [0, 3, 6] (by decide) (by decide) 3 9
      (by decide) (by decide)).2.1,
    (C10_tombstone_reuse natHash 3 (by decide) [0, 3, 6] (by decide) (by decide) 3 9
      (by decide) (by decide)).2.2.2.2.2 6 (by decide) (by decide)⟩

namespace Hashtable_Chaining

/-! ## The invariant of the chained table -/

theorem bucket_replicate_nil {K : Type} (N i c : Nat) :
    bucket (⟨List.replicate N [], c⟩ : Hashtable_Chaining K) i = [] := by
  unfold bucket
  simp only
  rw [List.getD_eq_getElem?_getD]
  by_cases hi : i < N
  · rw [List.getElem?_eq_getElem (by simpa using hi)]
    simp
  · rw [List.getElem?_eq_none (by simpa using hi)]
    rfl

theorem sum_length_replicate_nil {K : Type} (N : Nat) :
    ((List.replicate N ([] : List K)).map List.length).sum = 0 := by
  induction N with
  | zero => rfl
  | succ n ih => simp [List.replicate_succ, ih]

theorem chained_Inv_init {K : Type} (N : Nat) : Inv N (init K N) := by
  constructor
  · simp [init]
  · simp only [init]
    exact (sum_length_replicate_nil N).symm
  · intro i
    simp only [init, bucket_replicate_nil]
    exact List.nodup_nil

theorem chained_insert_Inv {K : Type} [DecidableEq K] (h : K → Nat) (N : Nat) (hN : 0 < N)
    (t : Hashtable_Chaining K) (hinv : Inv N t) (k : K) : Inv N (insert h N t k).2 := by
  by_cases hm : k ∈ t.bucket (Hash_Function h N k)
  · rw [insert_of_mem h N t k hm]
    exact hinv
  · have hl : Hash_Function h N k < t.arr.length := by
      rw [hinv.len]; exact bucket_index_lt h N hN k
    have hsum := sum_length_set t.arr (Hash_Function h N k)
      (t.bucket (Hash_Function h N k) ++ [k]) hl
    rw [insert_of_not_mem h N t k hm]
    constructor
    · simp [hinv.len]
    · simp only [bucket, List.length_append, List.length_singleton] at hsum ⊢
      have := hinv.cnt
      omega
    · intro i
      rw [bucket_set]
      split
      · exact List.Nodup.append (hinv.nodup _) (List.nodup_singleton k)
          (by simpa using hm)
      · exact hinv.nodup i

theorem chained_erase_Inv {K : Type} [DecidableEq K] (h : K → Nat) (N : Nat) (hN : 0 < N)
    (t : Hashtable_Chaining K) (hinv : Inv N t) (k : K) : Inv N (erase h N t k).2 := by
  have hl : Hash_Function h N k < t.arr.length := by
    rw [hinv.len]; exact bucket_index_lt h N hN k
  have hsum := sum_length_set t.arr (Hash_Function h N k)
    ((t.bucket (Hash_Function h N k)).filter (fun x => decide (x ≠ k))) hl
  have hsplit := DoublyLinkedList.length_filter_add_count (t.bucket (Hash_Function h N k)) k
  rw [table_erase_eq]
  constructor
  · simp [hinv.len]
  · simp only [bucket] at hsum hsplit ⊢
    have := hinv.cnt
    omega
  · intro i
    rw [bucket_set]
    split
    · exact (hinv.nodup _).filter _
    · exact hinv.nodup i

theorem all_nil_of_sum_zero {K : Type} (arr : List (List K))
    (hs : (arr.map List.length).sum = 0) : arr = List.replicate arr.length [] := by
  induction arr with
  | nil => rfl
  | cons a l ih =>
    simp only [List.map_cons, List.sum_cons] at hs
    have ha : a = [] := List.length_eq_zero.1 (by omega)
    rw [List.length_cons, List.replicate_succ, ha]
    congr 1
    exact ih (by omega)

/-- In a state satisfying the invariant, a `clear` that returns leaves the empty table. -/
theorem chained_clear_eq {K : Type} (N : Nat) (t t' : Hashtable_Chaining K) (hinv : Inv N t)
    (hcl : clear t = some t') : t' = init K N := by
  obtain ⟨hc0, heq⟩ := (chained_clear_some_iff t t').1 hcl
  have hsum : (t.arr.map List.length).sum = 0 := by rw [← hinv.cnt, hc0]
  have harr := all_nil_of_sum_zero t.arr hsum
  rw [hinv.len] at harr
  rw [heq]
  unfold init
  cases t with
  | mk arr counter =>
    simp only at harr hc0
    rw [harr, hc0]

theorem chained_Reachable_Inv {K : Type} [DecidableEq K] (h : K → Nat) (N : Nat) (hN : 0 < N)
    (t : Hashtable_Chaining K) (hr : Reachable h N t) : Inv N t := by
  induction hr with
  | init => exact chained_Inv_init N
  | insert t k _ ih => exact chained_insert_Inv h N hN t ih k
  | erase t k _ ih => exact chained_erase_Inv h N hN t ih k
  | clear t t' _ hcl ih =>
    rw [chained_clear_eq N t t' ih hcl]
    exact chained_Inv_init N

theorem search_init {K : Type} [DecidableEq K] (h : K → Nat) (N : Nat) (k : K) :
    search h N (init K N) k = false := by
  rw [Bool.eq_false_iff, Ne, search_iff_mem]
  simp only [init, bucket_replicate_nil]
  exact List.not_mem_nil k

theorem set_getD_self {K : Type} (arr : List (List K)) (i : Nat) :
    arr.set i (arr.getD i []) = arr := by
  induction arr generalizing i with
  | nil => rfl
  | cons a l ih =>
    cases i with
    | zero => rfl
    | succ n =>
      simp only [List.set_cons_succ, List.getD_cons_succ]
      rw [ih]

/-- `erase` of a key that is not in its bucket removes nothing and leaves the table as it is. -/
theorem erase_of_not_mem {K : Type} [DecidableEq K] (h : K → Nat) (N : Nat)
    (t : Hashtable_Chaining K) (k : K) (hm : k ∉ t.bucket (Hash_Function h N k)) :
    erase h N t k = (0, t) := by
  rw [table_erase_eq]
  have hc : (t.bucket (Hash_Function h N k)).count k = 0 := List.count_eq_zero_of_not_mem hm
  have hf : (t.bucket (Hash_Function h N k)).filter (fun x => decide (x ≠ k))
      = t.bucket (Hash_Function h N k) := by
    rw [List.filter_eq_self]
    intro x hx
    simp only [ne_eq, decide_eq_true_eq]
    rintro rfl
    exact hm hx
  rw [hc, hf]
  unfold bucket
  rw [set_getD_self]
  rfl

/-- The tally of a call sequence balances: occupancy plus removals equals successful inserts. -/
theorem chained_run_balance {K : Type} [DecidableEq K] (h : K → Nat) (N : Nat) (hN : 0 < N)
    (calls : List (Update K)) :
    ∀ s : Tally (Hashtable_Chaining K), Inv N s.table →
      s.table.counter + s.erased = s.inserted →
      Inv N (calls.foldl (step h N) s).table ∧
        (calls.foldl (step h N) s).table.counter + (calls.foldl (step h N) s).erased
          = (calls.foldl (step h N) s).inserted := by
  induction calls with
  | nil => intro s hinv hb; exact ⟨hinv, hb⟩
  | cons c rest ih =>
    intro s hinv hb
    rw [List.foldl_cons]
    apply ih
    · cases c with
      | insert k => exact chained_insert_Inv h N hN s.table hinv k
      | erase k => exact chained_erase_Inv h N hN s.table hinv k
    · cases c with
      | insert k =>
        simp only [step]
        by_cases hm : k ∈ s.table.bucket (Hash_Function h N k)
        · rw [insert_of_mem h N s.table k hm]
          simpa using hb
        · rw [insert_of_not_mem h N s.table k hm]
          simp only [if_true]
          omega
      | erase k =>
        simp only [step]
        have hl : Hash_Function h N k < s.table.arr.length := by
          rw [hinv.len]; exact bucket_index_lt h N hN k
        have hsum := sum_length_set s.table.arr (Hash_Function h N k)
          ((s.table.bucket (Hash_Function h N k)).filter (fun x => decide (x ≠ k))) hl
        have hsplit :=
          DoublyLinkedList.length_filter_add_count (s.table.bucket (Hash_Function h N k)) k
        rw [table_erase_eq]
        simp only [bucket] at hsum hsplit ⊢
        have := hinv.cnt
        omega

end Hashtable_Chaining

namespace Hashtable_Probing

/-! ## Call sequences on the probing table -/

/-- The tally of a call sequence balances: occupancy plus removals equals successful inserts. -/
theorem probing_run_balance {K : Type} [DecidableEq K] (h : K → Nat) (N : Nat) (hN : 0 < N)
    (calls : List (Update K)) :
    ∀ s : Tally (Hashtable_Probing K), Inv h N s.table →
      s.table.counter + s.erased = s.inserted →
      Inv h N (calls.foldl (step h N) s).table ∧
        (calls.foldl (step h N) s).table.counter + (calls.foldl (step h N) s).erased
          = (calls.foldl (step h N) s).inserted := by
  induction calls with
  | nil => intro s hinv hb; exact ⟨hinv, hb⟩
  | cons c rest ih =>
    intro s hinv hb
    rw [List.foldl_cons]
    apply ih
    · cases c with
      | insert k => exact insert_Inv h N hN s.table hinv k
      | erase k => exact erase_Inv h N hN s.table hinv k
    · cases c with
      | insert k =>
        simp only [step]
        by_cases hst : stored s.table k
        · rw [insert_stored h N hN s.table hinv k hst]
          simpa using hb
        · by_cases hfull : s.table.counter = N
          · rw [insert_full h N s.table k hfull]
            simpa using hb
          · have hle := counter_le h N s.table hinv
            obtain ⟨h1, h2, _⟩ :=
              insert_true_effect h N hN s.table hinv k (by omega) hst
            rw [h1, h2]
            simp only [if_true]
            omega
      | erase k =>
        simp only [step]
        by_cases hst : stored s.table k
        · obtain ⟨h1, h2, _⟩ := erase_stored_effect h N hN s.table hinv k hst
          rw [h1]
          omega
        · rw [erase_not_stored h N hN s.table k hst]
          simpa using hb

/-! ## Occupancy -/

theorem all_full_iff {K : Type} (arr : List (data_wrapper K)) :
    arr.countP (fun w => w.is_full) = arr.length ↔
      ∀ i, i < arr.length → (slot arr i).is_full = true := by
  rw [List.countP_eq_length]
  constructor
  · intro hall i hi
    exact hall _ (slot_mem arr i hi)
  · intro hall a ha
    obtain ⟨i, hi, rfl⟩ := List.getElem_of_mem ha
    have := hall i hi
    unfold slot at this
    rw [List.getD_eq_getElem?_getD, List.getElem?_eq_getElem hi] at this
    simpa using this

/-! ## The probe loops as written -/

theorem probeLoopFuel_eq {K : Type} [DecidableEq K] (N : Nat) (arr : List (data_wrapper K))
    (value : K) :
    ∀ (rem index sc : Nat), rem + sc = N →
      probeLoopFuel N arr value (rem + 1) index sc
        = some (probeLoop N arr value rem index sc) := by
  intro rem
  induction rem with
  | zero =>
    intro index sc hsc
    have : sc = N := by omega
    simp [probeLoopFuel, probeLoop, this]
  | succ rem ih =>
    intro index sc hsc
    have hne : sc ≠ N := by omega
    rw [probeLoopFuel, probeLoop]
    by_cases hb : (slot arr index).is_blank = true
    · simp [hb]
    · by_cases hh : (slot arr index).holds value = true
      · simp [hb, hh, hne]
      · simp only [hb, hh, hne, Bool.not_false, ne_eq, not_false_eq_true, decide_True,
          Bool.and_self, if_true, Bool.false_eq_true, if_false]
        exact ih _ _ (by omega)

theorem insertLoopFuel_eq {K : Type} [DecidableEq K] (N : Nat) (arr : List (data_wrapper K))
    (value : K) :
    ∀ (rem index sc : Nat) (tomb : Option Nat), rem + sc = N →
      insertLoopFuel N arr value (rem + 1) index sc tomb
        = some (insertLoop N arr value rem index sc tomb) := by
  intro rem
  induction rem with
  | zero =>
    intro index sc tomb hsc
    have : sc = N := by omega
    simp [insertLoopFuel, insertLoop, this]
  | succ rem ih =>
    intro index sc tomb hsc
    have hne : sc ≠ N := by omega
    rw [insertLoopFuel, insertLoop]
    by_cases hb : (slot arr index).is_blank = true
    · simp [hb]
    · by_cases hh : (slot arr index).holds value = true
      · simp [hb, hh, hne]
      · simp only [hb, hh, hne, Bool.not_false, ne_eq, not_false_eq_true, decide_True,
          Bool.and_self, if_true, Bool.false_eq_true, if_false]
        exact ih _ _ _ (by omega)

theorem slot_allTombstones {K : Type} (N i : Nat) (hi : i < N) :
    slot (allTombstones K N) i = ⟨none, true⟩ := by
  unfold slot allTombstones
  rw [List.getD_eq_getElem?_getD, List.getElem?_eq_getElem (by simpa using hi)]
  simp

/-- On the all-tombstone layout the probe loop passes over all `N` slots. -/
theorem probeLoop_allTombstones {K : Type} [DecidableEq K] (N : Nat) (hN : 0 < N) (value : K)
    (start : Nat) (hs : start < N) :
    (probeLoop N (allTombstones K N) value N start 0).2 = N := by
  obtain ⟨d, hd, heq, _, hstop⟩ := probeLoop_spec N (allTombstones K N) value N start 0 hs
  rw [heq]
  simp only [Nat.zero_add]
  by_contra hne
  have hlt : d < N := by omega
  have hslot := @slot_allTombstones K N ((start + d) % N) (Nat.mod_lt _ hN)
  rcases hstop hlt with hb | hh
  · rw [hslot] at hb
    exact Bool.noConfusion hb
  · rw [hslot] at hh
    exact Bool.noConfusion hh

end Hashtable_Probing

namespace Hashtable_Probing

/-! ## Where `insert` writes -/

/-- When the table is not full and a scan from `start` has passed over all `N` slots without
finding a blank one, one of the slots is a tombstone. -/
theorem exhausted_has_tombstone {K : Type} (N : Nat) (t : Hashtable_Probing K)
    (hlen : t.arr.length = N) (hcnt : t.counter = t.arr.countP (fun w => w.is_full))
    (hlt : t.counter < N) (start : Nat) (hs : start < N)
    (hpre : ∀ e, e < N → (slot t.arr ((start + e) % N)).is_blank = false) :
    ∃ e, e < N ∧ (slot t.arr ((start + e) % N)).is_tombstone = true := by
  have hc : t.arr.countP (fun w => w.is_full) < t.arr.length := by
    rw [← hcnt, hlen]; exact hlt
  obtain ⟨i, hi, hnf⟩ := exists_not_full t.arr hc
  rw [hlen] at hi
  have hdi := cyc_dist_lt N start i hs
  have hat := cyc_dist_spec N start i hs hi
  refine ⟨(i + N - start) % N, hdi, ?_⟩
  have h1 := hpre _ hdi
  rw [hat] at h1 ⊢
  unfold data_wrapper.is_blank at h1
  unfold data_wrapper.is_tombstone
  unfold data_wrapper.is_full at hnf
  cases hdat : (slot t.arr i).data <;> cases hfl : (slot t.arr i).flag <;>
    simp [hdat, hfl] at h1 hnf ⊢

/-- The scan of `insert` in a table that is not full: if it passes over all `N` slots it has
recorded a tombstone, and the recorded index is below `N`. -/
theorem insertLoop_recorded {K : Type} [DecidableEq K] (h : K → Nat) (N : Nat) (hN : 0 < N)
    (t : Hashtable_Probing K) (hlen : t.arr.length = N)
    (hcnt : t.counter = t.arr.countP (fun w => w.is_full)) (hlt : t.counter < N) (k : K)
    (hsc : (insertLoop N t.arr k N (Hash_Function h N k) 0 none).2.1 = N) :
    ∃ i, (insertLoop N t.arr k N (Hash_Function h N k) 0 none).2.2 = some i ∧ i < N ∧
      (slot t.arr i).is_tombstone = true := by
  obtain ⟨d, tomb', hd, heq, hpre, _, _, hnew⟩ :=
    insertLoop_spec N t.arr k N (Hash_Function h N k) 0 none (hash_lt h N hN k)
  rw [heq] at hsc ⊢
  simp only [Nat.zero_add] at hsc
  subst hsc
  rcases hnew rfl with ⟨_, hall⟩ | ⟨e, he, hsome, htomb, _⟩
  · obtain ⟨e, he, htomb⟩ := exhausted_has_tombstone d t hlen hcnt hlt _
      (hash_lt h d hN k) (fun e he => (hpre e he).1)
    rw [hall e he] at htomb
    exact Bool.noConfusion htomb
  · exact ⟨_, hsome, Nat.mod_lt _ hN, htomb⟩

/-- A successful insert in detail: with `d` the number of slots the scan passes over, the key
goes to the first tombstone among them, or to the blank slot that stopped the scan when there
is no tombstone among them. -/
theorem insert_new_target {K : Type} [DecidableEq K] (h : K → Nat) (N : Nat) (hN : 0 < N)
    (t : Hashtable_Probing K) (hinv : Inv h N t) (k : K) (hlt : t.counter < N)
    (hns : ¬ stored t k) :
    ∃ d, d ≤ N ∧
      (∀ e, e < d → (slot t.arr ((Hash_Function h N k + e) % N)).is_blank = false) ∧
      (d < N → (slot t.arr ((Hash_Function h N k + d) % N)).is_blank = true) ∧
      ((∃ e, e < d ∧ (slot t.arr ((Hash_Function h N k + e) % N)).is_tombstone = true ∧
          (∀ e', e' < e →
            (slot t.arr ((Hash_Function h N k + e') % N)).is_tombstone = false) ∧
          insert h N t k = (true,
            ⟨t.arr.set ((Hash_Function h N k + e) % N) ⟨some k, true⟩, t.counter + 1⟩)) ∨
        ((∀ e, e < d → (slot t.arr ((Hash_Function h N k + e) % N)).is_tombstone = false) ∧
          d < N ∧
          insert h N t k = (true,
            ⟨t.arr.set ((Hash_Function h N k + d) % N) ⟨some k, true⟩, t.counter + 1⟩))) := by
  have hfull : t.counter ≠ N := by omega
  obtain ⟨d, tomb', hd, heq, hpre, hstop, _, hnew⟩ :=
    insertLoop_spec N t.arr k N (Hash_Function h N k) 0 none (hash_lt h N hN k)
  have hnh : ∀ i, (slot t.arr i).holds k = true → False := fun i hh =>
    hns ((stored_iff t k).2 ⟨i, (holds_iff _ k).1 hh⟩)
  have hblank : d < N → (slot t.arr ((Hash_Function h N k + d) % N)).is_blank = true := by
    intro hdN
    rcases hstop hdN with hb | hh
    · exact hb
    · exact absurd hh (fun hh => hnh _ hh)
  refine ⟨d, hd, fun e he => (hpre e he).1, hblank, ?_⟩
  rcases hnew rfl with ⟨hnone, hall⟩ | ⟨e, he, hsome, htomb, hfirst⟩
  · right
    have hdN : d < N := by
      by_contra hge
      have hdeq : d = N := by omega
      subst hdeq
      obtain ⟨e, he, htomb⟩ := exhausted_has_tombstone d t hinv.len hinv.cnt hlt _
        (hash_lt h d hN k) (fun e he => (hpre e he).1)
      rw [hall e he] at htomb
      exact Bool.noConfusion htomb
    have hb := hblank hdN
    refine ⟨hall, hdN, ?_⟩
    have hne : d ≠ N := by omega
    unfold insert full writeAt
    simp only [heq, hnone, Nat.zero_add]
    simp [hfull, hne, hb, set_data_of_none _ k (blank_data _ hb)]
  · left
    refine ⟨e, he, htomb, hfirst, ?_⟩
    unfold insert full writeAt
    simp only [heq, hsome, Nat.zero_add]
    by_cases hdN : d = N
    · simp [hfull, hdN, set_data_of_none _ k (tombstone_data _ htomb)]
    · have hb := hblank (by omega)
      simp [hfull, hdN, hb, set_data_of_none _ k (tombstone_data _ htomb)]

theorem takeWhile_range {p : Nat → Bool} (N d : Nat) (hd : d ≤ N)
    (hpre : ∀ e, e < d → p e = true) (hstop : d < N → p d = false) :
    (List.range N).takeWhile p = List.range d := by
  obtain ⟨m, rfl⟩ : ∃ m, N = d + m := ⟨N - d, by omega⟩
  rw [List.range_add, List.takeWhile_append_of_pos (fun a ha => hpre a (List.mem_range.1 ha))]
  cases m with
  | zero => simp
  | succ m =>
    rw [List.range_succ_eq_map, List.map_cons, List.takeWhile_cons_of_neg]
    · simp
    · simp [hstop (by omega)]

theorem find_range_first {q : Nat → Bool} (d e : Nat) (he : e < d) (hq : q e = true)
    (hfirst : ∀ e', e' < e → q e' = false) : (List.range d).find? q = some e := by
  obtain ⟨m, rfl⟩ : ∃ m, d = e + (m + 1) := ⟨d - e - 1, by omega⟩
  rw [List.range_add, List.find?_append]
  have hnone : (List.range e).find? q = none := by
    rw [List.find?_eq_none]
    intro x hx
    simp [hfirst x (List.mem_range.1 hx)]
  rw [hnone, List.range_succ_eq_map, List.map_cons, List.find?_cons]
  simp [hq]

theorem find_range_none {q : Nat → Bool} (d : Nat) (hall : ∀ e, e < d → q e = false) :
    (List.range d).find? q = none := by
  rw [List.find?_eq_none]
  intro x hx
  simp [hall x (List.mem_range.1 hx)]

/-! ## Slots that are not blank stay so -/

end Hashtable_Probing

/-! ## Occupancy accounting, `clear`, and the chained `erase` in reachable states -/

/-- C11 (occupancy accounting): for every finite sequence of `insert` and `erase` calls applied
to the empty table, the final occupancy (`size()` of the chained table, `count()` of the
probing table) equals the number of `insert` calls that returned `true` minus the sum of the
values returned by the `erase` calls; the sum of the removals never exceeds the number of
successful inserts. -/
theorem C11_occupancy_accounting {K : Type} [DecidableEq K] (h : K → Nat) (Nc Np : Nat)
    (hNc : 0 < Nc) (hNp : 0 < Np) (calls : List (Update K)) :
    ((Hashtable_Chaining.run h Nc calls).table.size
        = (Hashtable_Chaining.run h Nc calls).inserted
          - (Hashtable_Chaining.run h Nc calls).erased ∧
      (Hashtable_Chaining.run h Nc calls).erased
        ≤ (Hashtable_Chaining.run h Nc calls).inserted) ∧
    ((Hashtable_Probing.run h Np calls).table.count
        = (Hashtable_Probing.run h Np calls).inserted
          - (Hashtable_Probing.run h Np calls).erased ∧
      (Hashtable_Probing.run h Np calls).erased
        ≤ (Hashtable_Probing.run h Np calls).inserted) := by
  have hc := (Hashtable_Chaining.chained_run_balance h Nc hNc calls
    ⟨Hashtable_Chaining.init K Nc, 0, 0⟩ (Hashtable_Chaining.chained_Inv_init Nc) rfl).2
  have hp := (Hashtable_Probing.probing_run_balance h Np hNp calls
    ⟨Hashtable_Probing.init K Np, 0, 0⟩ (Hashtable_Probing.Inv_init h Np) rfl).2
  unfold Hashtable_Chaining.run Hashtable_Chaining.size
  unfold Hashtable_Probing.run Hashtable_Probing.count
  omega

/-- C11 on a sequence with a repeated insert, an effective erase and a void erase. -/
theorem C11_occupancy_accounting_witness :
    (Hashtable_Chaining.run natHash 3
        [Update.insert 0, Update.insert 3, Update.insert 0, Update.erase 0,
          Update.erase 5]).table.size
      = (Hashtable_Chaining.run natHash 3
          [Update.insert 0, Update.insert 3, Update.insert 0, Update.erase 0,
            Update.erase 5]).inserted
        - (Hashtable_Chaining.run natHash 3
          [Update.insert 0, Update.insert 3, Update.insert 0, Update.erase 0,
            Update.erase 5]).erased ∧
    (Hashtable_Probing.run natHash 3
        [Update.insert 0, Update.insert 3, Update.insert 0, Update.erase 0,
          Update.erase 5]).inserted = 2 :=
  ⟨(C11_occupancy_accounting natHash 3 3 (by decide) (by decide)
      [Update.insert 0, Update.insert 3, Update.insert 0, Update.erase 0,
        Update.erase 5]).1.1,
    by decide⟩

/-- C12 (probing occupancy): in every state reachable from the empty table, `count()` is the
number of occupied slots, the array has `N` slots, `count() ≤ N`, and `full()` is `true`
exactly when all `N` slots are occupied. -/
theorem C12_probing_count_occupied {K : Type} [DecidableEq K] (h : K → Nat) (N : Nat)
    (hN : 0 < N) (t : Hashtable_Probing K) (hr : Hashtable_Probing.Reachable h N t) :
    t.count = t.arr.countP (fun w => w.is_full) ∧ t.arr.length = N ∧ t.count ≤ N ∧
      (t.full N = true ↔ ∀ i, i < N → (Hashtable_Probing.slot t.arr i).is_full = true) := by
  have hinv := Hashtable_Probing.Reachable_Inv h N hN t hr
  refine ⟨hinv.cnt, hinv.len, Hashtable_Probing.counter_le h N t hinv, ?_⟩
  have hall := Hashtable_Probing.all_full_iff t.arr
  rw [← hinv.cnt, hinv.len] at hall
  rw [← hall]
  unfold Hashtable_Probing.full
  split <;> simp_all

/-- C12 at the table `collidedErased`: one occupied slot, one tombstone, one blank slot. -/
theorem C12_probing_count_occupied_witness :
    collidedErased.count = collidedErased.arr.countP (fun w => w.is_full) ∧
      collidedErased.count ≤ 3 :=
  ⟨(C12_probing_count_occupied natHash 3 (by decide) collidedErased
      collidedErased_reachable).1,
    (C12_probing_count_occupied natHash 3 (by decide) collidedErased
      collidedErased_reachable).2.2.1⟩

/-- A call of the chained `clear` that returns leaves the empty table: `empty()` is `true`,
`size()` is 0, every bucket is empty and `search(k)` is `false` for every key.  It returns
only when the table is already empty. -/
theorem chained_clear_resets_when_defined {K : Type} [DecidableEq K] (h : K → Nat) (Nc : Nat)
    (hNc : 0 < Nc) (tc tc' : Hashtable_Chaining K) (hc : Hashtable_Chaining.Reachable h Nc tc)
    (hcl : Hashtable_Chaining.clear tc = some tc') :
    tc.counter = 0 ∧ tc'.empty = true ∧ tc'.size = 0 ∧ tc'.arr.length = Nc ∧
      (∀ i, tc'.bucket i = []) ∧ ∀ k, Hashtable_Chaining.search h Nc tc' k = false := by
  have hci := Hashtable_Chaining.chained_Reachable_Inv h Nc hNc tc hc
  have h0 := ((Hashtable_Chaining.chained_clear_some_iff tc tc').1 hcl).1
  rw [Hashtable_Chaining.chained_clear_eq Nc tc tc' hci hcl]
  refine ⟨h0, rfl, rfl, by simp [Hashtable_Chaining.init], ?_, ?_⟩
  · intro i
    exact Hashtable_Chaining.bucket_replicate_nil Nc i 0
  · intro k
    exact Hashtable_Chaining.search_init h Nc k

/-- The probing `clear` resets fully: in every state reachable from the empty table, after
`clear()` the table reports `empty() = true` and `count() = 0`, every slot is blank (no
tombstone is left), and `search(k)` is `false` for every key. -/
theorem probing_clear_resets {K : Type} [DecidableEq K] (h : K → Nat) (Np : Nat)
    (hNp : 0 < Np) (tp : Hashtable_Probing K) (hp : Hashtable_Probing.Reachable h Np tp) :
    (Hashtable_Probing.clear Np tp).empty = true ∧
      (Hashtable_Probing.clear Np tp).count = 0 ∧
      (Hashtable_Probing.clear Np tp).arr.length = Np ∧
      (∀ i, (Hashtable_Probing.slot (Hashtable_Probing.clear Np tp).arr i).is_blank = true) ∧
      (∀ i, (Hashtable_Probing.slot (Hashtable_Probing.clear Np tp).arr i).is_tombstone
        = false) ∧
      ∀ k, Hashtable_Probing.search h Np (Hashtable_Probing.clear Np tp) k = false := by
  have hpi := Hashtable_Probing.Reachable_Inv h Np hNp tp hp
  rw [Hashtable_Probing.clear_eq Np tp hpi.len]
  refine ⟨rfl, rfl, by simp [Hashtable_Probing.init], ?_, ?_, ?_⟩
  · intro i
    simp only [Hashtable_Probing.init, Hashtable_Probing.slot_replicate_blank]
    rfl
  · intro i
    simp only [Hashtable_Probing.init, Hashtable_Probing.slot_replicate_blank]
    rfl
  · intro k
    rw [Bool.eq_false_iff, Ne,
      Hashtable_Probing.search_iff_stored h Np hNp _ (Hashtable_Probing.Inv_init h Np)]
    exact Hashtable_Probing.not_stored_init Np k

/-- C13 (clear resets fully), evaluated on the code.  The chained table of capacity 3 holding
the keys 0 and 3 is reachable and has `size() = 2`, and `clear()` on it has no result: the
call runs `delete arr` on storage allocated with `new[]`.  The same holds on every chained
table whose `counter` is not zero.  The probing `clear()` on the table `collidedErased`, which
contains a tombstone, does reset it: `count()` is 0 and every slot is blank. -/
theorem C13_chained_clear_undefined :
    Hashtable_Chaining.Reachable natHash 3 (Hashtable_Chaining.ofList natHash 3 [0, 3]) ∧
      (Hashtable_Chaining.ofList natHash 3 [0, 3]).size = 2 ∧
      Hashtable_Chaining.search natHash 3 (Hashtable_Chaining.ofList natHash 3 [0, 3]) 3
        = true ∧
      Hashtable_Chaining.clear (Hashtable_Chaining.ofList natHash 3 [0, 3]) = none ∧
      (∀ t : Hashtable_Chaining Nat, Hashtable_Chaining.clear t = none ↔ t.counter ≠ 0) ∧
      (Hashtable_Probing.clear 3 collidedErased).count = 0 ∧
      ∀ i, (Hashtable_Probing.slot (Hashtable_Probing.clear 3 collidedErased).arr i).is_blank
        = true :=
  ⟨Hashtable_Chaining.Reachable.insert _ 3
      (Hashtable_Chaining.Reachable.insert _ 0 Hashtable_Chaining.Reachable.init),
    by decide, by decide, by decide,
    fun t => Hashtable_Chaining.chained_clear_none_iff t,
    (probing_clear_resets natHash 3 (by decide) collidedErased collidedErased_reachable).2.1,
    (probing_clear_resets natHash 3 (by decide) collidedErased
      collidedErased_reachable).2.2.2.1⟩

/-- C14 (chained `erase` in reachable states): in every state reachable from the empty table
no bucket holds two equal keys; `erase(k)` returns 1 when `search(k)` was `true` and 0 when
it was `false`, so never more than 1; and when it returns 0 the table (all buckets and the
count) is unchanged. -/
theorem C14_chained_erase_at_most_one {K : Type} [DecidableEq K] (h : K → Nat) (N : Nat)
    (hN : 0 < N) (t : Hashtable_Chaining K) (hr : Hashtable_Chaining.Reachable h N t)
    (k : K) :
    (∀ i, (t.bucket i).Nodup) ∧
      (Hashtable_Chaining.search h N t k = true → (Hashtable_Chaining.erase h N t k).1 = 1) ∧
      (Hashtable_Chaining.search h N t k = false →
        (Hashtable_Chaining.erase h N t k).1 = 0) ∧
      (Hashtable_Chaining.erase h N t k).1 ≤ 1 ∧
      ((Hashtable_Chaining.erase h N t k).1 = 0 → (Hashtable_Chaining.erase h N t k).2 = t) := by
  have hinv := Hashtable_Chaining.chained_Reachable_Inv h N hN t hr
  have hone : k ∈ t.bucket (Hash_Function h N k) → (Hashtable_Chaining.erase h N t k).1 = 1 := by
    intro hm
    rw [Hashtable_Chaining.table_erase_eq]
    exact List.count_eq_one_of_mem (hinv.nodup _) hm
  have hzero : k ∉ t.bucket (Hash_Function h N k) →
      Hashtable_Chaining.erase h N t k = (0, t) :=
    Hashtable_Chaining.erase_of_not_mem h N t k
  refine ⟨hinv.nodup, ?_, ?_, ?_, ?_⟩
  · intro hs
    exact hone ((Hashtable_Chaining.search_iff_mem h N t k).1 hs)
  · intro hs
    rw [hzero (fun hm => by
      rw [(Hashtable_Chaining.search_iff_mem h N t k).2 hm] at hs
      exact Bool.noConfusion hs)]
  · by_cases hm : k ∈ t.bucket (Hash_Function h N k)
    · rw [hone hm]
    · rw [hzero hm]
      exact Nat.zero_le 1
  · intro h0
    by_cases hm : k ∈ t.bucket (Hash_Function h N k)
    · rw [hone hm] at h0
      exact absurd h0 (by decide)
    · rw [hzero hm]

/-- C14 at a chained table holding `0` and `3` in one bucket. -/
theorem C14_chained_erase_at_most_one_witness :
    (Hashtable_Chaining.erase natHash 3 (Hashtable_Chaining.ofList natHash 3 [0, 3]) 3).1 ≤ 1 ∧
      ∀ i, ((Hashtable_Chaining.ofList natHash 3 [0, 3]).bucket i).Nodup :=
  ⟨(C14_chained_erase_at_most_one natHash 3 (by decide)
      (Hashtable_Chaining.ofList natHash 3 [0, 3])
      (Hashtable_Chaining.Reachable.insert _ 3
        (Hashtable_Chaining.Reachable.insert _ 0 Hashtable_Chaining.Reachable.init)) 3).2.2.2.1,
    (C14_chained_erase_at_most_one natHash 3 (by decide)
      (Hashtable_Chaining.ofList natHash 3 [0, 3])
      (Hashtable_Chaining.Reachable.insert _ 3
        (Hashtable_Chaining.Reachable.insert _ 0 Hashtable_Chaining.Reachable.init)) 3).1⟩

/-! ## The hash overloads -/

namespace Hashing

theorem toUInt32_lt (value : Int) : toUInt32 value < 2 ^ 32 := by
  unfold toUInt32
  have h1 : (0 : Int) ≤ value % 2 ^ 32 := Int.emod_nonneg _ (by norm_num)
  have h2 : value % 2 ^ 32 < 2 ^ 32 := Int.emod_lt_of_pos _ (by norm_num)
  omega

theorem toUInt64_lt (value : Int) : toUInt64 value < 2 ^ 64 := by
  unfold toUInt64
  have h1 : (0 : Int) ≤ value % 2 ^ 64 := Int.emod_nonneg _ (by norm_num)
  have h2 : value % 2 ^ 64 < 2 ^ 64 := Int.emod_lt_of_pos _ (by norm_num)
  omega

theorem charValue_lt (value : Int) : charValue value < 2 ^ 32 := by
  unfold charValue
  simp only
  split
  · exact Nat.xor_lt_two_pow (Nat.mod_lt _ (by norm_num)) (Nat.mod_lt _ (by norm_num))
  · omega

theorem stringStep_lt (hash : Nat) (it : Int) : stringStep hash it < 2 ^ 64 := by
  unfold stringStep
  exact Nat.mod_lt _ (by norm_num)

theorem stringValue_lt (value : List Int) : stringValue value < 2 ^ 64 := by
  unfold stringValue
  induction value using List.reverseRecOn with
  | nil => simp
  | append_singleton l it _ =>
    rw [List.foldl_append]
    exact stringStep_lt _ it

end Hashing

/-- C15 (hash index range): for every capacity `N > 0` and every key, each of the three
recipes (integral value cast to `size_type` then `% N`; character bit-mixing in 32-bit
unsigned arithmetic; text accumulation) returns an index below `N`; the index is the number
computed from the key alone, reduced `% N`, and that number fits its machine type. -/
theorem C15_hash_index_in_range (N : Nat) (hN : 0 < N) (value c : Int) (s : List Int) :
    (Hash_Function Hashing.genericValue N value < N ∧
      Hash_Function Hashing.charValue N c < N ∧
      Hash_Function Hashing.stringValue N s < N) ∧
    (Hash_Function Hashing.genericValue N value = Hashing.genericValue value % N ∧
      Hash_Function Hashing.charValue N c = Hashing.charValue c % N ∧
      Hash_Function Hashing.stringValue N s = Hashing.stringValue s % N) ∧
    (Hashing.genericValue value < 2 ^ 64 ∧ Hashing.charValue c < 2 ^ 32 ∧
      Hashing.stringValue s < 2 ^ 64) :=
  ⟨⟨Nat.mod_lt _ hN, Nat.mod_lt _ hN, Nat.mod_lt _ hN⟩, ⟨rfl, rfl, rfl⟩,
    ⟨Hashing.toUInt64_lt value, Hashing.charValue_lt c, Hashing.stringValue_lt s⟩⟩

/-- C15 at `N = 100` with the integer `-1`, the character `'A'` and the text `"Hello"`. -/
theorem C15_hash_index_in_range_witness :
    Hash_Function Hashing.genericValue 100 (-1) < 100 ∧
      Hash_Function Hashing.charValue 100 65 < 100 ∧
      Hash_Function Hashing.stringValue 100 [72, 101, 108, 108, 111] < 100 :=
  (C15_hash_index_in_range 100 (by decide) (-1) 65 [72, 101, 108, 108, 111]).1

/-! ## The probing table: capacity, placement, index safety, slot lifecycle, bounded scan -/

/-- C16 (probing `size`): `size()` returns the capacity `N` in every state, also after
`insert`, `erase` and `clear`; it is not the occupancy (the table `collided` of capacity 3 has
`count() = 2`). -/
theorem C16_probing_size_is_capacity {K : Type} [DecidableEq K] (h : K → Nat) (N : Nat)
    (t : Hashtable_Probing K) (k : K) :
    t.size N = N ∧ (Hashtable_Probing.insert h N t k).2.size N = N ∧
      (Hashtable_Probing.erase h N t k).2.size N = N ∧
      (Hashtable_Probing.clear N t).size N = N ∧
      (collided.size 3 = 3 ∧ collided.count = 2) :=
  ⟨rfl, rfl, rfl, rfl, rfl, by decide⟩

/-- C17 (probing insert placement): in every reachable state that is not full and for every
key `k` that is not stored, `insert(k)` returns `true` and writes `k` into the slot
`insertTarget` (the first tombstone of the probe sequence cut at the first blank slot or after
`N` slots, otherwise the blank slot that ended it), adds one to the counter and changes no
other slot.  The cut sequence consists of the offsets below its length, none of its slots is
blank, and when it is shorter than `N` the next slot is blank. -/
theorem C17_probing_insert_placement {K : Type} [DecidableEq K] (h : K → Nat) (N : Nat)
    (hN : 0 < N) (t : Hashtable_Probing K) (hr : Hashtable_Probing.Reachable h N t) (k : K)
    (hnf : t.full N = false) (hns : ¬ Hashtable_Probing.stored t k) :
    Hashtable_Probing.insert h N t k = (true,
        ⟨t.arr.set (Hashtable_Probing.insertTarget N t.arr (Hash_Function h N k))
          ⟨some k, true⟩, t.counter + 1⟩) ∧
      Hashtable_Probing.insertTarget N t.arr (Hash_Function h N k) < N ∧
      (∀ i, i ≠ Hashtable_Probing.insertTarget N t.arr (Hash_Function h N k) →
        Hashtable_Probing.slot (Hashtable_Probing.insert h N t k).2.arr i
          = Hashtable_Probing.slot t.arr i) ∧
      (Hashtable_Probing.probeCut N t.arr (Hash_Function h N k)
          = List.range (Hashtable_Probing.probeCut N t.arr (Hash_Function h N k)).length ∧
        (Hashtable_Probing.probeCut N t.arr (Hash_Function h N k)).length ≤ N ∧
        (∀ e, e < (Hashtable_Probing.probeCut N t.arr (Hash_Function h N k)).length →
          (Hashtable_Probing.slot t.arr ((Hash_Function h N k + e) % N)).is_blank = false) ∧
        ((Hashtable_Probing.probeCut N t.arr (Hash_Function h N k)).length < N →
          (Hashtable_Probing.slot t.arr ((Hash_Function h N k
            + (Hashtable_Probing.probeCut N t.arr (Hash_Function h N k)).length) % N)).is_blank
            = true)) := by
  have hinv := Hashtable_Probing.Reachable_Inv h N hN t hr
  have hle := Hashtable_Probing.counter_le h N t hinv
  have hlt : t.counter < N := by
    unfold Hashtable_Probing.full at hnf
    by_cases hc : t.counter = N
    · rw [if_pos hc] at hnf
      exact Bool.noConfusion hnf
    · omega
  obtain ⟨d, hd, hpre, hstop, hcase⟩ :=
    Hashtable_Probing.insert_new_target h N hN t hinv k hlt hns
  have hcut : Hashtable_Probing.probeCut N t.arr (Hash_Function h N k) = List.range d := by
    unfold Hashtable_Probing.probeCut
    apply Hashtable_Probing.takeWhile_range N d hd
    · intro e he
      simp [hpre e he]
    · intro hdN
      simp [hstop hdN]
  have hlen : (Hashtable_Probing.probeCut N t.arr (Hash_Function h N k)).length = d := by
    rw [hcut, List.length_range]
  have htarget : ∀ x, Hashtable_Probing.insert h N t k = (true,
        ⟨t.arr.set x ⟨some k, true⟩, t.counter + 1⟩) →
      Hashtable_Probing.insertTarget N t.arr (Hash_Function h N k) = x →
      x < N →
      Hashtable_Probing.insert h N t k = (true,
        ⟨t.arr.set (Hashtable_Probing.insertTarget N t.arr (Hash_Function h N k))
          ⟨some k, true⟩, t.counter + 1⟩) ∧
      Hashtable_Probing.insertTarget N t.arr (Hash_Function h N k) < N ∧
      (∀ i, i ≠ Hashtable_Probing.insertTarget N t.arr (Hash_Function h N k) →
        Hashtable_Probing.slot (Hashtable_Probing.insert h N t k).2.arr i
          = Hashtable_Probing.slot t.arr i) := by
    intro x hins htx hx
    rw [htx]
    refine ⟨hins, hx, ?_⟩
    intro i hi
    rw [hins, Hashtable_Probing.slot_set, if_neg (fun hc => hi hc.1.symm)]
  have hmain : Hashtable_Probing.insert h N t k = (true,
        ⟨t.arr.set (Hashtable_Probing.insertTarget N t.arr (Hash_Function h N k))
          ⟨some k, true⟩, t.counter + 1⟩) ∧
      Hashtable_Probing.insertTarget N t.arr (Hash_Function h N k) < N ∧
      (∀ i, i ≠ Hashtable_Probing.insertTarget N t.arr (Hash_Function h N k) →
        Hashtable_Probing.slot (Hashtable_Probing.insert h N t k).2.arr i
          = Hashtable_Probing.slot t.arr i) := by
    rcases hcase with ⟨e, he, htomb, hfirst, hins⟩ | ⟨hall, hdN, hins⟩
    · apply htarget _ hins _ (Nat.mod_lt _ hN)
      unfold Hashtable_Probing.insertTarget
      rw [hcut, Hashtable_Probing.find_range_first d e he htomb hfirst]
    · apply htarget _ hins _ (Nat.mod_lt _ hN)
      unfold Hashtable_Probing.insertTarget
      rw [hcut, Hashtable_Probing.find_range_none d hall, List.length_range]
  refine ⟨hmain.1, hmain.2.1, hmain.2.2, ?_, ?_, ?_, ?_⟩
  · rw [hlen, hcut]
  · rw [hlen]; exact hd
  · rw [hlen]; exact hpre
  · rw [hlen]; exact hstop

/-- C17 at the table `collidedErased` and the new key `6`: the key goes to the tombstone in
slot 0, not to the blank slot 2. -/
theorem C17_probing_insert_placement_witness :
    collidedErased.full 3 = false ∧
      Hashtable_Probing.insertTarget 3 collidedErased.arr (Hash_Function natHash 3 6) = 0 ∧
      Hashtable_Probing.insert natHash 3 collidedErased 6 = (true,
        ⟨collidedErased.arr.set
          (Hashtable_Probing.insertTarget 3 collidedErased.arr (Hash_Function natHash 3 6))
          ⟨some 6, true⟩, collidedErased.counter + 1⟩) :=
  ⟨by decide, by decide,
    (C17_probing_insert_placement natHash 3 (by decide) collidedErased
      collidedErased_reachable 6 (by decide)
      (fun hc => by
        obtain ⟨i, hi, _, hd⟩ := hc
        have h3 : i < 3 := hi
        interval_cases i <;> exact absurd hd (by decide))).1⟩

/-- C18 (probing insert index safety): in every state reachable from the empty table, a full
table makes `insert` return before it scans; otherwise, whenever the scan passes over all `N`
slots without meeting a blank slot or an equal key, `tomb_note` holds the index of a tombstone
(it is not `npos`) and that index is below `N`; and every successful `insert` writes the key
into a slot whose index is below `N`. -/
theorem C18_probing_insert_index_safe {K : Type} [DecidableEq K] (h : K → Nat) (N : Nat)
    (hN : 0 < N) (t : Hashtable_Probing K) (hr : Hashtable_Probing.Reachable h N t) (k : K) :
    (t.full N = true → Hashtable_Probing.insert h N t k = (false, t)) ∧
    (t.full N = false →
      (Hashtable_Probing.insertLoop N t.arr k N (Hash_Function h N k) 0 none).2.1 = N →
      ∃ i, (Hashtable_Probing.insertLoop N t.arr k N (Hash_Function h N k) 0 none).2.2
          = some i ∧ i < N ∧ (Hashtable_Probing.slot t.arr i).is_tombstone = true) ∧
    ((Hashtable_Probing.insert h N t k).1 = true →
      ∃ i, i < N ∧ (Hashtable_Probing.insert h N t k).2.arr = t.arr.set i ⟨some k, true⟩) := by
  have hinv := Hashtable_Probing.Reachable_Inv h N hN t hr
  have hle := Hashtable_Probing.counter_le h N t hinv
  refine ⟨?_, ?_, ?_⟩
  · intro hfull
    apply Hashtable_Probing.insert_full
    unfold Hashtable_Probing.full at hfull
    by_contra hne
    rw [if_neg hne] at hfull
    exact Bool.noConfusion hfull
  · intro hnf hsc
    have hlt : t.counter < N := by
      unfold Hashtable_Probing.full at hnf
      by_cases hc : t.counter = N
      · rw [if_pos hc] at hnf
        exact Bool.noConfusion hnf
      · omega
    exact Hashtable_Probing.insertLoop_recorded h N hN t hinv.len hinv.cnt hlt k hsc
  · intro htrue
    obtain ⟨hlt, hns⟩ := (Hashtable_Probing.insert_true_iff h N hN t hinv k).1 htrue
    obtain ⟨e, _, _, _, heq⟩ := Hashtable_Probing.insert_new h N hN t hinv k hlt hns
    exact ⟨_, Nat.mod_lt _ hN, by rw [heq]⟩

/-- A probing table of three slots holding `0` and `3` behind a tombstone, with no blank slot:
`insert(0)`, `insert(3)`, `insert(6)`, then `erase(0)`. -/
theorem noBlank_reachable :
    Hashtable_Probing.Reachable natHash 3
      (Hashtable_Probing.erase natHash 3
        (Hashtable_Probing.insert natHash 3 collided 6).2 0).2 :=
  Hashtable_Probing.Reachable.erase _ 0 (Hashtable_Probing.Reachable.insert _ 6 collided_reachable)

/-- C18 at a table of three slots without a blank slot (a tombstone and the keys `3`, `6`) and
the new key `9`: the scan passes over all three slots and has recorded the tombstone. -/
theorem C18_probing_insert_index_safe_witness :
    (Hashtable_Probing.erase natHash 3
        (Hashtable_Probing.insert natHash 3 collided 6).2 0).2.full 3 = false ∧
      (Hashtable_Probing.insertLoop 3
        (Hashtable_Probing.erase natHash 3
          (Hashtable_Probing.insert natHash 3 collided 6).2 0).2.arr 9 3
        (Hash_Function natHash 3 9) 0 none).2.1 = 3 ∧
      ∃ i, (Hashtable_Probing.insertLoop 3
          (Hashtable_Probing.erase natHash 3
            (Hashtable_Probing.insert natHash 3 collided 6).2 0).2.arr 9 3
          (Hash_Function natHash 3 9) 0 none).2.2 = some i ∧ i < 3 ∧
        (Hashtable_Probing.slot (Hashtable_Probing.erase natHash 3
          (Hashtable_Probing.insert natHash 3 collided 6).2 0).2.arr i).is_tombstone = true :=
  ⟨by decide, by decide,
    (C18_probing_insert_index_safe natHash 3 (by decide) _ noBlank_reachable 9).2.1
      (by decide) (by decide)⟩

/-- C20 (probing bounded scan): on every slot array and for every key with `N > 0`, the probe
loop of `search` and `erase` and the probe loop of `insert`, run as they are written, end
within `N + 1` evaluations of the loop test, having passed over at most `N` slots; their
results are the ones `search`, `erase` and `insert` use.  On the layout in which all `N` slots
are tombstones the loop passes over exactly `N` slots, `search(k)` returns `false` and
`erase(k)` returns `0` and leaves the table as it is. -/
theorem C20_probing_bounded_scan {K : Type} [DecidableEq K] (h : K → Nat) (N : Nat)
    (hN : 0 < N) (arr : List (data_wrapper K)) (k : K) (c : Nat) :
    (Hashtable_Probing.probeLoopFuel N arr k (N + 1) (Hash_Function h N k) 0
        = some (Hashtable_Probing.probeLoop N arr k N (Hash_Function h N k) 0) ∧
      (Hashtable_Probing.probeLoop N arr k N (Hash_Function h N k) 0).2 ≤ N) ∧
    (Hashtable_Probing.insertLoopFuel N arr k (N + 1) (Hash_Function h N k) 0 none
        = some (Hashtable_Probing.insertLoop N arr k N (Hash_Function h N k) 0 none) ∧
      (Hashtable_Probing.insertLoop N arr k N (Hash_Function h N k) 0 none).2.1 ≤ N) ∧
    ((Hashtable_Probing.probeLoop N (Hashtable_Probing.allTombstones K N) k N
        (Hash_Function h N k) 0).2 = N ∧
      Hashtable_Probing.search h N ⟨Hashtable_Probing.allTombstones K N, c⟩ k = false ∧
      Hashtable_Probing.erase h N ⟨Hashtable_Probing.allTombstones K N, c⟩ k
        = (0, ⟨Hashtable_Probing.allTombstones K N, c⟩)) := by
  have hs := Hashtable_Probing.hash_lt h N hN k
  obtain ⟨d, hd, heq, _, _⟩ :=
    Hashtable_Probing.probeLoop_spec N arr k N (Hash_Function h N k) 0 hs
  obtain ⟨d', tomb', hd', heq', _, _, _, _⟩ :=
    Hashtable_Probing.insertLoop_spec N arr k N (Hash_Function h N k) 0 none hs
  have hall := Hashtable_Probing.probeLoop_allTombstones N hN k (Hash_Function h N k) hs
  refine ⟨⟨Hashtable_Probing.probeLoopFuel_eq N arr k N _ 0 rfl, ?_⟩,
    ⟨Hashtable_Probing.insertLoopFuel_eq N arr k N _ 0 none rfl, ?_⟩, hall, ?_, ?_⟩
  · rw [heq]
    simp only [Nat.zero_add]
    exact hd
  · rw [heq']
    simp only [Nat.zero_add]
    exact hd'
  · unfold Hashtable_Probing.search
    simp only [hall, if_true]
  · unfold Hashtable_Probing.erase
    simp only [hall, if_true]

/-- C20 at three slots: the scan for `7` over the all-tombstone layout passes over all three
slots, and the scan for `6` in `collidedErased` stops after two. -/
theorem C20_probing_bounded_scan_witness :
    (Hashtable_Probing.probeLoop 3 (Hashtable_Probing.allTombstones Nat 3) 7 3
        (Hash_Function natHash 3 7) 0).2 = 3 ∧
      Hashtable_Probing.probeLoopFuel 3 collidedErased.arr 6 (3 + 1)
        (Hash_Function natHash 3 6) 0 = some (2, 2) ∧
      (Hashtable_Probing.probeLoop 3 collidedErased.arr 6 3
        (Hash_Function natHash 3 6) 0).2 ≤ 3 :=
  ⟨(C20_probing_bounded_scan natHash 3 (by decide) collidedErased.arr 7 0).2.2.1,
    by decide,
    (C20_probing_bounded_scan natHash 3 (by decide) collidedErased.arr 6 0).1.2⟩

/-! ## The structural invariant of the probing table, copies, and the two strategies -/

theorem structural_of_Inv {K : Type} (h : K → Nat) (N : Nat) (u : Hashtable_Probing K)
    (hinv : Hashtable_Probing.Inv h N u) :
    Hashtable_Probing.noDuplicateKeys u ∧ Hashtable_Probing.probePathsUnbroken h N u := by
  constructor
  · rintro i j k ⟨_, _, hi⟩ ⟨_, _, hj⟩
    exact hinv.uniq i j k hi hj
  · rintro j k ⟨_, _, hj⟩
    exact hinv.chain j k hj

/-- C22 (probing structural invariant): in every state reachable from the empty table, (a) no
two occupied slots hold equal keys and (b) for every occupied slot `j` holding a key `k` none
of the slots on the cyclic path from `hash(k)` to `j` is blank (the path ends at `j`: `hash(k)`
plus the cyclic distance is `j` modulo `N`); and (a) and (b) hold again after `insert`, after
`erase` and after `clear`. -/
theorem C22_probing_structural_invariant {K : Type} [DecidableEq K] (h : K → Nat) (N : Nat)
    (hN : 0 < N) (t : Hashtable_Probing K) (hr : Hashtable_Probing.Reachable h N t)
    (k1 k2 : K) :
    (Hashtable_Probing.noDuplicateKeys t ∧ Hashtable_Probing.probePathsUnbroken h N t) ∧
    (Hashtable_Probing.noDuplicateKeys (Hashtable_Probing.insert h N t k1).2 ∧
      Hashtable_Probing.probePathsUnbroken h N (Hashtable_Probing.insert h N t k1).2) ∧
    (Hashtable_Probing.noDuplicateKeys (Hashtable_Probing.erase h N t k2).2 ∧
      Hashtable_Probing.probePathsUnbroken h N (Hashtable_Probing.erase h N t k2).2) ∧
    (Hashtable_Probing.noDuplicateKeys (Hashtable_Probing.clear N t) ∧
      Hashtable_Probing.probePathsUnbroken h N (Hashtable_Probing.clear N t)) ∧
    (∀ j k, Hashtable_Probing.occupiedWith t j k →
      (Hash_Function h N k + (j + N - Hash_Function h N k) % N) % N = j) := by
  have hinv := Hashtable_Probing.Reachable_Inv h N hN t hr
  refine ⟨structural_of_Inv h N t hinv,
    structural_of_Inv h N _ (Hashtable_Probing.insert_Inv h N hN t hinv k1),
    structural_of_Inv h N _ (Hashtable_Probing.erase_Inv h N hN t hinv k2),
    structural_of_Inv h N _ (Hashtable_Probing.Reachable_Inv h N hN _
      (Hashtable_Probing.Reachable.clear _ hr)), ?_⟩
  rintro j k ⟨hjl, _, _⟩
  rw [hinv.len] at hjl
  exact Hashtable_Probing.cyc_dist_spec N _ j (Hashtable_Probing.hash_lt h N hN k) hjl

/-- C22 at the table `collidedErased`: the key `3` in slot 1 lies behind the tombstone of
slot 0, which is not blank; the invariant holds again after `insert(6)`. -/
theorem C22_probing_structural_invariant_witness :
    Hashtable_Probing.occupiedWith collidedErased 1 3 ∧
      (Hashtable_Probing.slot collidedErased.arr ((Hash_Function natHash 3 3 + 0) % 3)).is_blank
        = false ∧
      Hashtable_Probing.noDuplicateKeys (Hashtable_Probing.insert natHash 3 collidedErased 6).2 :=
  ⟨⟨by decide, by decide, by decide⟩,
    (C22_probing_structural_invariant natHash 3 (by decide) collidedErased
      collidedErased_reachable 6 3).1.2 1 3 ⟨by decide, by decide, by decide⟩ 0 (by decide),
    (C22_probing_structural_invariant natHash 3 (by decide) collidedErased
      collidedErased_reachable 6 3).2.1.1⟩

/-- C23 (probing copy), evaluated on the code: the copy constructor and the copy assignment
keep `count()`, but they turn the tombstone of the reachable table `collidedErased` into a
blank slot, so `search(3)`, which is `true` on the table, is `false` on its copies. -/
theorem C23_probing_copy_drops_tombstones :
    (∀ (N : Nat) (t other : Hashtable_Probing Nat),
      (Hashtable_Probing.copyConstruct N other).count = other.count ∧
      (Hashtable_Probing.copyAssign N t other).count = other.count) ∧
    Hashtable_Probing.Reachable natHash 3 collidedErased ∧
    (Hashtable_Probing.slot collidedErased.arr 0).is_tombstone = true ∧
    Hashtable_Probing.search natHash 3 collidedErased 3 = true ∧
    (Hashtable_Probing.slot (Hashtable_Probing.copyConstruct 3 collidedErased).arr 0).is_blank
      = true ∧
    Hashtable_Probing.search natHash 3 (Hashtable_Probing.copyConstruct 3 collidedErased) 3
      = false ∧
    Hashtable_Probing.search natHash 3
      (Hashtable_Probing.copyAssign 3 (Hashtable_Probing.init Nat 3) collidedErased) 3
      = false :=
  ⟨fun _ _ _ => ⟨rfl, rfl⟩, collidedErased_reachable, by decide, by decide, by decide,
    by decide, by decide⟩

namespace Hashtable_Chaining

theorem search_erase_iff {K : Type} [DecidableEq K] (h : K → Nat) (N : Nat) (hN : 0 < N)
    (t : Hashtable_Chaining K) (hlen : t.arr.length = N) (k k' : K) :
    search h N (erase h N t k).2 k' = true ↔ search h N t k' = true ∧ k' ≠ k := by
  rw [search_iff_mem, search_iff_mem, table_erase_eq, bucket_set]
  by_cases hh : Hash_Function h N k = Hash_Function h N k'
  · rw [if_pos ⟨hh, by rw [hlen]; exact bucket_index_lt h N hN k⟩, hh]
    simp
  · rw [if_neg (fun hc => hh hc.1)]
    constructor
    · intro hm
      refine ⟨hm, ?_⟩
      rintro rfl
      exact hh rfl
    · exact fun hm => hm.1

/-- In a state satisfying the invariant, `erase` returns 1 and lowers the counter by one when
the key is found by `search`, and returns 0 and changes nothing otherwise. -/
theorem erase_result {K : Type} [DecidableEq K] (h : K → Nat) (N : Nat) (hN : 0 < N)
    (t : Hashtable_Chaining K) (hinv : Inv N t) (k : K) :
    (search h N t k = true →
      (erase h N t k).1 = 1 ∧ (erase h N t k).2.counter + 1 = t.counter) ∧
    (search h N t k = false → erase h N t k = (0, t)) := by
  constructor
  · intro hs
    have hm := (search_iff_mem h N t k).1 hs
    have hone : (t.bucket (Hash_Function h N k)).count k = 1 :=
      List.count_eq_one_of_mem (hinv.nodup _) hm
    have hl : Hash_Function h N k < t.arr.length := by
      rw [hinv.len]; exact bucket_index_lt h N hN k
    have hsum := sum_length_set t.arr (Hash_Function h N k)
      ((t.bucket (Hash_Function h N k)).filter (fun x => decide (x ≠ k))) hl
    have hsplit := DoublyLinkedList.length_filter_add_count (t.bucket (Hash_Function h N k)) k
    rw [table_erase_eq]
    refine ⟨hone, ?_⟩
    simp only [bucket] at hsum hsplit hone ⊢
    have := hinv.cnt
    omega
  · intro hs
    apply erase_of_not_mem
    intro hm
    rw [(search_iff_mem h N t k).2 hm] at hs
    exact Bool.noConfusion hs

end Hashtable_Chaining

/-- One call in lockstep.  When the two tables hold the same keys and report the same occupancy
and the chained call returns, it returns what the probing call returns, and the tables hold the
same keys and report the same occupancy after it. -/
theorem lockstep_step {K : Type} [DecidableEq K] (h : K → Nat) (Nc Np : Nat)
    (hNc : 0 < Nc) (hNp : 0 < Np) (tc : Hashtable_Chaining K) (tp : Hashtable_Probing K)
    (hci : Hashtable_Chaining.Inv Nc tc) (hpi : Hashtable_Probing.Inv h Np tp)
    (hcnt : tc.counter = tp.counter)
    (hkeys : ∀ k, Hashtable_Chaining.search h Nc tc k = true ↔ Hashtable_Probing.stored tp k)
    (c : Call K)
    (hfull : ∀ k, c = Call.insert k → tp.full Np = true → Hashtable_Probing.stored tp k)
    (rc : Outcome × Hashtable_Chaining K)
    (hrc : Hashtable_Chaining.call h Nc tc c = some rc) :
    rc.1 = (Hashtable_Probing.call h Np tp c).1 ∧
      Hashtable_Chaining.Inv Nc rc.2 ∧
      Hashtable_Probing.Inv h Np (Hashtable_Probing.call h Np tp c).2 ∧
      rc.2.counter = (Hashtable_Probing.call h Np tp c).2.counter ∧
      ∀ k, Hashtable_Chaining.search h Nc rc.2 k = true ↔
        Hashtable_Probing.stored (Hashtable_Probing.call h Np tp c).2 k := by
  have hsearch : ∀ k, Hashtable_Chaining.search h Nc tc k
      = Hashtable_Probing.search h Np tp k := by
    intro k
    rw [Bool.eq_iff_iff, hkeys k, Hashtable_Probing.search_iff_stored h Np hNp tp hpi k]
  cases c with
  | insert k =>
    have hrc' : rc = (Outcome.bool (Hashtable_Chaining.insert h Nc tc k).1,
        (Hashtable_Chaining.insert h Nc tc k).2) := (Option.some.inj hrc).symm
    rw [hrc']
    show Outcome.bool (Hashtable_Chaining.insert h Nc tc k).1
        = Outcome.bool (Hashtable_Probing.insert h Np tp k).1 ∧
      Hashtable_Chaining.Inv Nc (Hashtable_Chaining.insert h Nc tc k).2 ∧
      Hashtable_Probing.Inv h Np (Hashtable_Probing.insert h Np tp k).2 ∧
      (Hashtable_Chaining.insert h Nc tc k).2.counter
        = (Hashtable_Probing.insert h Np tp k).2.counter ∧
      ∀ k', Hashtable_Chaining.search h Nc (Hashtable_Chaining.insert h Nc tc k).2 k' = true ↔
        Hashtable_Probing.stored (Hashtable_Probing.insert h Np tp k).2 k'
    have hci' := Hashtable_Chaining.chained_insert_Inv h Nc hNc tc hci k
    have hpi' := Hashtable_Probing.insert_Inv h Np hNp tp hpi k
    by_cases hst : Hashtable_Probing.stored tp k
    · have hm := (Hashtable_Chaining.search_iff_mem h Nc tc k).1 ((hkeys k).2 hst)
      rw [Hashtable_Chaining.insert_of_mem h Nc tc k hm,
        Hashtable_Probing.insert_stored h Np hNp tp hpi k hst]
      exact ⟨rfl, hci, hpi, hcnt, hkeys⟩
    · have hnm : k ∉ tc.bucket (Hash_Function h Nc k) := fun hm =>
        hst ((hkeys k).1 ((Hashtable_Chaining.search_iff_mem h Nc tc k).2 hm))
      have hlt : tp.counter < Np := by
        have hle := Hashtable_Probing.counter_le h Np tp hpi
        by_contra hge
        have hf : tp.full Np = true := by
          unfold Hashtable_Probing.full
          rw [if_pos (by omega)]
        exact hst (hfull k rfl hf)
      obtain ⟨h1, h2, h3⟩ := Hashtable_Probing.insert_true_effect h Np hNp tp hpi k hlt hst
      refine ⟨?_, hci', hpi', ?_, ?_⟩
      · rw [h1, Hashtable_Chaining.insert_of_not_mem h Nc tc k hnm]
      · rw [h2, Hashtable_Chaining.insert_of_not_mem h Nc tc k hnm, hcnt]
      · intro k'
        rw [Hashtable_Chaining.search_insert h Nc hNc tc hci.len, h3, hkeys]
  | search k =>
    have hrc' : rc = (Outcome.bool (Hashtable_Chaining.search h Nc tc k), tc) :=
      (Option.some.inj hrc).symm
    rw [hrc']
    show Outcome.bool (Hashtable_Chaining.search h Nc tc k)
        = Outcome.bool (Hashtable_Probing.search h Np tp k) ∧ _
    rw [hsearch k]
    exact ⟨rfl, hci, hpi, hcnt, hkeys⟩
  | erase k =>
    have hrc' : rc = (Outcome.count (Hashtable_Chaining.erase h Nc tc k).1,
        (Hashtable_Chaining.erase h Nc tc k).2) := (Option.some.inj hrc).symm
    rw [hrc']
    show Outcome.count (Hashtable_Chaining.erase h Nc tc k).1
        = Outcome.count (Hashtable_Probing.erase h Np tp k).1 ∧
      Hashtable_Chaining.Inv Nc (Hashtable_Chaining.erase h Nc tc k).2 ∧
      Hashtable_Probing.Inv h Np (Hashtable_Probing.erase h Np tp k).2 ∧
      (Hashtable_Chaining.erase h Nc tc k).2.counter
        = (Hashtable_Probing.erase h Np tp k).2.counter ∧
      ∀ k', Hashtable_Chaining.search h Nc (Hashtable_Chaining.erase h Nc tc k).2 k' = true ↔
        Hashtable_Probing.stored (Hashtable_Probing.erase h Np tp k).2 k'
    have hci' := Hashtable_Chaining.chained_erase_Inv h Nc hNc tc hci k
    have hpi' := Hashtable_Probing.erase_Inv h Np hNp tp hpi k
    obtain ⟨hfound, hmissing⟩ := Hashtable_Chaining.erase_result h Nc hNc tc hci k
    by_cases hst : Hashtable_Probing.stored tp k
    · obtain ⟨hc1, hc2⟩ := hfound ((hkeys k).2 hst)
      obtain ⟨hp1, hp2, hp3⟩ := Hashtable_Probing.erase_stored_effect h Np hNp tp hpi k hst
      refine ⟨by rw [hc1, hp1], hci', hpi', by omega, ?_⟩
      intro k'
      rw [Hashtable_Chaining.search_erase_iff h Nc hNc tc hci.len, hp3, hkeys]
    · have hsf : Hashtable_Chaining.search h Nc tc k = false := by
        rw [Bool.eq_false_iff, Ne, hkeys k]
        exact hst
      rw [hmissing hsf, Hashtable_Probing.erase_not_stored h Np hNp tp k hst]
      exact ⟨rfl, hci, hpi, hcnt, hkeys⟩
  | clear =>
    have hcl : ∃ tc', Hashtable_Chaining.clear tc = some tc' ∧ rc = (Outcome.done, tc') := by
      unfold Hashtable_Chaining.call at hrc
      cases hclear : Hashtable_Chaining.clear tc with
      | none =>
        rw [hclear] at hrc
        cases hrc
      | some tc' =>
        rw [hclear] at hrc
        exact ⟨tc', rfl, (Option.some.inj hrc).symm⟩
    obtain ⟨tc', hclear, hrc'⟩ := hcl
    rw [hrc', Hashtable_Chaining.chained_clear_eq Nc tc tc' hci hclear]
    show Outcome.done = Outcome.done ∧
      Hashtable_Chaining.Inv Nc (Hashtable_Chaining.init K Nc) ∧
      Hashtable_Probing.Inv h Np (Hashtable_Probing.clear Np tp) ∧
      (Hashtable_Chaining.init K Nc).counter = (Hashtable_Probing.clear Np tp).counter ∧
      ∀ k', Hashtable_Chaining.search h Nc (Hashtable_Chaining.init K Nc) k' = true ↔
        Hashtable_Probing.stored (Hashtable_Probing.clear Np tp) k'
    rw [Hashtable_Probing.clear_eq Np tp hpi.len]
    refine ⟨rfl, Hashtable_Chaining.chained_Inv_init Nc, Hashtable_Probing.Inv_init h Np, rfl, ?_⟩
    intro k'
    rw [Hashtable_Chaining.search_init h Nc k']
    constructor
    · intro hc
      exact Bool.noConfusion hc
    · intro hc
      exact absurd hc (Hashtable_Probing.not_stored_init Np k')

/-- What the hypothesis on full tables says about the first call and about the rest. -/
theorem neverFullOnNewKey_cons {K : Type} [DecidableEq K] (h : K → Nat) (N : Nat)
    (t : Hashtable_Probing K) (c : Call K) (calls : List (Call K))
    (hadm : Hashtable_Probing.neverFullOnNewKey h N t (c :: calls)) :
    (∀ k, c = Call.insert k → t.full N = true → Hashtable_Probing.stored t k) ∧
      Hashtable_Probing.neverFullOnNewKey h N (Hashtable_Probing.call h N t c).2 calls := by
  cases c with
  | insert k =>
    refine ⟨?_, hadm.2⟩
    intro k' hk
    cases hk
    exact hadm.1
  | search k => exact ⟨fun _ hk => Call.noConfusion hk, hadm⟩
  | erase k => exact ⟨fun _ hk => Call.noConfusion hk, hadm⟩
  | clear => exact ⟨fun _ hk => Call.noConfusion hk, hadm⟩

/-- Lockstep runs from tables that hold the same keys and report the same occupancy: when the
chained run returns, every call returned the same result on both tables and the occupancies
agreed after every call. -/
theorem lockstep_trace {K : Type} [DecidableEq K] (h : K → Nat) (Nc Np : Nat)
    (hNc : 0 < Nc) (hNp : 0 < Np) (calls : List (Call K)) :
    ∀ (tc : Hashtable_Chaining K) (tp : Hashtable_Probing K),
      Hashtable_Chaining.Inv Nc tc → Hashtable_Probing.Inv h Np tp →
      tc.counter = tp.counter →
      (∀ k, Hashtable_Chaining.search h Nc tc k = true ↔ Hashtable_Probing.stored tp k) →
      Hashtable_Probing.neverFullOnNewKey h Np tp calls →
      ∀ tr, Hashtable_Chaining.trace h Nc tc calls = some tr →
        tr = Hashtable_Probing.trace h Np tp calls := by
  induction calls with
  | nil =>
    intro tc tp _ _ _ _ _ tr htr
    exact (Option.some.inj htr).symm
  | cons c rest ih =>
    intro tc tp hci hpi hcnt hkeys hadm tr htr
    obtain ⟨hfull, hrest⟩ := neverFullOnNewKey_cons h Np tp c rest hadm
    unfold Hashtable_Chaining.trace at htr
    cases hcall : Hashtable_Chaining.call h Nc tc c with
    | none =>
      rw [hcall] at htr
      cases htr
    | some rc =>
      rw [hcall] at htr
      obtain ⟨h1, h2, h3, h4, h5⟩ :=
        lockstep_step h Nc Np hNc hNp tc tp hci hpi hcnt hkeys c hfull rc hcall
      cases htail : Hashtable_Chaining.trace h Nc rc.2 rest with
      | none =>
        simp only [htail] at htr
        cases htr
      | some tr' =>
        simp only [htail] at htr
        have htr' := ih rc.2 _ h2 h3 h4 h5 hrest tr' htail
        rw [← Option.some.inj htr, htr', h1]
        show _ = ((Hashtable_Probing.call h Np tp c).1, (Hashtable_Probing.call h Np tp c).2.count)
          :: Hashtable_Probing.trace h Np (Hashtable_Probing.call h Np tp c).2 rest
        simp only [Hashtable_Chaining.size, Hashtable_Probing.count, h4]

/-- The chained run returns exactly when every `clear` is called on a table whose `counter` is
zero. -/
theorem trace_isSome_iff {K : Type} [DecidableEq K] (h : K → Nat) (N : Nat)
    (calls : List (Call K)) :
    ∀ t : Hashtable_Chaining K,
      (Hashtable_Chaining.trace h N t calls).isSome = true ↔
        Hashtable_Chaining.clearsOnlyEmpty h N t calls := by
  induction calls with
  | nil =>
    intro t
    exact ⟨fun _ => trivial, fun _ => rfl⟩
  | cons c rest ih =>
    intro t
    cases c with
    | insert k =>
      have := ih (Hashtable_Chaining.insert h N t k).2
      simp only [Hashtable_Chaining.trace, Hashtable_Chaining.call,
        Hashtable_Chaining.clearsOnlyEmpty]
      rw [← this]
      cases Hashtable_Chaining.trace h N (Hashtable_Chaining.insert h N t k).2 rest <;> simp
    | search k =>
      have := ih t
      simp only [Hashtable_Chaining.trace, Hashtable_Chaining.call,
        Hashtable_Chaining.clearsOnlyEmpty]
      rw [← this]
      cases Hashtable_Chaining.trace h N t rest <;> simp
    | erase k =>
      have := ih (Hashtable_Chaining.erase h N t k).2
      simp only [Hashtable_Chaining.trace, Hashtable_Chaining.call,
        Hashtable_Chaining.clearsOnlyEmpty]
      rw [← this]
      cases Hashtable_Chaining.trace h N (Hashtable_Chaining.erase h N t k).2 rest <;> simp
    | clear =>
      have := ih t
      simp only [Hashtable_Chaining.trace, Hashtable_Chaining.call,
        Hashtable_Chaining.clearsOnlyEmpty, Hashtable_Chaining.clear]
      rw [← this]
      by_cases hc : t.counter = 0
      · cases htr : Hashtable_Chaining.trace h N t rest <;> simp [hc, htr]
      · simp [hc]

/-- Strategy equivalence where the chained run returns: for every sequence of `insert`,
`search`, `erase` and `clear` calls applied in lockstep to an empty chained table and an empty
probing table of capacities `Nc, Np > 0`, if every `clear` is called on an empty table and the
probing table is never full when `insert` is called with a key it does not hold, then the
chained run returns, every call returns the same result on both tables, and after every call
the chained `size()` equals the probing `count()`. -/
theorem lockstep_equivalence_when_defined {K : Type} [DecidableEq K] (h : K → Nat)
    (Nc Np : Nat) (hNc : 0 < Nc) (hNp : 0 < Np) (calls : List (Call K))
    (hclear : Hashtable_Chaining.clearsOnlyEmpty h Nc (Hashtable_Chaining.init K Nc) calls)
    (hadm : Hashtable_Probing.neverFullOnNewKey h Np (Hashtable_Probing.init K Np) calls) :
    Hashtable_Chaining.trace h Nc (Hashtable_Chaining.init K Nc) calls
      = some (Hashtable_Probing.trace h Np (Hashtable_Probing.init K Np) calls) := by
  have hsome := (trace_isSome_iff h Nc calls (Hashtable_Chaining.init K Nc)).2 hclear
  obtain ⟨tr, htr⟩ := Option.isSome_iff_exists.1 hsome
  rw [htr]
  congr 1
  apply lockstep_trace h Nc Np hNc hNp calls _ _ (Hashtable_Chaining.chained_Inv_init Nc)
    (Hashtable_Probing.Inv_init h Np) rfl _ hadm tr htr
  intro k
  rw [Hashtable_Chaining.search_init h Nc k]
  constructor
  · intro hc
    exact Bool.noConfusion hc
  · intro hc
    exact absurd hc (Hashtable_Probing.not_stored_init Np k)

/-- C24 (strategy equivalence), evaluated on the code.  On the sequence `insert(0)`, `clear()`,
`search(0)` the probing table of capacity 3 is never full, and it returns `true`, nothing and
`false` with `count()` 1, 0 and 0.  The chained table of capacity 2 returns `true` with
`size()` 1 for `insert(0)`, and then `clear()`, called on a table that is not empty, has no
result (it runs `delete arr` on storage allocated with `new[]`), so the lockstep run does not
go on to compare results.  A sequence without such a `clear` gives equal results. -/
theorem C24_lockstep_stops_at_chained_clear :
    Hashtable_Probing.neverFullOnNewKey natHash 3 (Hashtable_Probing.init Nat 3)
        [Call.insert 0, Call.clear, Call.search 0] ∧
      Hashtable_Probing.trace natHash 3 (Hashtable_Probing.init Nat 3)
          [Call.insert 0, Call.clear, Call.search 0]
        = [(Outcome.bool true, 1), (Outcome.done, 0), (Outcome.bool false, 0)] ∧
      Hashtable_Chaining.trace natHash 2 (Hashtable_Chaining.init Nat 2) [Call.insert 0]
        = some [(Outcome.bool true, 1)] ∧
      Hashtable_Chaining.trace natHash 2 (Hashtable_Chaining.init Nat 2)
          [Call.insert 0, Call.clear, Call.search 0] = none ∧
      Hashtable_Chaining.trace natHash 2 (Hashtable_Chaining.init Nat 2)
          [Call.insert 0, Call.insert 3, Call.search 3, Call.erase 0, Call.search 0]
        = some (Hashtable_Probing.trace natHash 3 (Hashtable_Probing.init Nat 3)
          [Call.insert 0, Call.insert 3, Call.search 3, Call.erase 0, Call.search 0]) :=
  ⟨⟨fun hf => absurd hf (by decide), trivial⟩, by decide, by decide, by decide,
    lockstep_equivalence_when_defined natHash 2 3 (by decide) (by decide)
      [Call.insert 0, Call.insert 3, Call.search 3, Call.erase 0, Call.search 0]
      trivial ⟨fun hf => absurd hf (by decide), fun hf => absurd hf (by decide), trivial⟩⟩

namespace DoublyLinkedList

/-! ## Chains of nodes -/

theorem firstOr_append_singleton {K : Type} (ms : List (Nat × K)) (n : Nat × K)
    (nx : Option Nat) : firstOr (ms ++ [n]) nx = firstOr ms (some n.1) := by
  cases ms <;> rfl

theorem lastOr_append_singleton {K : Type} (ms : List (Nat × K)) (n : Nat × K) :
    ∀ pv : Option Nat, lastOr (ms ++ [n]) pv = some n.1 := by
  induction ms with
  | nil => intro pv; rfl
  | cons m ms ih => intro pv; exact ih (some m.1)

theorem firstOr_append {K : Type} (ms rest : List (Nat × K)) (nx : Option Nat) :
    firstOr (ms ++ rest) nx = firstOr ms (firstOr rest nx) := by
  cases ms <;> rfl

theorem lastOr_append {K : Type} (ms rest : List (Nat × K)) :
    ∀ pv : Option Nat, lastOr (ms ++ rest) pv = lastOr rest (lastOr ms pv) := by
  induction ms with
  | nil => intro pv; rfl
  | cons m ms ih => intro pv; exact ih (some m.1)

/-- A chain only depends on the cells of its nodes. -/
theorem Seg_congr {K : Type} (s s' : Store K) (ns : List (Nat × K)) (nx : Option Nat) :
    ∀ pv : Option Nat, (∀ n, n ∈ ns → s'.cell n.1 = s.cell n.1) → Seg s pv ns nx →
      Seg s' pv ns nx := by
  induction ns with
  | nil => intro pv _ _; trivial
  | cons n ns ih =>
    intro pv hsame hseg
    refine ⟨?_, ih (some n.1) (fun m hm => hsame m (List.mem_cons_of_mem _ hm)) hseg.2⟩
    rw [hsame n (List.mem_cons_self _ _)]
    exact hseg.1

/-- A chain that ends with the node `n` is a chain leading to `n`, and the cell of `n`. -/
theorem Seg_snoc_iff {K : Type} (s : Store K) (ms : List (Nat × K)) (n : Nat × K)
    (nx : Option Nat) :
    ∀ pv : Option Nat, Seg s pv (ms ++ [n]) nx ↔
      Seg s pv ms (some n.1) ∧ s.cell n.1 = some ⟨nx, lastOr ms pv, some n.2⟩ := by
  induction ms with
  | nil =>
    intro pv
    simp [Seg, firstOr, lastOr]
  | cons m ms ih =>
    intro pv
    show (s.cell m.1 = some ⟨firstOr (ms ++ [n]) nx, pv, some m.2⟩ ∧
        Seg s (some m.1) (ms ++ [n]) nx) ↔
      (s.cell m.1 = some ⟨firstOr ms (some n.1), pv, some m.2⟩ ∧
        Seg s (some m.1) ms (some n.1)) ∧
      s.cell n.1 = some ⟨nx, lastOr ms (some m.1), some n.2⟩
    rw [firstOr_append_singleton, ih (some m.1)]
    tauto

theorem Seg_cell {K : Type} (s : Store K) (ns : List (Nat × K)) (nx : Option Nat) :
    ∀ pv : Option Nat, Seg s pv ns nx → ∀ n, n ∈ ns →
      ∃ nxt prv, s.cell n.1 = some ⟨nxt, prv, some n.2⟩ := by
  induction ns with
  | nil => intro pv _ n hn; simp at hn
  | cons m ns ih =>
    intro pv hseg n hn
    rcases List.mem_cons.1 hn with rfl | hn'
    · exact ⟨_, _, hseg.1⟩
    · exact ih (some m.1) hseg.2 n hn'

end DoublyLinkedList

namespace DoublyLinkedList

/-! ## The effect of the node operations on the cells -/

theorem destroy_single {K : Type} (s : Store K) (c : Nat) (kc : Option K)
    (hc : s.cell c = some ⟨none, none, kc⟩) :
    (Node.destroy s c).fresh = s.fresh ∧
      ∀ x, (Node.destroy s c).cell x = if x = c then none else s.cell x := by
  refine ⟨?_, fun x => ?_⟩
  · simp [Node.destroy, Node.clear, Store.setKeyField, Store.setNextField, Store.setPrevField,
      Store.getNext, Store.getPrevious, Store.write, hc]
  · by_cases hxc : x = c <;>
    simp [Node.destroy, Node.clear, Store.setKeyField, Store.setNextField, Store.setPrevField,
      Store.getNext, Store.getPrevious, Store.write, hc, hxc]

theorem destroy_first {K : Type} (s : Store K) (c q : Nat) (kc kq : Option K)
    (qn : Option Nat) (hcq : c ≠ q)
    (hc : s.cell c = some ⟨some q, none, kc⟩) (hq : s.cell q = some ⟨qn, some c, kq⟩) :
    (Node.destroy s c).fresh = s.fresh ∧
      ∀ x, (Node.destroy s c).cell x =
        if x = c then none else if x = q then some ⟨qn, none, kq⟩ else s.cell x := by
  have hqc : q ≠ c := fun h => hcq h.symm
  refine ⟨?_, fun x => ?_⟩
  · simp [Node.destroy, Node.clear, Store.setKeyField, Store.setNextField, Store.setPrevField,
      Store.getNext, Store.getPrevious, Store.write, hc, hq, hcq, hqc]
  · by_cases hxc : x = c
    · subst hxc
      simp [Node.destroy, Node.clear, Store.setKeyField, Store.setNextField,
        Store.setPrevField, Store.getNext, Store.getPrevious, Store.write, hc, hq, hcq, hqc]
    · by_cases hxq : x = q
      · subst hxq
        simp [Node.destroy, Node.clear, Store.setKeyField, Store.setNextField,
          Store.setPrevField, Store.getNext, Store.getPrevious, Store.write, hc, hq, hcq, hqc]
      · simp [Node.destroy, Node.clear, Store.setKeyField, Store.setNextField,
          Store.setPrevField, Store.getNext, Store.getPrevious, Store.write, hc, hq, hcq, hqc,
          hxc, hxq]

theorem destroy_last {K : Type} (s : Store K) (c pl : Nat) (kc kp : Option K)
    (pp : Option Nat) (hcp : c ≠ pl)
    (hc : s.cell c = some ⟨none, some pl, kc⟩) (hp : s.cell pl = some ⟨some c, pp, kp⟩) :
    (Node.destroy s c).fresh = s.fresh ∧
      ∀ x, (Node.destroy s c).cell x =
        if x = c then none else if x = pl then some ⟨none, pp, kp⟩ else s.cell x := by
  have hpc : pl ≠ c := fun h => hcp h.symm
  refine ⟨?_, fun x => ?_⟩
  · simp [Node.destroy, Node.clear, Store.setKeyField, Store.setNextField, Store.setPrevField,
      Store.getNext, Store.getPrevious, Store.write, hc, hp, hcp, hpc]
  · by_cases hxc : x = c
    · subst hxc
      simp [Node.destroy, Node.clear, Store.setKeyField, Store.setNextField,
        Store.setPrevField, Store.getNext, Store.getPrevious, Store.write, hc, hp, hcp, hpc]
    · by_cases hxp : x = pl
      · subst hxp
        simp [Node.destroy, Node.clear, Store.setKeyField, Store.setNextField,
          Store.setPrevField, Store.getNext, Store.getPrevious, Store.write, hc, hp, hcp, hpc]
      · simp [Node.destroy, Node.clear, Store.setKeyField, Store.setNextField,
          Store.setPrevField, Store.getNext, Store.getPrevious, Store.write, hc, hp, hcp, hpc,
          hxc, hxp]

/-- The interior case of `erase`: `current->setPrevious(tmp_prev)`, `tmp_prev->setNext(current)`
and `delete temp` link the two neighbours of the node to each other and release the node. -/
theorem relink_interior {K : Type} (s : Store K) (pl c q : Nat) (kp kc kq : Option K)
    (pp qn : Option Nat) (hpc : pl ≠ c) (hcq : c ≠ q) (hpq : pl ≠ q)
    (hp : s.cell pl = some ⟨some c, pp, kp⟩) (hc : s.cell c = some ⟨some q, some pl, kc⟩)
    (hq : s.cell q = some ⟨qn, some c, kq⟩) :
    (Node.destroy (Node.setNext (Node.setPrevious s q (some pl)) pl (some q)) c).fresh
        = s.fresh ∧
      ∀ x, (Node.destroy (Node.setNext (Node.setPrevious s q (some pl)) pl (some q)) c).cell x =
        if x = c then none
        else if x = pl then some ⟨some q, pp, kp⟩
        else if x = q then some ⟨qn, some pl, kq⟩
        else s.cell x := by
  have hcp : c ≠ pl := fun h => hpc h.symm
  have hqc : q ≠ c := fun h => hcq h.symm
  have hqp : q ≠ pl := fun h => hpq h.symm
  refine ⟨?_, fun x => ?_⟩
  · simp [Node.destroy, Node.clear, Node.setNext, Node.setPrevious, Store.setKeyField,
      Store.setNextField, Store.setPrevField, Store.getNext, Store.getPrevious, Store.write,
      hp, hc, hq, hpc, hcq, hpq, hcp, hqc, hqp]
  · by_cases hxc : x = c
    · subst hxc
      simp [Node.destroy, Node.clear, Node.setNext, Node.setPrevious, Store.setKeyField,
        Store.setNextField, Store.setPrevField, Store.getNext, Store.getPrevious, Store.write,
        hp, hc, hq, hpc, hcq, hpq, hcp, hqc, hqp]
    · by_cases hxp : x = pl
      · subst hxp
        simp [Node.destroy, Node.clear, Node.setNext, Node.setPrevious, Store.setKeyField,
          Store.setNextField, Store.setPrevField, Store.getNext, Store.getPrevious,
          Store.write, hp, hc, hq, hpc, hcq, hpq, hcp, hqc, hqp]
      · by_cases hxq : x = q
        · subst hxq
          simp [Node.destroy, Node.clear, Node.setNext, Node.setPrevious, Store.setKeyField,
            Store.setNextField, Store.setPrevField, Store.getNext, Store.getPrevious,
            Store.write, hp, hc, hq, hpc, hcq, hpq, hcp, hqc, hqp]
        · simp [Node.destroy, Node.clear, Node.setNext, Node.setPrevious, Store.setKeyField,
            Store.setNextField, Store.setPrevField, Store.getNext, Store.getPrevious,
            Store.write, hp, hc, hq, hpc, hcq, hpq, hcp, hqc, hqp, hxc, hxp, hxq]

/-- `createNext` on a node without successor links a new node after it. -/
theorem createNext_last {K : Type} (s : Store K) (t : Nat) (kt : Option K) (pv : Option Nat)
    (value : K) (ht : s.cell t = some ⟨none, pv, kt⟩) (hlt : t < s.fresh) :
    (Node.createNext s t value).fresh = s.fresh + 1 ∧
      (∀ x, (Node.createNext s t value).cell x =
        if x = s.fresh then some ⟨none, some t, some value⟩
        else if x = t then some ⟨some s.fresh, pv, kt⟩
        else s.cell x) := by
  have hne : t ≠ s.fresh := Nat.ne_of_lt hlt
  have hne' : s.fresh ≠ t := fun h => hne h.symm
  refine ⟨?_, fun x => ?_⟩
  · simp [Node.createNext, Store.alloc, Store.setNextField, Store.setPrevField,
      Store.getNext, Store.write, ht, hne, hne']
  · by_cases hxf : x = s.fresh
    · subst hxf
      simp [Node.createNext, Store.alloc, Store.setNextField, Store.setPrevField,
        Store.getNext, Store.write, ht, hne, hne']
    · by_cases hxt : x = t
      · subst hxt
        simp [Node.createNext, Store.alloc, Store.setNextField, Store.setPrevField,
          Store.getNext, Store.write, ht, hne, hne']
      · simp [Node.createNext, Store.alloc, Store.setNextField, Store.setPrevField,
          Store.getNext, Store.write, ht, hne, hne', hxf, hxt]

end DoublyLinkedList

namespace DoublyLinkedList

/-! ## The cursor of `erase` -/

theorem firstOr_of_ne_nil {K : Type} (ms : List (Nat × K)) (hne : ms ≠ []) (a b : Option Nat) :
    firstOr ms a = firstOr ms b := by
  cases ms with
  | nil => exact absurd rfl hne
  | cons m ms => rfl

theorem lastOr_of_ne_nil {K : Type} (ms : List (Nat × K)) (hne : ms ≠ []) (a b : Option Nat) :
    lastOr ms a = lastOr ms b := by
  cases ms with
  | nil => exact absurd rfl hne
  | cons m ms => rfl

theorem lastOr_mem {K : Type} (ns : List (Nat × K)) :
    ∀ pv : Option Nat, ns ≠ [] → ∃ z, z ∈ ns ∧ lastOr ns pv = some z.1 := by
  induction ns with
  | nil => intro pv hne; exact absurd rfl hne
  | cons n ns ih =>
    intro pv _
    by_cases hns : ns = []
    · subst hns
      exact ⟨n, List.mem_cons_self _ _, rfl⟩
    · obtain ⟨z, hz, hlast⟩ := ih (some n.1) hns
      exact ⟨z, List.mem_cons_of_mem _ hz, hlast⟩

theorem Cursor_of_WellLinked {K : Type} (s : Store K) (l : Header) (ns : List (Nat × K))
    (hw : WellLinked s l ns) : Cursor s l [] ns :=
  ⟨trivial, hw.seg, hw.nodup, hw.bound, hw.head_eq, hw.tail_eq, hw.length_eq⟩

theorem WellLinked_of_Cursor {K : Type} (s : Store K) (l : Header) (ms : List (Nat × K))
    (hc : Cursor s l ms []) : WellLinked s l ms := by
  have h := hc
  obtain ⟨h1, _, h3, h4, h5, h6, h7⟩ := h
  simp only [List.append_nil] at h3 h4 h5 h6 h7
  exact ⟨h1, h3, h4, h5, h6, h7⟩

theorem Cursor_cell {K : Type} (s : Store K) (l : Header) (ms rest : List (Nat × K))
    (n : Nat × K) (hc : Cursor s l ms (n :: rest)) :
    s.cell n.1 = some ⟨firstOr rest none, lastOr ms none, some n.2⟩ := hc.segR.1

/-- The cursor moves past a node that stays in the list. -/
theorem Cursor_advance {K : Type} (s : Store K) (l : Header) (ms rest : List (Nat × K))
    (n : Nat × K) (hc : Cursor s l ms (n :: rest)) : Cursor s l (ms ++ [n]) rest := by
  have happ : ms ++ [n] ++ rest = ms ++ n :: rest := by simp
  refine ⟨?_, ?_, ?_, ?_, ?_, ?_, ?_⟩
  · exact (Seg_snoc_iff s ms n _ none).2 ⟨hc.segL, hc.segR.1⟩
  · rw [lastOr_append_singleton]
    exact hc.segR.2
  · rw [happ]; exact hc.nodup
  · rw [happ]; exact hc.bound
  · rw [happ]; exact hc.head_eq
  · rw [happ]; exact hc.tail_eq
  · rw [happ]; exact hc.length_eq

/-- Removing the only node. -/
theorem Cursor_remove_single {K : Type} (s : Store K) (l : Header) (n : Nat × K)
    (hc : Cursor s l [] [n]) :
    Cursor (Node.destroy s n.1) ⟨none, none, l.length - 1⟩ [] [] ∧
      (Node.destroy s n.1).fresh = s.fresh ∧
      ∀ x, x ≠ n.1 → (Node.destroy s n.1).cell x = s.cell x := by
  have hcell := Cursor_cell s l [] [] n hc
  obtain ⟨hf, hcells⟩ := destroy_single s n.1 (some n.2) hcell
  refine ⟨⟨trivial, trivial, List.nodup_nil, ?_, rfl, rfl, ?_⟩, hf, ?_⟩
  · intro m hm
    simp at hm
  · have := hc.length_eq
    simp only [List.nil_append, List.length_singleton] at this
    simp [this]
  · intro x hx
    rw [hcells x, if_neg hx]

/-- Removing the first node of a list that has more nodes (`pop_front`). -/
theorem Cursor_remove_first {K : Type} (s : Store K) (l : Header) (n q : Nat × K)
    (rest : List (Nat × K)) (hc : Cursor s l [] (n :: q :: rest)) :
    Cursor (Node.destroy s n.1) ⟨some q.1, l.tail, l.length - 1⟩ [] (q :: rest) ∧
      (Node.destroy s n.1).fresh = s.fresh ∧
      ∀ x, x ≠ n.1 → x ≠ q.1 → (Node.destroy s n.1).cell x = s.cell x := by
  have hcell := Cursor_cell s l [] (q :: rest) n hc
  have hq : s.cell q.1 = some ⟨firstOr rest none, some n.1, some q.2⟩ := hc.segR.2.1
  have hnd := hc.nodup
  simp only [List.nil_append, List.map_cons, List.nodup_cons, List.mem_cons, List.mem_map,
    not_or] at hnd
  obtain ⟨⟨hnq, hnrest⟩, hqrest, hrest⟩ := hnd
  obtain ⟨hf, hcells⟩ := destroy_first s n.1 q.1 (some n.2) (some q.2) (firstOr rest none) hnq
    hcell hq
  refine ⟨⟨trivial, ⟨?_, ?_⟩, ?_, ?_, rfl, ?_, ?_⟩, hf, ?_⟩
  · rw [hcells q.1, if_neg (fun h => hnq h.symm), if_pos rfl]
    rfl
  · apply Seg_congr s _ rest none (some q.1) _ hc.segR.2.2
    intro m hm
    rw [hcells m.1, if_neg, if_neg]
    · intro h
      exact hqrest ⟨m, hm, h⟩
    · intro h
      exact hnrest ⟨m, hm, h⟩
  · simp only [List.nil_append, List.map_cons, List.nodup_cons, List.mem_map]
    exact ⟨hqrest, hrest⟩
  · intro m hm
    rw [hf]
    exact hc.bound m (List.mem_cons_of_mem _ hm)
  · rw [hc.tail_eq]
    rfl
  · have := hc.length_eq
    simp only [List.nil_append, List.length_cons] at this ⊢
    omega
  · intro x hxn hxq
    rw [hcells x, if_neg hxn, if_neg hxq]

end DoublyLinkedList

namespace DoublyLinkedList

/-- What distinct addresses say about one node of the list. -/
theorem nodup_middle_facts {K : Type} (ms rest : List (Nat × K)) (n : Nat × K)
    (h : ((ms ++ n :: rest).map Prod.fst).Nodup) :
    (∀ m, m ∈ ms → m.1 ≠ n.1) ∧ (∀ m, m ∈ rest → m.1 ≠ n.1) ∧
      (∀ m, m ∈ ms → ∀ r, r ∈ rest → m.1 ≠ r.1) ∧ ((ms ++ rest).map Prod.fst).Nodup := by
  rw [List.map_append, List.map_cons, List.nodup_append, List.nodup_cons] at h
  obtain ⟨h1, ⟨h2, h3⟩, h4⟩ := h
  refine ⟨?_, ?_, ?_, ?_⟩
  · intro m hm heq
    exact h4 (List.mem_map_of_mem Prod.fst hm) (heq ▸ List.mem_cons_self _ _)
  · intro m hm heq
    exact h2 (heq ▸ List.mem_map_of_mem Prod.fst hm)
  · intro m hm r hr heq
    exact h4 (List.mem_map_of_mem Prod.fst hm)
      (List.mem_cons_of_mem _ (heq ▸ List.mem_map_of_mem Prod.fst hr))
  · rw [List.map_append, List.nodup_append]
    exact ⟨h1, h3, fun a ha hb => h4 ha (List.mem_cons_of_mem _ hb)⟩

/-- Removing the last node of a list that has more nodes (`pop_back`). -/
theorem Cursor_remove_last {K : Type} (s : Store K) (l : Header) (ms0 : List (Nat × K))
    (pl n : Nat × K) (hc : Cursor s l (ms0 ++ [pl]) [n]) :
    Cursor (Node.destroy s n.1) ⟨l.head, some pl.1, l.length - 1⟩ (ms0 ++ [pl]) [] ∧
      (Node.destroy s n.1).fresh = s.fresh ∧
      ∀ x, x ≠ n.1 → x ≠ pl.1 → (Node.destroy s n.1).cell x = s.cell x := by
  have hcell := Cursor_cell s l (ms0 ++ [pl]) [] n hc
  rw [lastOr_append_singleton] at hcell
  have hsegL := (Seg_snoc_iff s ms0 pl _ none).1 hc.segL
  have hpl : s.cell pl.1 = some ⟨some n.1, lastOr ms0 none, some pl.2⟩ := hsegL.2
  obtain ⟨hA, _, _, hB⟩ := nodup_middle_facts (ms0 ++ [pl]) [] n hc.nodup
  have hC : ((ms0 ++ pl :: []).map Prod.fst).Nodup := by simpa using hB
  obtain ⟨hD, _, _, _⟩ := nodup_middle_facts ms0 [] pl hC
  have hnp : n.1 ≠ pl.1 := fun h => hA pl (by simp) h.symm
  have hpms0 : ∀ m, m ∈ ms0 → m.1 ≠ pl.1 := hD
  have hnms0 : ∀ m, m ∈ ms0 → m.1 ≠ n.1 := fun m hm => hA m (List.mem_append_left _ hm)
  obtain ⟨hf, hcells⟩ := destroy_last s n.1 pl.1 (some n.2) (some pl.2) (lastOr ms0 none) hnp
    hcell hpl
  have hne : ms0 ++ [pl] ≠ [] := by simp
  refine ⟨⟨?_, trivial, ?_, ?_, ?_, ?_, ?_⟩, hf, ?_⟩
  · refine (Seg_snoc_iff _ ms0 pl _ none).2 ⟨?_, ?_⟩
    · apply Seg_congr s _ ms0 (some pl.1) none _ hsegL.1
      intro m hm
      rw [hcells m.1, if_neg (hnms0 m hm), if_neg (hpms0 m hm)]
    · rw [hcells pl.1, if_neg (fun h => hnp h.symm), if_pos rfl]
      rfl
  · simpa using hB
  · intro m hm
    rw [hf]
    exact hc.bound m (List.mem_append_left _ (by simpa using hm))
  · show l.head = _
    rw [hc.head_eq, List.append_nil, firstOr_append]
    exact firstOr_of_ne_nil _ hne _ _
  · show some pl.1 = _
    rw [List.append_nil, lastOr_append_singleton]
  · have := hc.length_eq
    simp only [List.length_append, List.length_cons, List.length_nil] at this ⊢
    omega
  · intro x hxn hxp
    rw [hcells x, if_neg hxn, if_neg hxp]

/-- Removing a node that has both neighbours: the neighbours are linked to each other. -/
theorem Cursor_remove_interior {K : Type} (s : Store K) (l : Header) (ms0 : List (Nat × K))
    (pl n q : Nat × K) (rest : List (Nat × K))
    (hc : Cursor s l (ms0 ++ [pl]) (n :: q :: rest)) :
    Cursor (Node.destroy (Node.setNext (Node.setPrevious s q.1 (some pl.1)) pl.1 (some q.1)) n.1)
        ⟨l.head, l.tail, l.length - 1⟩ (ms0 ++ [pl]) (q :: rest) ∧
      (Node.destroy (Node.setNext (Node.setPrevious s q.1 (some pl.1)) pl.1 (some q.1))
        n.1).fresh = s.fresh ∧
      ∀ x, x ≠ n.1 → x ≠ pl.1 → x ≠ q.1 →
        (Node.destroy (Node.setNext (Node.setPrevious s q.1 (some pl.1)) pl.1 (some q.1))
          n.1).cell x = s.cell x := by
  have hcell := Cursor_cell s l (ms0 ++ [pl]) (q :: rest) n hc
  rw [lastOr_append_singleton] at hcell
  have hsegL := (Seg_snoc_iff s ms0 pl _ none).1 hc.segL
  have hpl : s.cell pl.1 = some ⟨some n.1, lastOr ms0 none, some pl.2⟩ := hsegL.2
  have hq : s.cell q.1 = some ⟨firstOr rest none, some n.1, some q.2⟩ := hc.segR.2.1
  obtain ⟨hA, hA2, _, hB⟩ := nodup_middle_facts (ms0 ++ [pl]) (q :: rest) n hc.nodup
  obtain ⟨hE, hE2, _, _⟩ := nodup_middle_facts (ms0 ++ [pl]) rest q hB
  have hC : ((ms0 ++ pl :: (q :: rest)).map Prod.fst).Nodup := by simpa using hB
  obtain ⟨hD, _, hD3, _⟩ := nodup_middle_facts ms0 (q :: rest) pl hC
  have hpn : pl.1 ≠ n.1 := hA pl (by simp)
  have hpq : pl.1 ≠ q.1 := hE pl (by simp)
  have hnq : n.1 ≠ q.1 := fun h => hA2 q (List.mem_cons_self _ _) h.symm
  have hx0 : ∀ m, m ∈ ms0 → m.1 ≠ pl.1 ∧ m.1 ≠ n.1 ∧ m.1 ≠ q.1 := fun m hm =>
    ⟨hD m hm, hA m (List.mem_append_left _ hm), hE m (List.mem_append_left _ hm)⟩
  have hxr : ∀ m, m ∈ rest → m.1 ≠ pl.1 ∧ m.1 ≠ n.1 ∧ m.1 ≠ q.1 := fun m hm =>
    ⟨(nodup_middle_facts ms0 (q :: rest) pl hC).2.1 m (List.mem_cons_of_mem _ hm),
      hA2 m (List.mem_cons_of_mem _ hm), hE2 m hm⟩
  obtain ⟨hf, hcells⟩ := relink_interior s pl.1 n.1 q.1 (some pl.2) (some n.2) (some q.2)
    (lastOr ms0 none) (firstOr rest none) hpn hnq hpq hpl hcell hq
  have hne : ms0 ++ [pl] ≠ [] := by simp
  refine ⟨⟨?_, ⟨?_, ?_⟩, ?_, ?_, ?_, ?_, ?_⟩, hf, ?_⟩
  · refine (Seg_snoc_iff _ ms0 pl _ none).2 ⟨?_, ?_⟩
    · apply Seg_congr s _ ms0 (some pl.1) none _ hsegL.1
      intro m hm
      obtain ⟨h1, h2, h3⟩ := hx0 m hm
      rw [hcells m.1, if_neg h2, if_neg h1, if_neg h3]
    · rw [hcells pl.1, if_neg hpn, if_pos rfl]
      rfl
  · rw [hcells q.1, if_neg (fun h => hnq h.symm), if_neg (fun h => hpq h.symm), if_pos rfl,
      lastOr_append_singleton]
  · apply Seg_congr s _ rest none (some q.1) _ hc.segR.2.2
    intro m hm
    obtain ⟨h1, h2, h3⟩ := hxr m hm
    rw [hcells m.1, if_neg h2, if_neg h1, if_neg h3]
  · exact hB
  · intro m hm
    rw [hf]
    apply hc.bound m
    rcases List.mem_append.1 hm with h | h
    · exact List.mem_append_left _ h
    · exact List.mem_append_right _ (List.mem_cons_of_mem _ h)
  · show l.head = _
    rw [hc.head_eq, firstOr_append (ms0 ++ [pl]) (n :: q :: rest),
      firstOr_append (ms0 ++ [pl]) (q :: rest)]
    exact firstOr_of_ne_nil _ hne _ _
  · show l.tail = _
    rw [hc.tail_eq, lastOr_append (ms0 ++ [pl]) (n :: q :: rest),
      lastOr_append (ms0 ++ [pl]) (q :: rest)]
    rfl
  · have := hc.length_eq
    simp only [List.length_append, List.length_cons, List.length_nil] at this ⊢
    omega
  · intro x hxn hxp hxq
    rw [hcells x, if_neg hxn, if_neg hxp, if_neg hxq]

end DoublyLinkedList

namespace DoublyLinkedList

/-! ## The loop of `erase` -/

theorem eraseLoop_keep {K : Type} [DecidableEq K] (value : K) (f : Nat) (s : Store K)
    (l : Header) (c count : Nat) (hk : s.getKey c ≠ some value) :
    Header.eraseLoop value (f + 1) s l (some c) count
      = Header.eraseLoop value f s l (s.getNext c) count := by
  rw [Header.eraseLoop, if_neg hk]

theorem eraseLoop_head {K : Type} [DecidableEq K] (value : K) (f : Nat) (s : Store K)
    (l : Header) (c count : Nat) (hk : s.getKey c = some value) (hh : some c = l.head) :
    Header.eraseLoop value (f + 1) s l (some c) count
      = Header.eraseLoop value f (Header.pop_front s l).1 (Header.pop_front s l).2
          (s.getNext c) (count + 1) := by
  rw [Header.eraseLoop, if_pos hk, if_pos hh]

theorem eraseLoop_tail {K : Type} [DecidableEq K] (value : K) (f : Nat) (s : Store K)
    (l : Header) (c count : Nat) (hk : s.getKey c = some value) (hh : some c ≠ l.head)
    (ht : some c = l.tail) :
    Header.eraseLoop value (f + 1) s l (some c) count
      = Header.eraseLoop value f (Header.pop_back s l).1 (Header.pop_back s l).2
          (s.getNext c) (count + 1) := by
  rw [Header.eraseLoop, if_pos hk, if_neg hh, if_pos ht]

theorem eraseLoop_interior {K : Type} [DecidableEq K] (value : K) (f : Nat) (s : Store K)
    (l : Header) (c count p q : Nat) (hk : s.getKey c = some value) (hh : some c ≠ l.head)
    (ht : some c ≠ l.tail) (hp : s.getPrevious c = some p) (hq : s.getNext c = some q) :
    Header.eraseLoop value (f + 1) s l (some c) count
      = Header.eraseLoop value f
          (Node.destroy (Node.setNext (Node.setPrevious s q (some p)) p (some q)) c)
          ⟨l.head, l.tail, l.length - 1⟩ (some q) (count + 1) := by
  rw [Header.eraseLoop, if_pos hk, if_neg hh, if_neg ht, hp, hq]

/-- The loop of `erase`, started with the cursor at the first node of `rest`, ends within
`rest.length + 1` loop tests; it removes exactly the nodes of `rest` that hold `value`, leaves a
well-linked list, counts the removed nodes, creates no node and touches no cell outside the
list. -/
theorem eraseLoop_spec {K : Type} [DecidableEq K] (value : K) :
    ∀ (rest ms : List (Nat × K)) (fuel : Nat) (s : Store K) (l : Header) (count : Nat),
      rest.length < fuel → Cursor s l ms rest →
      ∃ r, Header.eraseLoop value fuel s l (firstOr rest none) count = some r ∧
        WellLinked r.1 r.2.1 (ms ++ rest.filter (fun n => decide (n.2 ≠ value))) ∧
        r.2.2 = count + rest.countP (fun n => decide (n.2 = value)) ∧
        r.1.fresh = s.fresh ∧
        ∀ x, (∀ n, n ∈ ms ++ rest → x ≠ n.1) → r.1.cell x = s.cell x := by
  intro rest
  induction rest with
  | nil =>
    intro ms fuel s l count hf hc
    obtain ⟨f, rfl⟩ : ∃ f, fuel = f + 1 := ⟨fuel - 1, by omega⟩
    refine ⟨(s, l, count), rfl, ?_, ?_, rfl, fun _ _ => rfl⟩
    · simpa using WellLinked_of_Cursor s l ms hc
    · simp
  | cons n rest ih =>
    intro ms fuel s l count hf hc
    obtain ⟨f, rfl⟩ : ∃ f, fuel = f + 1 := ⟨fuel - 1, by omega⟩
    have hf' : rest.length < f := by
      simp only [List.length_cons] at hf
      omega
    have hcell := Cursor_cell s l ms rest n hc
    have hkey : s.getKey n.1 = some n.2 := by simp [Store.getKey, hcell]
    have hnext : s.getNext n.1 = firstOr rest none := by simp [Store.getNext, hcell]
    have hprev : s.getPrevious n.1 = lastOr ms none := by simp [Store.getPrevious, hcell]
    show ∃ r, Header.eraseLoop value (f + 1) s l (some n.1) count = some r ∧ _
    by_cases hv : n.2 = value
    · have htest : s.getKey n.1 = some value := by rw [hkey, hv]
      have hfilter : (n :: rest).filter (fun n => decide (n.2 ≠ value))
          = rest.filter (fun n => decide (n.2 ≠ value)) := by
        simp [hv]
      have hcountP : (n :: rest).countP (fun n => decide (n.2 = value))
          = rest.countP (fun n => decide (n.2 = value)) + 1 := by
        simp [hv]
      rw [hfilter, hcountP]
      rcases List.eq_nil_or_concat ms with hms | ⟨ms0, pl, hms⟩
      · -- the node is the head
        subst hms
        have hhead : some n.1 = l.head := by rw [hc.head_eq]; rfl
        rw [eraseLoop_head value f s l n.1 count htest hhead, hnext]
        cases rest with
        | nil =>
          obtain ⟨hc', hfr, hframe⟩ := Cursor_remove_single s l n hc
          have hlen : l.length = 1 := hc.length_eq
          have hpop : Header.pop_front s l = (Node.destroy s n.1, ⟨none, none, l.length - 1⟩) := by
            simp [Header.pop_front, hlen, ← hhead]
          rw [hpop]
          obtain ⟨r, hr, hw, hcnt, hfresh, hfr2⟩ := ih [] f _ _ (count + 1) hf' hc'
          refine ⟨r, hr, hw, ?_, ?_, ?_⟩
          · rw [hcnt]; omega
          · rw [hfresh, hfr]
          · intro x hx
            rw [hfr2 x (fun m hm => by simp at hm)]
            exact hframe x (hx n (by simp))
        | cons q rest =>
          obtain ⟨hc', hfr, hframe⟩ := Cursor_remove_first s l n q rest hc
          have hlen : l.length = rest.length + 2 := hc.length_eq
          have hpop : Header.pop_front s l
              = (Node.destroy s n.1, ⟨some q.1, l.tail, l.length - 1⟩) := by
            have h0 : l.length ≠ 0 := by omega
            have h1 : l.length ≠ 1 := by omega
            have hq1 : s.getNext n.1 = some q.1 := hnext
            simp [Header.pop_front, h0, h1, ← hhead, hq1]
          rw [hpop]
          obtain ⟨r, hr, hw, hcnt, hfresh, hfr2⟩ := ih [] f _ _ (count + 1) hf' hc'
          refine ⟨r, hr, hw, ?_, ?_, ?_⟩
          · rw [hcnt]; omega
          · rw [hfresh, hfr]
          · intro x hx
            rw [hfr2 x (fun m hm => hx m (List.mem_cons_of_mem _ (by simpa using hm)))]
            exact hframe x (hx n (by simp)) (hx q (by simp))
      · -- the node has a predecessor
        rw [List.concat_eq_append] at hms
        subst hms
        obtain ⟨hA, hA2, _, _⟩ := nodup_middle_facts (ms0 ++ [pl]) rest n hc.nodup
        have hne : ms0 ++ [pl] ≠ [] := by simp
        have hhead : some n.1 ≠ l.head := by
          rw [hc.head_eq, firstOr_append]
          obtain ⟨m, ms1, hm⟩ : ∃ m ms1, ms0 ++ [pl] = m :: ms1 := by
            cases hms0 : ms0 ++ [pl] with
            | nil => exact absurd hms0 hne
            | cons m ms1 => exact ⟨m, ms1, rfl⟩
          rw [hm]
          intro h
          have hmem : m ∈ ms0 ++ [pl] := by rw [hm]; exact List.mem_cons_self _ _
          exact hA m hmem (Option.some.inj h).symm
        have hprev' : s.getPrevious n.1 = some pl.1 := by
          rw [hprev, lastOr_append_singleton]
        cases rest with
        | nil =>
          have htail : some n.1 = l.tail := by
            rw [hc.tail_eq, lastOr_append_singleton]
          rw [eraseLoop_tail value f s l n.1 count htest hhead htail, hnext]
          obtain ⟨hc', hfr, hframe⟩ := Cursor_remove_last s l ms0 pl n hc
          have hlen : l.length = ms0.length + 2 := by
            rw [hc.length_eq]
            simp
          have hpop : Header.pop_back s l
              = (Node.destroy s n.1, ⟨l.head, some pl.1, l.length - 1⟩) := by
            have h0 : l.length ≠ 0 := by omega
            have h1 : l.length ≠ 1 := by omega
            simp [Header.pop_back, h0, h1, ← htail, hprev']
          rw [hpop]
          obtain ⟨r, hr, hw, hcnt, hfresh, hfr2⟩ := ih (ms0 ++ [pl]) f _ _ (count + 1) hf' hc'
          refine ⟨r, hr, hw, ?_, ?_, ?_⟩
          · rw [hcnt]; omega
          · rw [hfresh, hfr]
          · intro x hx
            rw [hfr2 x (fun m hm => hx m (List.mem_append_left _ (by simpa using hm)))]
            exact hframe x (hx n (by simp)) (hx pl (by simp))
        | cons q rest =>
          have htail : some n.1 ≠ l.tail := by
            rw [hc.tail_eq, lastOr_append]
            obtain ⟨z, hz, hlast⟩ := lastOr_mem (q :: rest) (some n.1) (by simp)
            have hl : lastOr (n :: q :: rest) (lastOr (ms0 ++ [pl]) none)
                = lastOr (q :: rest) (some n.1) := rfl
            rw [hl, hlast]
            intro h
            exact hA2 z hz (Option.some.inj h).symm
          have hnext' : s.getNext n.1 = some q.1 := hnext
          rw [eraseLoop_interior value f s l n.1 count pl.1 q.1 htest hhead htail hprev' hnext']
          obtain ⟨hc', hfr, hframe⟩ := Cursor_remove_interior s l ms0 pl n q rest hc
          obtain ⟨r, hr, hw, hcnt, hfresh, hfr2⟩ := ih (ms0 ++ [pl]) f _ _ (count + 1) hf' hc'
          refine ⟨r, hr, hw, ?_, ?_, ?_⟩
          · rw [hcnt]; omega
          · rw [hfresh, hfr]
          · intro x hx
            rw [hfr2 x (fun m hm => hx m (by
              rcases List.mem_append.1 hm with h | h
              · exact List.mem_append_left _ h
              · exact List.mem_append_right _ (List.mem_cons_of_mem _ h)))]
            exact hframe x (hx n (by simp)) (hx pl (by simp)) (hx q (by simp))
    · have htest : s.getKey n.1 ≠ some value := by
        rw [hkey]
        exact fun h => hv (Option.some.inj h)
      rw [eraseLoop_keep value f s l n.1 count htest, hnext]
      obtain ⟨r, hr, hw, hcnt, hfresh, hfr2⟩ :=
        ih (ms ++ [n]) f s l count hf' (Cursor_advance s l ms rest n hc)
      refine ⟨r, hr, ?_, ?_, hfresh, ?_⟩
      · have hfilter : (n :: rest).filter (fun n => decide (n.2 ≠ value))
            = n :: rest.filter (fun n => decide (n.2 ≠ value)) := by
          simp [hv]
        rw [hfilter]
        simpa using hw
      · rw [hcnt]
        simp [hv]
      · intro x hx
        exact hfr2 x (fun m hm => hx m (by simpa using hm))

end DoublyLinkedList

namespace DoublyLinkedList

/-! ## Well-linked buckets have link integrity -/

theorem follow_none {K : Type} (s : Store K) (b : Nat) : follow s b none = [] := by
  cases b <;> rfl

theorem follow_of_Seg {K : Type} (s : Store K) (ns : List (Nat × K)) :
    ∀ (pv : Option Nat) (b : Nat), ns.length < b → Seg s pv ns none →
      follow s b (firstOr ns none) = ns.map Prod.fst := by
  induction ns with
  | nil => intro pv b _ _; exact follow_none s b
  | cons n ns ih =>
    intro pv b hb hseg
    obtain ⟨b', rfl⟩ : ∃ b', b = b' + 1 := ⟨b - 1, by omega⟩
    have hnext : s.getNext n.1 = firstOr ns none := by simp [Store.getNext, hseg.1]
    have hb' : ns.length < b' := by
      simp only [List.length_cons] at hb
      omega
    show n.1 :: follow s b' (s.getNext n.1) = n.1 :: ns.map Prod.fst
    rw [hnext, ih (some n.1) b' hb' hseg.2]

theorem follow_of_WellLinked {K : Type} (s : Store K) (l : Header) (ns : List (Nat × K))
    (hw : WellLinked s l ns) : follow s (l.length + 1) l.head = ns.map Prod.fst := by
  rw [hw.head_eq, hw.length_eq]
  exact follow_of_Seg s ns none _ (Nat.lt_succ_self _) hw.seg

theorem firstOr_mem {K : Type} (ns : List (Nat × K)) (nx : Option Nat) :
    firstOr ns nx = nx ∨ ∃ m, m ∈ ns ∧ firstOr ns nx = some m.1 := by
  cases ns with
  | nil => exact Or.inl rfl
  | cons m ns => exact Or.inr ⟨m, List.mem_cons_self _ _, rfl⟩

/-- In a chain `next` of a node is the end of the chain or a node of the chain. -/
theorem Seg_next_mem {K : Type} (s : Store K) (ns : List (Nat × K)) (nx : Option Nat) :
    ∀ pv : Option Nat, Seg s pv ns nx → ∀ a, a ∈ ns →
      s.getNext a.1 = nx ∨ ∃ b, b ∈ ns ∧ s.getNext a.1 = some b.1 := by
  induction ns with
  | nil => intro pv _ a ha; simp at ha
  | cons n ns ih =>
    intro pv hseg a ha
    rcases List.mem_cons.1 ha with rfl | ha'
    · have hnext : s.getNext a.1 = firstOr ns nx := by simp [Store.getNext, hseg.1]
      rw [hnext]
      rcases firstOr_mem ns nx with h | ⟨m, hm, h⟩
      · exact Or.inl h
      · exact Or.inr ⟨m, List.mem_cons_of_mem _ hm, h⟩
    · rcases ih (some n.1) hseg.2 a ha' with h | ⟨b, hb, h⟩
      · exact Or.inl h
      · exact Or.inr ⟨b, List.mem_cons_of_mem _ hb, h⟩

/-- In a chain `prev` of the first node is the start of the chain, `prev` of any other node is
a node of the chain. -/
theorem Seg_prev_mem {K : Type} (s : Store K) (ns : List (Nat × K)) (nx : Option Nat) :
    ∀ pv : Option Nat, Seg s pv ns nx → (ns.map Prod.fst).Nodup → ∀ b, b ∈ ns →
      (firstOr ns nx = some b.1 ∧ s.getPrevious b.1 = pv) ∨
        (firstOr ns nx ≠ some b.1 ∧ ∃ a, a ∈ ns ∧ s.getPrevious b.1 = some a.1) := by
  induction ns with
  | nil => intro pv _ _ b hb; simp at hb
  | cons n ns ih =>
    intro pv hseg hnd b hb
    rw [List.map_cons, List.nodup_cons] at hnd
    rcases List.mem_cons.1 hb with rfl | hb'
    · left
      exact ⟨rfl, by simp [Store.getPrevious, hseg.1]⟩
    · right
      have hne : b.1 ≠ n.1 := fun h => hnd.1 (h ▸ List.mem_map_of_mem Prod.fst hb')
      refine ⟨fun h => hne (Option.some.inj h).symm, ?_⟩
      rcases ih (some n.1) hseg.2 hnd.2 b hb' with ⟨_, h⟩ | ⟨_, a, ha, h⟩
      · exact ⟨n, List.mem_cons_self _ _, h⟩
      · exact ⟨a, List.mem_cons_of_mem _ ha, h⟩

/-- In a chain of distinct nodes that does not contain its start, `A.next == B` if and only if
`B.prev == A`. -/
theorem Seg_next_iff_prev {K : Type} (s : Store K) (ns : List (Nat × K)) :
    ∀ pv : Option Nat, Seg s pv ns none → (ns.map Prod.fst).Nodup →
      (∀ p, pv = some p → ∀ m, m ∈ ns → m.1 ≠ p) →
      ∀ a, a ∈ ns → ∀ b, b ∈ ns → (s.getNext a.1 = some b.1 ↔ s.getPrevious b.1 = some a.1) := by
  induction ns with
  | nil => intro pv _ _ _ a ha; simp at ha
  | cons n ns ih =>
    intro pv hseg hnd hpv a ha b hb
    have hnd' := hnd
    rw [List.map_cons, List.nodup_cons] at hnd'
    have hnotin : ∀ m, m ∈ ns → m.1 ≠ n.1 :=
      fun m hm h => hnd'.1 (h ▸ List.mem_map_of_mem Prod.fst hm)
    have hnext : s.getNext n.1 = firstOr ns none := by simp [Store.getNext, hseg.1]
    have hprev : s.getPrevious n.1 = pv := by simp [Store.getPrevious, hseg.1]
    rcases List.mem_cons.1 ha with hae | ha'
    · rw [hae]
      rcases List.mem_cons.1 hb with hbe | hb'
      · -- a node is neither its own successor nor its own predecessor
        rw [hbe]
        constructor
        · intro h
          rw [hnext] at h
          rcases firstOr_mem ns none with h0 | ⟨m, hm, h1⟩
          · rw [h0] at h
            cases h
          · rw [h1] at h
            exact absurd (Option.some.inj h) (hnotin m hm)
        · intro h
          rw [hprev] at h
          exact absurd rfl (hpv n.1 h n (List.mem_cons_self _ _))
      · rw [hnext]
        rcases Seg_prev_mem s ns none (some n.1) hseg.2 hnd'.2 b hb' with
          ⟨h1, h2⟩ | ⟨h1, c, hc, h2⟩
        · exact ⟨fun _ => h2, fun _ => h1⟩
        · constructor
          · intro h
            exact absurd h h1
          · intro h
            rw [h2] at h
            exact absurd (Option.some.inj h) (hnotin c hc)
    · rcases List.mem_cons.1 hb with hbe | hb'
      · rw [hbe]
        constructor
        · intro h
          rcases Seg_next_mem s ns none (some n.1) hseg.2 a ha' with h0 | ⟨c, hc, h1⟩
          · rw [h0] at h
            cases h
          · rw [h1] at h
            exact absurd (Option.some.inj h) (hnotin c hc)
        · intro h
          rw [hprev] at h
          exact absurd rfl (hpv a.1 h a (List.mem_cons_of_mem _ ha'))
      · exact ih (some n.1) hseg.2 hnd'.2
          (fun p hp m hm => by
            cases hp
            exact hnotin m hm) a ha' b hb'

theorem getLast_map_fst {K : Type} (ns : List (Nat × K)) :
    (ns.map Prod.fst).getLast? = lastOr ns none := by
  rcases List.eq_nil_or_concat ns with rfl | ⟨ms, t, rfl⟩
  · rfl
  · rw [List.concat_eq_append, lastOr_append_singleton]
    simp

/-- A well-linked bucket has link integrity. -/
theorem LinkIntegrity_of_WellLinked {K : Type} (s : Store K) (l : Header)
    (ns : List (Nat × K)) (hw : WellLinked s l ns) : LinkIntegrity s l := by
  have hfollow := follow_of_WellLinked s l ns hw
  unfold LinkIntegrity
  rw [hfollow]
  refine ⟨?_, ?_, ?_, ?_, ?_⟩
  · intro a ha b hb
    obtain ⟨na, hna, rfl⟩ := List.mem_map.1 ha
    obtain ⟨nb, hnb, rfl⟩ := List.mem_map.1 hb
    exact Seg_next_iff_prev s ns none hw.seg hw.nodup (fun p hp => by cases hp) na hna nb hnb
  · intro hd hhd
    rw [hw.head_eq] at hhd
    cases ns with
    | nil => cases hhd
    | cons n ns =>
      cases hhd
      simp [Store.getPrevious, hw.seg.1]
  · intro tl htl
    rw [hw.tail_eq] at htl
    rcases List.eq_nil_or_concat ns with rfl | ⟨ms, t, rfl⟩
    · cases htl
    · rw [List.concat_eq_append] at htl hw
      rw [lastOr_append_singleton] at htl
      cases htl
      have := ((Seg_snoc_iff s ms t none none).1 hw.seg).2
      simp [Store.getNext, this]
  · rw [List.length_map, hw.length_eq]
  · rw [getLast_map_fst, hw.tail_eq]

end DoublyLinkedList

namespace DoublyLinkedList

/-! ## `push_back` and `erase` on well-linked buckets -/

theorem WellLinked_empty {K : Type} (s : Store K) : WellLinked s Header.empty [] :=
  ⟨trivial, List.nodup_nil, fun _ h => absurd h (List.not_mem_nil _), rfl, rfl, rfl⟩

/-- `push_back` links one new node, holding `value`, behind the last node; the new node is the
next fresh cell and no other cell outside the list changes. -/
theorem push_back_WellLinked {K : Type} (s : Store K) (l : Header) (ns : List (Nat × K))
    (value : K) (hw : WellLinked s l ns) :
    WellLinked (Header.push_back s l value).1 (Header.push_back s l value).2
        (ns ++ [(s.fresh, value)]) ∧
      (Header.push_back s l value).1.fresh = s.fresh + 1 ∧
      ∀ x, x ≠ s.fresh → (∀ n, n ∈ ns → x ≠ n.1) →
        (Header.push_back s l value).1.cell x = s.cell x := by
  rcases List.eq_nil_or_concat ns with hns | ⟨ms, t, hns⟩
  · subst hns
    have hlen : l.length = 0 := hw.length_eq
    have hpb : Header.push_back s l value
        = ((s.alloc value).1, ⟨some (s.alloc value).2, some (s.alloc value).2, l.length + 1⟩) := by
      simp [Header.push_back, hlen]
    rw [hpb]
    refine ⟨⟨?_, ?_, ?_, rfl, rfl, ?_⟩, rfl, ?_⟩
    · exact ⟨by simp [Store.alloc, firstOr], trivial⟩
    · simp
    · intro n hn
      have : n = (s.fresh, value) := by simpa using hn
      subst this
      exact Nat.lt_succ_self _
    · show l.length + 1 = 1
      omega
    · intro x hx _
      simp [Store.alloc, hx]
  · rw [List.concat_eq_append] at hns
    subst hns
    have hlen : l.length = ms.length + 1 := by
      rw [hw.length_eq]
      simp
    have htail : l.tail = some t.1 := by
      rw [hw.tail_eq, lastOr_append_singleton]
    have hseg := (Seg_snoc_iff s ms t none none).1 hw.seg
    have hlt : t.1 < s.fresh := hw.bound t (by simp)
    obtain ⟨hf, hcells⟩ := createNext_last s t.1 (some t.2) (lastOr ms none) value hseg.2 hlt
    have hgn : (Node.createNext s t.1 value).getNext t.1 = some s.fresh := by
      have := hcells t.1
      rw [if_neg (Nat.ne_of_lt hlt), if_pos rfl] at this
      simp [Store.getNext, this]
    have hpb : Header.push_back s l value
        = (Node.createNext s t.1 value, ⟨l.head, some s.fresh, l.length + 1⟩) := by
      have h0 : l.length ≠ 0 := by omega
      simp [Header.push_back, h0, htail, hgn]
    rw [hpb]
    obtain ⟨hA, _, _, hB⟩ := nodup_middle_facts ms [] t hw.nodup
    have hne : ms ++ [t] ≠ [] := by simp
    refine ⟨⟨?_, ?_, ?_, ?_, ?_, ?_⟩, hf, ?_⟩
    · refine (Seg_snoc_iff _ (ms ++ [t]) (s.fresh, value) none none).2 ⟨?_, ?_⟩
      · refine (Seg_snoc_iff _ ms t _ none).2 ⟨?_, ?_⟩
        · apply Seg_congr s _ ms (some t.1) none _ hseg.1
          intro m hm
          have hmlt : m.1 < s.fresh := hw.bound m (List.mem_append_left _ hm)
          rw [hcells m.1, if_neg (Nat.ne_of_lt hmlt), if_neg (hA m hm)]
        · rw [hcells t.1, if_neg (Nat.ne_of_lt hlt), if_pos rfl]
      · rw [hcells s.fresh, if_pos rfl, lastOr_append_singleton]
    · rw [List.map_append, List.nodup_append]
      refine ⟨hw.nodup, by simp, ?_⟩
      intro a ha hb
      obtain ⟨m, hm, rfl⟩ := List.mem_map.1 ha
      have hmlt : m.1 < s.fresh := hw.bound m hm
      have : m.1 = s.fresh := by simpa using hb
      omega
    · intro n hn
      rw [hf]
      rcases List.mem_append.1 hn with h | h
      · exact Nat.lt_succ_of_lt (hw.bound n h)
      · have : n = (s.fresh, value) := by simpa using h
        subst this
        exact Nat.lt_succ_self _
    · show l.head = _
      rw [hw.head_eq, firstOr_append (ms ++ [t]) [(s.fresh, value)]]
      exact firstOr_of_ne_nil _ hne _ _
    · show some s.fresh = _
      rw [lastOr_append_singleton]
    · show l.length + 1 = _
      rw [hw.length_eq]
      simp
    · intro x hx hxn
      rw [hcells x, if_neg hx, if_neg (hxn t (by simp))]

/-- `erase` returns: its loop ends within `length + 1` tests.  It removes exactly the nodes that
hold `value`, returns their number, and leaves a well-linked list. -/
theorem erase_WellLinked {K : Type} [DecidableEq K] (s : Store K) (l : Header)
    (ns : List (Nat × K)) (value : K) (hw : WellLinked s l ns) :
    ∃ r, Header.erase s l value = some r ∧
      WellLinked r.1 r.2.1 (ns.filter (fun n => decide (n.2 ≠ value))) ∧
      r.2.2 = ns.countP (fun n => decide (n.2 = value)) ∧
      r.1.fresh = s.fresh ∧
      ∀ x, (∀ n, n ∈ ns → x ≠ n.1) → r.1.cell x = s.cell x := by
  obtain ⟨r, hr, h1, h2, h3, h4⟩ := eraseLoop_spec value ns [] (l.length + 1) s l 0
    (by rw [hw.length_eq]; exact Nat.lt_succ_self _) (Cursor_of_WellLinked s l ns hw)
  refine ⟨r, ?_, ?_, ?_, h3, ?_⟩
  · unfold Header.erase
    rw [hw.head_eq]
    exact hr
  · simpa using h1
  · simpa using h2
  · simpa using h4

/-- Every state of a bucket is well linked. -/
theorem Reachable_WellLinked {K : Type} [DecidableEq K] (s : Store K) (l : Header)
    (hr : Header.Reachable s l) : ∃ ns : List (Nat × K), WellLinked s l ns := by
  induction hr with
  | init s => exact ⟨[], WellLinked_empty s⟩
  | push_back s l value _ ih =>
    obtain ⟨ns, hw⟩ := ih
    exact ⟨_, (push_back_WellLinked s l ns value hw).1⟩
  | erase s l value r _ he ih =>
    obtain ⟨ns, hw⟩ := ih
    obtain ⟨r', hr', hw', _⟩ := erase_WellLinked s l ns value hw
    rw [he] at hr'
    cases hr'
    exact ⟨_, hw'⟩
  | other s s' l _ hfresh hsame ih =>
    obtain ⟨ns, hw⟩ := ih
    rw [follow_of_WellLinked s l ns hw] at hsame
    refine ⟨ns, ⟨?_, hw.nodup, ?_, hw.head_eq, hw.tail_eq, hw.length_eq⟩⟩
    · exact Seg_congr s s' ns none none
        (fun n hn => hsame n.1 (List.mem_map_of_mem Prod.fst hn)) hw.seg
    · intro n hn
      exact Nat.lt_of_lt_of_le (hw.bound n hn) hfresh

end DoublyLinkedList

namespace DoublyLinkedList

/-! ## The nodes of a bucket and its sequence of keys -/

theorem keys_of_WellLinked {K : Type} (s : Store K) (l : Header) (ns : List (Nat × K))
    (hw : WellLinked s l ns) : Header.keys s l = (ns.map Prod.snd).map some := by
  unfold Header.keys
  rw [follow_of_WellLinked s l ns hw, List.map_map, List.map_map]
  apply List.map_congr_left
  intro n hn
  obtain ⟨nxt, prv, hcell⟩ := Seg_cell s ns none none hw.seg n hn
  simp [Store.getKey, hcell]

theorem map_snd_filter {K : Type} [DecidableEq K] (ns : List (Nat × K)) (value : K) :
    (ns.filter (fun n => decide (n.2 ≠ value))).map Prod.snd
      = (ns.map Prod.snd).filter (fun x => decide (x ≠ value)) := by
  rw [List.filter_map]
  rfl

theorem countP_snd_eq_count {K : Type} [DecidableEq K] (ns : List (Nat × K)) (value : K) :
    ns.countP (fun n => decide (n.2 = value)) = (ns.map Prod.snd).count value := by
  induction ns with
  | nil => rfl
  | cons n ns ih =>
    by_cases h : n.2 = value <;> simp [h, ih, List.count_cons]

/-- The operations on the nodes of a bucket act on its sequence of keys as `push_back` and
`erase` of the sequence do. -/
theorem nodes_refine_keys {K : Type} [DecidableEq K] (s : Store K) (l : Header)
    (hr : Header.Reachable s l) (value : K) :
    ∃ ks : List K, Header.keys s l = ks.map some ∧ l.length = ks.length ∧
      Header.keys (Header.push_back s l value).1 (Header.push_back s l value).2
        = (push_back ks value).map some ∧
      ∃ r, Header.erase s l value = some r ∧
        Header.keys r.1 r.2.1 = (erase ks value).1.map some ∧ r.2.2 = (erase ks value).2 := by
  obtain ⟨ns, hw⟩ := Reachable_WellLinked s l hr
  obtain ⟨r, hr', hw', hcnt, _⟩ := erase_WellLinked s l ns value hw
  refine ⟨ns.map Prod.snd, keys_of_WellLinked s l ns hw, ?_, ?_, r, hr', ?_, ?_⟩
  · rw [hw.length_eq, List.length_map]
  · rw [keys_of_WellLinked _ _ _ (push_back_WellLinked s l ns value hw).1, push_back_eq]
    simp
  · rw [keys_of_WellLinked _ _ _ hw', list_erase_eq, map_snd_filter]
  · rw [hcnt, list_erase_eq, countP_snd_eq_count]

/-- A bucket with the keys 7, 5, 7, 9, 7: `erase(7)` removes the head, an interior node and the
tail, returns 3 and leaves the nodes of 5 and 9 linked to each other. -/
theorem erase_example :
    (Header.erase (Header.ofList [7, 5, 7, 9, 7]).1 (Header.ofList [7, 5, 7, 9, 7]).2 7).map
        (fun r => (Header.keys r.1 r.2.1, r.2.1, r.2.2, r.1.getNext 1, r.1.getPrevious 3,
          r.1.getPrevious 1, r.1.getNext 3))
      = some ([some 5, some 9], ⟨some 1, some 3, 2⟩, 3, some 3, some 1, none, none) := by
  rfl

/-- C21 (chained bucket link integrity).  In every state of a bucket of the chained table
(reached from the empty bucket by `push_back`, used by `insert`, and by `erase`, which removes
head, tail and interior nodes, the latter by `setPrevious` followed by `setNext`), for all
nodes `A` and `B` of the bucket `A.next == B` if and only if `B.prev == A`, `head.prev` and
`tail.next` are null, and following `next` from `head` visits exactly `length` nodes and ends
at `tail`.  The same holds after one more `push_back` and after one more `erase`, whose loop
ends. -/
theorem C21_chained_link_integrity {K : Type} [DecidableEq K] (s : Store K) (l : Header)
    (hr : Header.Reachable s l) (value : K) :
    LinkIntegrity s l ∧
      LinkIntegrity (Header.push_back s l value).1 (Header.push_back s l value).2 ∧
      ∃ r, Header.erase s l value = some r ∧ LinkIntegrity r.1 r.2.1 := by
  obtain ⟨ns, hw⟩ := Reachable_WellLinked s l hr
  obtain ⟨r, hr', hw', _⟩ := erase_WellLinked s l ns value hw
  exact ⟨LinkIntegrity_of_WellLinked s l ns hw,
    LinkIntegrity_of_WellLinked _ _ _ (push_back_WellLinked s l ns value hw).1,
    r, hr', LinkIntegrity_of_WellLinked _ _ _ hw'⟩

theorem C21_chained_link_integrity_witness :
    Header.Reachable (Header.ofList [7, 5, 7, 9, 7]).1 (Header.ofList [7, 5, 7, 9, 7]).2 ∧
      (LinkIntegrity (Header.ofList [7, 5, 7, 9, 7]).1 (Header.ofList [7, 5, 7, 9, 7]).2 ∧
        LinkIntegrity
          (Header.push_back (Header.ofList [7, 5, 7, 9, 7]).1 (Header.ofList [7, 5, 7, 9, 7]).2
            7).1
          (Header.push_back (Header.ofList [7, 5, 7, 9, 7]).1 (Header.ofList [7, 5, 7, 9, 7]).2
            7).2 ∧
        ∃ r, Header.erase (Header.ofList [7, 5, 7, 9, 7]).1 (Header.ofList [7, 5, 7, 9, 7]).2 7
            = some r ∧ LinkIntegrity r.1 r.2.1) :=
  ⟨Header.Reachable.push_back _ _ 7 (Header.Reachable.push_back _ _ 9
      (Header.Reachable.push_back _ _ 7 (Header.Reachable.push_back _ _ 5
        (Header.Reachable.push_back _ _ 7 (Header.Reachable.init (Store.initial Nat)))))),
    C21_chained_link_integrity _ _
      (Header.Reachable.push_back _ _ 7 (Header.Reachable.push_back _ _ 9
        (Header.Reachable.push_back _ _ 7 (Header.Reachable.push_back _ _ 5
          (Header.Reachable.push_back _ _ 7 (Header.Reachable.init (Store.initial Nat)))))))
      7⟩

end DoublyLinkedList


end Hashtable
